import Mathlib

/-!
# go-crypto: AES, DES, Triple-DES and the CTR stream construction

A shallow embedding of `aes/cipher.go`, `des/cipher.go` and `ctr.go`.

Conventions of the embedding:
* `uint8`, `uint32`, `uint64` values are natural numbers; every operation that can
  overflow in Go is followed by an explicit reduction modulo `2 ^ w`.
* A slice is a `List`; an operation that mutates a slice returns the new contents.
* A Go run-time panic is `Fault.panic`, a returned `error` is `Fault.error`, and a
  loop that is cut off by its fuel is `Fault.outOfFuel`.
-/

/-- The ways in which a call can fail to produce a value. -/
inductive Fault where
  | error (msg : String)
  | panic
  | outOfFuel
  deriving DecidableEq, Repr

deriving instance DecidableEq for Except

/-- Slice read `xs[i]`; panics when `i` is out of range. -/
def idx (xs : List α) (i : Nat) : Except Fault α :=
  match xs.get? i with
  | some v => .ok v
  | none => .error .panic

/-- Slice write `xs[i] = v`; panics when `i` is out of range. -/
def upd (xs : List α) (i : Nat) (v : α) : Except Fault (List α) :=
  if i < xs.length then .ok (xs.set i v) else .error .panic

/-- Conversion `uint8(x)`. -/
def u8 (x : Nat) : Nat := x % 256

/-- Conversion `uint32(x)`. -/
def u32 (x : Nat) : Nat := x % 4294967296

/-- Conversion `uint64(x)`. -/
def u64 (x : Nat) : Nat := x % 18446744073709551616

/-- Library call `binary.BigEndian.Uint32(b)`. -/
def beUint32 (b : List Nat) : Except Fault Nat :=
  match b with
  | b0 :: b1 :: b2 :: b3 :: _ => .ok (b3 ||| b2 <<< 8 ||| b1 <<< 16 ||| b0 <<< 24)
  | _ => .error .panic

/-- The four bytes stored by the library call `binary.BigEndian.PutUint32(b, v)`. -/
def bePutUint32 (v : Nat) : List Nat :=
  [u8 (v >>> 24), u8 (v >>> 16), u8 (v >>> 8), u8 v]

/-- Library call `binary.BigEndian.Uint64(b)`. -/
def beUint64 (b : List Nat) : Except Fault Nat :=
  match b with
  | b0 :: b1 :: b2 :: b3 :: b4 :: b5 :: b6 :: b7 :: _ =>
    .ok (b7 ||| b6 <<< 8 ||| b5 <<< 16 ||| b4 <<< 24 |||
      b3 <<< 32 ||| b2 <<< 40 ||| b1 <<< 48 ||| b0 <<< 56)
  | _ => .error .panic

/-- The `uint64` with big-endian bytes `b0 .. b7`. -/
def pack8 (b0 b1 b2 b3 b4 b5 b6 b7 : Nat) : Nat :=
  b0 * 72057594037927936 + b1 * 281474976710656 + b2 * 1099511627776 + b3 * 4294967296
    + b4 * 16777216 + b5 * 65536 + b6 * 256 + b7

/-- The eight bytes stored by the library call `binary.BigEndian.PutUint64(b, v)`. -/
def bePutUint64 (v : Nat) : List Nat :=
  [u8 (v >>> 56), u8 (v >>> 48), u8 (v >>> 40), u8 (v >>> 32),
   u8 (v >>> 24), u8 (v >>> 16), u8 (v >>> 8), u8 v]

namespace aes

def BlockSize : Nat := 16

structure aesCipher where
  enc : List (List Nat)
  dec : List (List Nat)
  deriving DecidableEq, Repr

/-- The array `sBox`, laid out in the sixteen rows of the source. -/
def sBoxRows : List (List Nat) :=
  [[0x63, 0x7c, 0x77, 0x7b, 0xf2, 0x6b, 0x6f, 0xc5, 0x30, 0x01, 0x67, 0x2b, 0xfe, 0xd7, 0xab, 0x76],
   [0xca, 0x82, 0xc9, 0x7d, 0xfa, 0x59, 0x47, 0xf0, 0xad, 0xd4, 0xa2, 0xaf, 0x9c, 0xa4, 0x72, 0xc0],
   [0xb7, 0xfd, 0x93, 0x26, 0x36, 0x3f, 0xf7, 0xcc, 0x34, 0xa5, 0xe5, 0xf1, 0x71, 0xd8, 0x31, 0x15],
   [0x04, 0xc7, 0x23, 0xc3, 0x18, 0x96, 0x05, 0x9a, 0x07, 0x12, 0x80, 0xe2, 0xeb, 0x27, 0xb2, 0x75],
   [0x09, 0x83, 0x2c, 0x1a, 0x1b, 0x6e, 0x5a, 0xa0, 0x52, 0x3b, 0xd6, 0xb3, 0x29, 0xe3, 0x2f, 0x84],
   [0x53, 0xd1, 0x00, 0xed, 0x20, 0xfc, 0xb1, 0x5b, 0x6a, 0xcb, 0xbe, 0x39, 0x4a, 0x4c, 0x58, 0xcf],
   [0xd0, 0xef, 0xaa, 0xfb, 0x43, 0x4d, 0x33, 0x85, 0x45, 0xf9, 0x02, 0x7f, 0x50, 0x3c, 0x9f, 0xa8],
   [0x51, 0xa3, 0x40, 0x8f, 0x92, 0x9d, 0x38, 0xf5, 0xbc, 0xb6, 0xda, 0x21, 0x10, 0xff, 0xf3, 0xd2],
   [0xcd, 0x0c, 0x13, 0xec, 0x5f, 0x97, 0x44, 0x17, 0xc4, 0xa7, 0x7e, 0x3d, 0x64, 0x5d, 0x19, 0x73],
   [0x60, 0x81, 0x4f, 0xdc, 0x22, 0x2a, 0x90, 0x88, 0x46, 0xee, 0xb8, 0x14, 0xde, 0x5e, 0x0b, 0xdb],
   [0xe0, 0x32, 0x3a, 0x0a, 0x49, 0x06, 0x24, 0x5c, 0xc2, 0xd3, 0xac, 0x62, 0x91, 0x95, 0xe4, 0x79],
   [0xe7, 0xc8, 0x37, 0x6d, 0x8d, 0xd5, 0x4e, 0xa9, 0x6c, 0x56, 0xf4, 0xea, 0x65, 0x7a, 0xae, 0x08],
   [0xba, 0x78, 0x25, 0x2e, 0x1c, 0xa6, 0xb4, 0xc6, 0xe8, 0xdd, 0x74, 0x1f, 0x4b, 0xbd, 0x8b, 0x8a],
   [0x70, 0x3e, 0xb5, 0x66, 0x48, 0x03, 0xf6, 0x0e, 0x61, 0x35, 0x57, 0xb9, 0x86, 0xc1, 0x1d, 0x9e],
   [0xe1, 0xf8, 0x98, 0x11, 0x69, 0xd9, 0x8e, 0x94, 0x9b, 0x1e, 0x87, 0xe9, 0xce, 0x55, 0x28, 0xdf],
   [0x8c, 0xa1, 0x89, 0x0d, 0xbf, 0xe6, 0x42, 0x68, 0x41, 0x99, 0x2d, 0x0f, 0xb0, 0x54, 0xbb, 0x16]]

/-- The read `sBox[i]`: entry `i % 16` of row `i / 16`. The index is a byte in every
use, so the read cannot go out of range. -/
def sBox (i : Nat) : Nat :=
  (sBoxRows.getD (i / 16) []).getD (i % 16) 0

/-- The array `inverseSBox`, laid out in the sixteen rows of the source. -/
def inverseSBoxRows : List (List Nat) :=
  [[0x52, 0x09, 0x6a, 0xd5, 0x30, 0x36, 0xa5, 0x38, 0xbf, 0x40, 0xa3, 0x9e, 0x81, 0xf3, 0xd7, 0xfb],
   [0x7c, 0xe3, 0x39, 0x82, 0x9b, 0x2f, 0xff, 0x87, 0x34, 0x8e, 0x43, 0x44, 0xc4, 0xde, 0xe9, 0xcb],
   [0x54, 0x7b, 0x94, 0x32, 0xa6, 0xc2, 0x23, 0x3d, 0xee, 0x4c, 0x95, 0x0b, 0x42, 0xfa, 0xc3, 0x4e],
   [0x08, 0x2e, 0xa1, 0x66, 0x28, 0xd9, 0x24, 0xb2, 0x76, 0x5b, 0xa2, 0x49, 0x6d, 0x8b, 0xd1, 0x25],
   [0x72, 0xf8, 0xf6, 0x64, 0x86, 0x68, 0x98, 0x16, 0xd4, 0xa4, 0x5c, 0xcc, 0x5d, 0x65, 0xb6, 0x92],
   [0x6c, 0x70, 0x48, 0x50, 0xfd, 0xed, 0xb9, 0xda, 0x5e, 0x15, 0x46, 0x57, 0xa7, 0x8d, 0x9d, 0x84],
   [0x90, 0xd8, 0xab, 0x00, 0x8c, 0xbc, 0xd3, 0x0a, 0xf7, 0xe4, 0x58, 0x05, 0xb8, 0xb3, 0x45, 0x06],
   [0xd0, 0x2c, 0x1e, 0x8f, 0xca, 0x3f, 0x0f, 0x02, 0xc1, 0xaf, 0xbd, 0x03, 0x01, 0x13, 0x8a, 0x6b],
   [0x3a, 0x91, 0x11, 0x41, 0x4f, 0x67, 0xdc, 0xea, 0x97, 0xf2, 0xcf, 0xce, 0xf0, 0xb4, 0xe6, 0x73],
   [0x96, 0xac, 0x74, 0x22, 0xe7, 0xad, 0x35, 0x85, 0xe2, 0xf9, 0x37, 0xe8, 0x1c, 0x75, 0xdf, 0x6e],
   [0x47, 0xf1, 0x1a, 0x71, 0x1d, 0x29, 0xc5, 0x89, 0x6f, 0xb7, 0x62, 0x0e, 0xaa, 0x18, 0xbe, 0x1b],
   [0xfc, 0x56, 0x3e, 0x4b, 0xc6, 0xd2, 0x79, 0x20, 0x9a, 0xdb, 0xc0, 0xfe, 0x78, 0xcd, 0x5a, 0xf4],
   [0x1f, 0xdd, 0xa8, 0x33, 0x88, 0x07, 0xc7, 0x31, 0xb1, 0x12, 0x10, 0x59, 0x27, 0x80, 0xec, 0x5f],
   [0x60, 0x51, 0x7f, 0xa9, 0x19, 0xb5, 0x4a, 0x0d, 0x2d, 0xe5, 0x7a, 0x9f, 0x93, 0xc9, 0x9c, 0xef],
   [0xa0, 0xe0, 0x3b, 0x4d, 0xae, 0x2a, 0xf5, 0xb0, 0xc8, 0xeb, 0xbb, 0x3c, 0x83, 0x53, 0x99, 0x61],
   [0x17, 0x2b, 0x04, 0x7e, 0xba, 0x77, 0xd6, 0x26, 0xe1, 0x69, 0x14, 0x63, 0x55, 0x21, 0x0c, 0x7d]]

/-- The read `inverseSBox[i]`: entry `i % 16` of row `i / 16`. The index is a byte in every
use, so the read cannot go out of range. -/
def inverseSBox (i : Nat) : Nat :=
  (inverseSBoxRows.getD (i / 16) []).getD (i % 16) 0

def rcon : List Nat :=
  [0x01, 0x02, 0x04, 0x08, 0x10, 0x20, 0x40, 0x80, 0x1b, 0x36, 0x6c, 0xd8, 0xab, 0x4d, 0x9a, 0x2f]

/-- The word `uint32(sBox[t>>24])<<24 | uint32(sBox[t>>16&0xff])<<16 |
uint32(sBox[t>>8&0xff])<<8 | uint32(sBox[t&0xff])`, for `sBox` or `inverseSBox`. -/
def subWord (box : Nat → Nat) (t : Nat) : Nat :=
  box (t >>> 24) <<< 24 ||| box (t >>> 16 &&& 0xff) <<< 16 |||
    box (t >>> 8 &&& 0xff) <<< 8 ||| box (t &&& 0xff)

/-- The word `a<<24 | b<<16 | c<<8 | d` assembled from four bytes. -/
def pack4 (a b c d : Nat) : Nat :=
  a <<< 24 ||| b <<< 16 ||| c <<< 8 ||| d

/-- The loop of `gmul`, `n` iterations left, accumulator `p`. -/
def gmulLoop : Nat → Nat → Nat → Nat → Nat
  | 0, _, _, p => p
  | n + 1, a, b, p =>
    let p1 := if b &&& 0x01 ≠ 0 then p ^^^ a else p
    let a1 := if a &&& 0x80 ≠ 0 then u8 (a <<< 1) ^^^ 0x1b else u8 (a <<< 1)
    gmulLoop n a1 (b >>> 1) p1

def gmul (a b : Nat) : Nat := gmulLoop 8 a b 0

/-- The MixColumns expression of `encryptBlock` for one word. -/
def mixColumn (t : Nat) : Nat :=
  (gmul 0x02 (u8 (t >>> 24)) ^^^ gmul 0x03 (u8 (t >>> 16)) ^^^ u8 (t >>> 8) ^^^ u8 t) <<< 24 |||
  (u8 (t >>> 24) ^^^ gmul 0x02 (u8 (t >>> 16)) ^^^ gmul 0x03 (u8 (t >>> 8)) ^^^ u8 t) <<< 16 |||
  (u8 (t >>> 24) ^^^ u8 (t >>> 16) ^^^ gmul 0x02 (u8 (t >>> 8)) ^^^ gmul 0x03 (u8 t)) <<< 8 |||
  (gmul 0x03 (u8 (t >>> 24)) ^^^ u8 (t >>> 16) ^^^ u8 (t >>> 8) ^^^ gmul 0x02 (u8 t))

/-- The inverse MixColumns expression of `decryptBlock` and `expandKey` for one word. -/
def invMixColumn (t : Nat) : Nat :=
  (gmul 14 (u8 (t >>> 24)) ^^^ gmul 11 (u8 (t >>> 16)) ^^^ gmul 13 (u8 (t >>> 8)) ^^^ gmul 9 (u8 t)) <<< 24 |||
  (gmul 9 (u8 (t >>> 24)) ^^^ gmul 14 (u8 (t >>> 16)) ^^^ gmul 11 (u8 (t >>> 8)) ^^^ gmul 13 (u8 t)) <<< 16 |||
  (gmul 13 (u8 (t >>> 24)) ^^^ gmul 9 (u8 (t >>> 16)) ^^^ gmul 14 (u8 (t >>> 8)) ^^^ gmul 11 (u8 t)) <<< 8 |||
  (gmul 11 (u8 (t >>> 24)) ^^^ gmul 13 (u8 (t >>> 16)) ^^^ gmul 9 (u8 (t >>> 8)) ^^^ gmul 14 (u8 t))

/-- The four working words `t0, t1, t2, t3` of a block. -/
structure Words where
  t0 : Nat
  t1 : Nat
  t2 : Nat
  t3 : Nat
  deriving DecidableEq, Repr

/-- Applies a word transform to each of the four words. -/
def Words.map (f : Nat → Nat) (t : Words) : Words :=
  ⟨f t.t0, f t.t1, f t.t2, f t.t3⟩

/-- The ShiftRows word reassembly of `encryptBlock`. -/
def shiftRows (t : Words) : Words :=
  ⟨t.t0 &&& 0xff000000 ||| t.t1 &&& 0xff0000 ||| t.t2 &&& 0xff00 ||| t.t3 &&& 0xff,
   t.t1 &&& 0xff000000 ||| t.t2 &&& 0xff0000 ||| t.t3 &&& 0xff00 ||| t.t0 &&& 0xff,
   t.t2 &&& 0xff000000 ||| t.t3 &&& 0xff0000 ||| t.t0 &&& 0xff00 ||| t.t1 &&& 0xff,
   t.t3 &&& 0xff000000 ||| t.t0 &&& 0xff0000 ||| t.t1 &&& 0xff00 ||| t.t2 &&& 0xff⟩

/-- The inverse ShiftRows word reassembly of `decryptBlock`. -/
def invShiftRows (t : Words) : Words :=
  ⟨t.t0 &&& 0xff000000 ||| t.t3 &&& 0xff0000 ||| t.t2 &&& 0xff00 ||| t.t1 &&& 0xff,
   t.t1 &&& 0xff000000 ||| t.t0 &&& 0xff0000 ||| t.t3 &&& 0xff00 ||| t.t2 &&& 0xff,
   t.t2 &&& 0xff000000 ||| t.t1 &&& 0xff0000 ||| t.t0 &&& 0xff00 ||| t.t3 &&& 0xff,
   t.t3 &&& 0xff000000 ||| t.t2 &&& 0xff0000 ||| t.t1 &&& 0xff00 ||| t.t0 &&& 0xff⟩

/-- Read of `xk[i][j]`. -/
def idx2 (xk : List (List Nat)) (i j : Nat) : Except Fault Nat := do
  let row ← idx xk i
  idx row j

/-- Write `xk[i][j] = v`. -/
def upd2 (xk : List (List Nat)) (i j : Nat) (v : Nat) : Except Fault (List (List Nat)) := do
  let row ← idx xk i
  let row1 ← upd row j v
  upd xk i row1

/-- The value of `xk[i][j]` when the indices are in range. -/
def get2 (xk : List (List Nat)) (i j : Nat) : Nat :=
  (xk.getD i []).getD j 0

/-- The contents of `xk` after `xk[i][j] = v` when the indices are in range. -/
def set2 (xk : List (List Nat)) (i j : Nat) (v : Nat) : List (List Nat) :=
  xk.set i ((xk.getD i []).set j v)

/-- A schedule of `l` round keys of four words each. -/
def IsSchedule (l : Nat) (xk : List (List Nat)) : Prop :=
  xk.length = l ∧ ∀ i < l, (xk.getD i []).length = 4

/-- Every word of the schedule is a `uint32`. -/
def Bounded (xk : List (List Nat)) : Prop :=
  ∀ i j, get2 xk i j < 4294967296

/-- The word that `expandKey` stores in `dec[i][j]`, for a forward schedule `enc` of
`n` round keys. -/
def decWord (enc : List (List Nat)) (n i j : Nat) : Nat :=
  if i > 0 ∧ i < n - 1 then invMixColumn (get2 enc (n - i - 1) j) else get2 enc (n - i - 1) j

/-- The two schedules of a cipher fit together: both have `l ≥ 3` round keys of four
`uint32` words, and `dec` is the inverse schedule of `enc`. -/
def IsKeyPair (l : Nat) (enc dec : List (List Nat)) : Prop :=
  3 ≤ l ∧ IsSchedule l enc ∧ IsSchedule l dec ∧ Bounded enc ∧
    ∀ i < l, ∀ j < 4, get2 dec i j = decWord enc l i j

/-- Every word of `t` is a `uint32`. -/
def Words.Valid (t : Words) : Prop :=
  t.t0 < 4294967296 ∧ t.t1 < 4294967296 ∧ t.t2 < 4294967296 ∧ t.t3 < 4294967296

/-- The round key `xk[i]` as four words. -/
def roundKey (xk : List (List Nat)) (i : Nat) : Words :=
  ⟨get2 xk i 0, get2 xk i 1, get2 xk i 2, get2 xk i 3⟩

/-- Word-wise XOR. -/
def Words.xor (t k : Words) : Words :=
  ⟨t.t0 ^^^ k.t0, t.t1 ^^^ k.t1, t.t2 ^^^ k.t2, t.t3 ^^^ k.t3⟩

/-- The step `t0 ^= xk[i][0]; t1 ^= xk[i][1]; t2 ^= xk[i][2]; t3 ^= xk[i][3]`. -/
def addRoundKey (xk : List (List Nat)) (i : Nat) (t : Words) : Except Fault Words := do
  let k0 ← idx2 xk i 0
  let k1 ← idx2 xk i 1
  let k2 ← idx2 xk i 2
  let k3 ← idx2 xk i 3
  pure ⟨t.t0 ^^^ k0, t.t1 ^^^ k1, t.t2 ^^^ k2, t.t3 ^^^ k3⟩

/-- The loop `for i := 1; i < l-1; i++` of `encryptBlock`, `n` iterations left. -/
def encryptLoop (xk : List (List Nat)) : Nat → Nat → Words → Except Fault Words
  | 0, _, t => pure t
  | n + 1, i, t => do
    let t1 ← addRoundKey xk i ((shiftRows (t.map (subWord sBox))).map mixColumn)
    encryptLoop xk n (i + 1) t1

/-- Reads `b[0], b[1], b[2], b[3]`. -/
def loadWords (b : List Nat) : Except Fault Words := do
  let b0 ← idx b 0
  let b1 ← idx b 1
  let b2 ← idx b 2
  let b3 ← idx b 3
  pure ⟨b0, b1, b2, b3⟩

def encryptBlock (xk : List (List Nat)) (b : List Nat) : Except Fault (List Nat) := do
  let l := xk.length
  let t ← loadWords b
  let t ← addRoundKey xk 0 t
  let t ← encryptLoop xk (l - 2) 1 t
  let t ← addRoundKey xk (l - 1) (shiftRows (t.map (subWord sBox)))
  pure [t.t0, t.t1, t.t2, t.t3]

/-- The loop `for i := 1; i < l-1; i++` of `decryptBlock`, `n` iterations left. -/
def decryptLoop (xk : List (List Nat)) : Nat → Nat → Words → Except Fault Words
  | 0, _, t => pure t
  | n + 1, i, t => do
    let t1 ← addRoundKey xk i ((invShiftRows (t.map (subWord inverseSBox))).map invMixColumn)
    decryptLoop xk n (i + 1) t1

def decryptBlock (xk : List (List Nat)) (b : List Nat) : Except Fault (List Nat) := do
  let l := xk.length
  let t ← loadWords b
  let t ← addRoundKey xk 0 t
  let t ← decryptLoop xk (l - 2) 1 t
  let t ← addRoundKey xk (l - 1) (invShiftRows (t.map (subWord inverseSBox)))
  pure [t.t0, t.t1, t.t2, t.t3]

/-- The loop `for i := 0; i < nk; i++` of `expandKey`, `n` iterations left. -/
def expandKeyCopy (key : List Nat) : Nat → Nat → List (List Nat) → Except Fault (List (List Nat))
  | 0, _, enc => pure enc
  | n + 1, i, enc => do
    let v ← beUint32 (key.drop (4 * i))
    let enc1 ← upd2 enc (i / 4) (i % 4) v
    expandKeyCopy key n (i + 1) enc1

/-- The loop `for i := nk; i < len(enc)*4; i++` of `expandKey`, `n` iterations left. -/
def expandKeyWords (nk : Nat) : Nat → Nat → List (List Nat) → Except Fault (List (List Nat))
  | 0, _, enc => pure enc
  | n + 1, i, enc => do
    let g ← idx2 enc ((i - 1) / 4) ((i - 1) % 4)
    if nk = 0 then throw Fault.panic
    let g1 := if i % nk = 0 then u32 (g <<< 8) ||| g >>> 24 else g
    let g2 := if i % nk = 0 ∨ (nk > 6 ∧ i % nk = 4) then subWord sBox g1 else g1
    let g3 ← if i % nk = 0 then (do let c ← idx rcon (i / nk - 1); pure (g2 ^^^ c <<< 24)) else pure g2
    let w ← idx2 enc ((i - nk) / 4) ((i - nk) % 4)
    let enc1 ← upd2 enc (i / 4) (i % 4) (w ^^^ g3)
    expandKeyWords nk n (i + 1) enc1

/-- The loop `for j := 0; j < 4; j++` of `expandKey`, `m` iterations left. -/
def expandKeyDecRow (enc : List (List Nat)) (n i : Nat) :
    Nat → Nat → List (List Nat) → Except Fault (List (List Nat))
  | 0, _, dec => pure dec
  | m + 1, j, dec => do
    let t ← idx2 enc (n - i - 1) j
    let t1 := if i > 0 ∧ i < n - 1 then invMixColumn t else t
    let dec1 ← upd2 dec i j t1
    expandKeyDecRow enc n i m (j + 1) dec1

/-- The loop `for i := 0; i < n; i++` of `expandKey`, `m` iterations left. -/
def expandKeyDec (enc : List (List Nat)) (n : Nat) :
    Nat → Nat → List (List Nat) → Except Fault (List (List Nat))
  | 0, _, dec => pure dec
  | m + 1, i, dec => do
    let dec1 ← expandKeyDecRow enc n i 4 0 dec
    expandKeyDec enc n m (i + 1) dec1

/-- The call `expandKey(key, enc, dec)`; returns the filled `enc` and `dec`
(`dec = none` is Go's `nil`). -/
def expandKey (key : List Nat) (enc : List (List Nat)) (dec : Option (List (List Nat))) :
    Except Fault (List (List Nat) × Option (List (List Nat))) := do
  let nk := key.length / 4
  let enc1 ← expandKeyCopy key nk 0 enc
  let enc2 ← expandKeyWords nk (enc1.length * 4 - nk) nk enc1
  match dec with
  | none => pure (enc2, none)
  | some d =>
    let n := enc2.length
    let d1 ← expandKeyDec enc2 n n 0 d
    pure (enc2, some d1)

def NewCipher (key : List Nat) : Except Fault aesCipher :=
  if key.length = 16 ∨ key.length = 24 ∨ key.length = 32 then do
    let l := key.length / 4 + 7
    let r ← expandKey key (List.replicate l (List.replicate 4 0))
      (some (List.replicate l (List.replicate 4 0)))
    match r with
    | (enc, some dec) => pure ⟨enc, dec⟩
    | (_, none) => throw Fault.panic
  else throw (Fault.error "invalid key size")

def aesCipher.BlockSize (_ : aesCipher) : Nat := aes.BlockSize

/-- Reads the four big-endian words `src[0:4]`, `src[4:8]`, `src[8:12]`, `src[12:16]`. -/
def loadBlock (src : List Nat) : Except Fault (List Nat) := do
  let b0 ← beUint32 ((src.take 4).drop 0)
  let b1 ← beUint32 ((src.take 8).drop 4)
  let b2 ← beUint32 ((src.take 12).drop 8)
  let b3 ← beUint32 ((src.take 16).drop 12)
  pure [b0, b1, b2, b3]

/-- Stores `b[0..3]` big-endian into `dst[0:16]`. -/
def storeBlock (dst b : List Nat) : Except Fault (List Nat) := do
  let b0 ← idx b 0
  let b1 ← idx b 1
  let b2 ← idx b 2
  let b3 ← idx b 3
  pure (bePutUint32 b0 ++ bePutUint32 b1 ++ bePutUint32 b2 ++ bePutUint32 b3 ++ dst.drop 16)

/-- The call `c.Encrypt(dst, src)`; returns the new contents of `dst`. -/
def aesCipher.Encrypt (c : aesCipher) (dst src : List Nat) : Except Fault (List Nat) :=
  if dst.length ≤ 15 ∨ src.length ≤ 15 then throw Fault.panic
  else do
    let b ← loadBlock src
    let b1 ← encryptBlock c.enc b
    storeBlock dst b1

/-- The call `c.Decrypt(dst, src)`; returns the new contents of `dst`. -/
def aesCipher.Decrypt (c : aesCipher) (dst src : List Nat) : Except Fault (List Nat) :=
  if dst.length ≤ 15 ∨ src.length ≤ 15 then throw Fault.panic
  else do
    let b ← loadBlock src
    let b1 ← decryptBlock c.dec b
    storeBlock dst b1

end aes

namespace des

def BlockSize : Nat := 8

structure desCipher where
  subKeys : List Nat
  deriving DecidableEq, Repr

def initialPermutation : List Nat := [
  58, 50, 42, 34, 26, 18, 10, 2,
  60, 52, 44, 36, 28, 20, 12, 4,
  62, 54, 46, 38, 30, 22, 14, 6,
  64, 56, 48, 40, 32, 24, 16, 8,
  57, 49, 41, 33, 25, 17, 9, 1,
  59, 51, 43, 35, 27, 19, 11, 3,
  61, 53, 45, 37, 29, 21, 13, 5,
  63, 55, 47, 39, 31, 23, 15, 7]

def finalPermutation : List Nat := [
  40, 8, 48, 16, 56, 24, 64, 32,
  39, 7, 47, 15, 55, 23, 63, 31,
  38, 6, 46, 14, 54, 22, 62, 30,
  37, 5, 45, 13, 53, 21, 61, 29,
  36, 4, 44, 12, 52, 20, 60, 28,
  35, 3, 43, 11, 51, 19, 59, 27,
  34, 2, 42, 10, 50, 18, 58, 26,
  33, 1, 41, 9, 49, 17, 57, 25]

/-- The loop `for i, n := range p` of `permute`: index `i`, remaining entries, result `t`. -/
def permuteLoop (b u v : Nat) : Nat → List Nat → Nat → Nat
  | _, [], t => t
  | i, n :: rest, t =>
    permuteLoop b u v (i + 1) rest (if (v >>> u8 (n + 255)) &&& b ≠ 0 then t ||| u >>> i else t)

/-- The call `permute(b, p, l)`. In the source `p` is always one of the fixed non-empty
tables; `n - 1` is computed in `uint8`, hence `u8 (n + 255)`. -/
def permute (b : Nat) (p : List Nat) (l : Nat) : Nat :=
  let u := u64 (1 <<< (p.length - 1))
  let v := u64 (1 <<< u8 (l + 255))
  permuteLoop b u v 0 p 0

def expansionFunction : List Nat := [
  32, 1, 2, 3, 4, 5,
  4, 5, 6, 7, 8, 9,
  8, 9, 10, 11, 12, 13,
  12, 13, 14, 15, 16, 17,
  16, 17, 18, 19, 20, 21,
  20, 21, 22, 23, 24, 25,
  24, 25, 26, 27, 28, 29,
  28, 29, 30, 31, 32, 1]

def sBoxes : List (List (List Nat)) := [
  [[14, 4, 13, 1, 2, 15, 11, 8, 3, 10, 6, 12, 5, 9, 0, 7],
   [0, 15, 7, 4, 14, 2, 13, 1, 10, 6, 12, 11, 9, 5, 3, 8],
   [4, 1, 14, 8, 13, 6, 2, 11, 15, 12, 9, 7, 3, 10, 5, 0],
   [15, 12, 8, 2, 4, 9, 1, 7, 5, 11, 3, 14, 10, 0, 6, 13]],
  [[15, 1, 8, 14, 6, 11, 3, 4, 9, 7, 2, 13, 12, 0, 5, 10],
   [3, 13, 4, 7, 15, 2, 8, 14, 12, 0, 1, 10, 6, 9, 11, 5],
   [0, 14, 7, 11, 10, 4, 13, 1, 5, 8, 12, 6, 9, 3, 2, 15],
   [13, 8, 10, 1, 3, 15, 4, 2, 11, 6, 7, 12, 0, 5, 14, 9]],
  [[10, 0, 9, 14, 6, 3, 15, 5, 1, 13, 12, 7, 11, 4, 2, 8],
   [13, 7, 0, 9, 3, 4, 6, 10, 2, 8, 5, 14, 12, 11, 15, 1],
   [13, 6, 4, 9, 8, 15, 3, 0, 11, 1, 2, 12, 5, 10, 14, 7],
   [1, 10, 13, 0, 6, 9, 8, 7, 4, 15, 14, 3, 11, 5, 2, 12]],
  [[7, 13, 14, 3, 0, 6, 9, 10, 1, 2, 8, 5, 11, 12, 4, 15],
   [13, 8, 11, 5, 6, 15, 0, 3, 4, 7, 2, 12, 1, 10, 14, 9],
   [10, 6, 9, 0, 12, 11, 7, 13, 15, 1, 3, 14, 5, 2, 8, 4],
   [3, 15, 0, 6, 10, 1, 13, 8, 9, 4, 5, 11, 12, 7, 2, 14]],
  [[2, 12, 4, 1, 7, 10, 11, 6, 8, 5, 3, 15, 13, 0, 14, 9],
   [14, 11, 2, 12, 4, 7, 13, 1, 5, 0, 15, 10, 3, 9, 8, 6],
   [4, 2, 1, 11, 10, 13, 7, 8, 15, 9, 12, 5, 6, 3, 0, 14],
   [11, 8, 12, 7, 1, 14, 2, 13, 6, 15, 0, 9, 10, 4, 5, 3]],
  [[12, 1, 10, 15, 9, 2, 6, 8, 0, 13, 3, 4, 14, 7, 5, 11],
   [10, 15, 4, 2, 7, 12, 9, 5, 6, 1, 13, 14, 0, 11, 3, 8],
   [9, 14, 15, 5, 2, 8, 12, 3, 7, 0, 4, 10, 1, 13, 11, 6],
   [4, 3, 2, 12, 9, 5, 15, 10, 11, 14, 1, 7, 6, 0, 8, 13]],
  [[4, 11, 2, 14, 15, 0, 8, 13, 3, 12, 9, 7, 5, 10, 6, 1],
   [13, 0, 11, 7, 4, 9, 1, 10, 14, 3, 5, 12, 2, 15, 8, 6],
   [1, 4, 11, 13, 12, 3, 7, 14, 10, 15, 6, 8, 0, 5, 9, 2],
   [6, 11, 13, 8, 1, 4, 10, 7, 9, 5, 0, 15, 14, 2, 3, 12]],
  [[13, 2, 8, 4, 6, 15, 11, 1, 10, 9, 3, 14, 5, 0, 12, 7],
   [1, 15, 13, 8, 10, 3, 7, 4, 12, 5, 6, 11, 0, 14, 9, 2],
   [7, 11, 4, 1, 9, 12, 14, 2, 0, 6, 10, 13, 15, 3, 5, 8],
   [2, 1, 14, 7, 4, 10, 8, 13, 15, 12, 9, 0, 3, 5, 6, 11]]]

def permutationFunction : List Nat := [
  16, 7, 20, 21, 29, 12, 28, 17,
  1, 15, 23, 26, 5, 18, 31, 10,
  2, 8, 24, 14, 32, 27, 3, 9,
  19, 13, 30, 6, 22, 11, 4, 25]

/-- The entries of a permutation table are bit numbers between `1` and `l`. -/
def ValidTable (p : List Nat) (l : Nat) : Prop :=
  ∀ n ∈ p, 1 ≤ n ∧ n ≤ l

/-- The loop `for i, sbox := range sBoxes` of `feistel`: range index `i`, remaining
boxes, accumulated `s`. -/
def feistelLoop (k : Nat) : Nat → List (List (List Nat)) → Nat → Nat
  | _, [], s => s
  | i, sbox :: rest, s =>
    let i1 := 7 - i
    let r := (k >>> (i1 * 6)) &&& 0x1 ||| (k >>> (4 + i1 * 6)) &&& 0x2
    let c := (k >>> (1 + i1 * 6)) &&& 0xf
    feistelLoop k (i + 1) rest (s ||| u32 ((sbox.getD r []).getD c 0 <<< (i1 * 4)))

def feistel (l r k : Nat) : Nat × Nat :=
  let k1 := k ^^^ permute r expansionFunction 32
  let s := feistelLoop k1 0 sBoxes 0
  let l1 := l ^^^ u32 (permute s permutationFunction 32)
  (r, l1)

def cryptBlock (subKeys : List Nat) (b : Nat) : Nat :=
  let b1 := permute b initialPermutation 64
  let lr := subKeys.foldl (fun (lr : Nat × Nat) k => feistel lr.1 lr.2 k) (u32 (b1 >>> 32), u32 b1)
  let b2 := u64 (lr.2 <<< 32) ||| lr.1
  permute b2 finalPermutation 64

def encryptBlock (subKeys : List Nat) (b : Nat) : Nat :=
  cryptBlock subKeys b

/-- The loop `for i := len(subKeys) - 1; i >= 0; i--` of `decryptBlock`; the first
argument is `i + 1`. -/
def reverseLoop (subKeys : List Nat) : Nat → List Nat → List Nat
  | 0, tk => tk
  | i + 1, tk => reverseLoop subKeys i (tk ++ [subKeys.getD i 0])

def decryptBlock (subKeys : List Nat) (b : Nat) : Nat :=
  let tk := reverseLoop subKeys subKeys.length []
  cryptBlock tk b

def permutedChoice1 : List Nat := [
  57, 49, 41, 33, 25, 17, 9,
  1, 58, 50, 42, 34, 26, 18,
  10, 2, 59, 51, 43, 35, 27,
  19, 11, 3, 60, 52, 44, 36,
  63, 55, 47, 39, 31, 23, 15,
  7, 62, 54, 46, 38, 30, 22,
  14, 6, 61, 53, 45, 37, 29,
  21, 13, 5, 28, 20, 12, 4]

def permutedChoice2 : List Nat := [
  14, 17, 11, 24, 1, 5, 3, 28,
  15, 6, 21, 10, 23, 19, 12, 4,
  26, 8, 16, 7, 27, 20, 13, 2,
  41, 52, 31, 37, 47, 55, 30, 40,
  51, 45, 33, 48, 44, 49, 39, 56,
  34, 53, 46, 42, 50, 36, 29, 32]

def leftRotations : List Nat := [
  1, 1, 2, 2, 2, 2, 2, 2, 1, 2, 2, 2, 2, 2, 2, 1]

/-- The loop `for i, n := range leftRotations` of `newSubKeys`: range index `i`,
remaining rotations, halves `l`, `r` and the subkeys filled so far. -/
def newSubKeysLoop : Nat → List Nat → Nat → Nat → List Nat → List Nat
  | _, [], _, _, subKeys => subKeys
  | i, n :: rest, l, r, subKeys =>
    let l1 := (u32 (l <<< n) ||| l >>> (28 - n)) &&& 0xfffffff
    let r1 := (u32 (r <<< n) ||| r >>> (28 - n)) &&& 0xfffffff
    let k := u64 (l1 <<< 28) ||| r1
    newSubKeysLoop (i + 1) rest l1 r1 (subKeys.set i (permute k permutedChoice2 56))

def newSubKeys (k : Nat) : List Nat :=
  let k1 := permute k permutedChoice1 64
  newSubKeysLoop 0 leftRotations (u32 (k1 >>> 28)) (u32 (k1 &&& 0xfffffff)) (List.replicate 16 0)

def NewCipher (key : List Nat) : Except Fault desCipher :=
  if key.length ≠ 8 then throw (Fault.error "invalid key size")
  else do
    let k ← beUint64 key
    pure ⟨newSubKeys k⟩

def desCipher.BlockSize (_ : desCipher) : Nat := des.BlockSize

/-- The call `c.Encrypt(dst, src)`; returns the new contents of `dst`. -/
def desCipher.Encrypt (c : desCipher) (dst src : List Nat) : Except Fault (List Nat) :=
  if dst.length ≤ 7 ∨ src.length ≤ 7 then throw Fault.panic
  else do
    let b ← beUint64 (src.take 8)
    pure (bePutUint64 (encryptBlock c.subKeys b) ++ dst.drop 8)

/-- The call `c.Decrypt(dst, src)`; returns the new contents of `dst`. -/
def desCipher.Decrypt (c : desCipher) (dst src : List Nat) : Except Fault (List Nat) :=
  if dst.length ≤ 7 ∨ src.length ≤ 7 then throw Fault.panic
  else do
    let b ← beUint64 (src.take 8)
    pure (bePutUint64 (decryptBlock c.subKeys b) ++ dst.drop 8)

structure tripleDESCipher where
  cipher1 : desCipher
  cipher2 : desCipher
  cipher3 : desCipher
  deriving DecidableEq, Repr

def NewTripleDESCipher (key : List Nat) : Except Fault tripleDESCipher :=
  if key.length ≠ 24 then throw (Fault.error "short key")
  else do
    let k1 ← beUint64 (key.take 8)
    let k2 ← beUint64 ((key.take 16).drop 8)
    let k3 ← beUint64 (key.drop 16)
    pure ⟨⟨newSubKeys k1⟩, ⟨newSubKeys k2⟩, ⟨newSubKeys k3⟩⟩

def tripleDESCipher.BlockSize (_ : tripleDESCipher) : Nat := des.BlockSize

/-- The call `c.Encrypt(dst, src)`; returns the new contents of `dst`. -/
def tripleDESCipher.Encrypt (c : tripleDESCipher) (dst src : List Nat) :
    Except Fault (List Nat) :=
  if dst.length ≤ 7 ∨ src.length ≤ 7 then throw Fault.panic
  else do
    let b ← beUint64 (src.take 8)
    pure (bePutUint64
      (encryptBlock c.cipher3.subKeys
        (decryptBlock c.cipher2.subKeys
          (encryptBlock c.cipher1.subKeys b))) ++ dst.drop 8)

/-- The call `c.Decrypt(dst, src)`; returns the new contents of `dst`. -/
def tripleDESCipher.Decrypt (c : tripleDESCipher) (dst src : List Nat) :
    Except Fault (List Nat) :=
  if dst.length ≤ 7 ∨ src.length ≤ 7 then throw Fault.panic
  else do
    let b ← beUint64 (src.take 8)
    pure (bePutUint64
      (decryptBlock c.cipher1.subKeys
        (encryptBlock c.cipher2.subKeys
          (decryptBlock c.cipher3.subKeys b))) ++ dst.drop 8)

/-- A sample 24-byte Triple-DES key, three distinct 8-byte parts. -/
def sampleKey3 : List Nat :=
  [0x01, 0x23, 0x45, 0x67, 0x89, 0xAB, 0xCD, 0xEF,
   0x23, 0x45, 0x67, 0x89, 0xAB, 0xCD, 0xEF, 0x01,
   0x45, 0x67, 0x89, 0xAB, 0xCD, 0xEF, 0x01, 0x23]

/-- A sample 8-byte block. -/
def sampleBlock : List Nat :=
  [0x01, 0x23, 0x45, 0x67, 0x89, 0xAB, 0xCD, 0xEF]

end des

/-- The interface `cipher.Block` of the Go standard library: the block size and the
calls `Encrypt(dst, src)`, `Decrypt(dst, src)`, each returning the new contents of `dst`. -/
structure Block where
  BlockSize : Nat
  Encrypt : List Nat → List Nat → Except Fault (List Nat)
  Decrypt : List Nat → List Nat → Except Fault (List Nat)

/-- An AES cipher seen through the `cipher.Block` interface. -/
def aes.aesCipher.toBlock (c : aes.aesCipher) : Block :=
  ⟨c.BlockSize, c.Encrypt, c.Decrypt⟩

/-- The sixteen bytes that `c.Encrypt` stores for the source block `x`. -/
def aes.aesCipher.encryptFn (c : aes.aesCipher) (x : List Nat) : List Nat :=
  match c.Encrypt (List.replicate 16 0) x with
  | .ok r => r.take 16
  | .error _ => List.replicate 16 0

/-- A DES cipher seen through the `cipher.Block` interface. -/
def des.desCipher.toBlock (c : des.desCipher) : Block :=
  ⟨c.BlockSize, c.Encrypt, c.Decrypt⟩

/-- A Triple-DES cipher seen through the `cipher.Block` interface. -/
def des.tripleDESCipher.toBlock (c : des.tripleDESCipher) : Block :=
  ⟨c.BlockSize, c.Encrypt, c.Decrypt⟩

/-- What `copy(dst, src)` leaves in `dst`. -/
def copyBytes (dst src : List Nat) : List Nat :=
  src.take dst.length ++ dst.drop src.length

/-- The `noopBlock` of `ctr_test.go`: block size `n`, `Encrypt` and `Decrypt` are
`copy(dst, src)`. -/
def noopBlock (n : Nat) : Block :=
  ⟨n, fun dst src => .ok (copyBytes dst src), fun dst src => .ok (copyBytes dst src)⟩

/-- The block cipher encrypts with the function `E`: on a source of exactly one block
and a destination of at least one block, `Encrypt` stores `E src` in the first block of
`dst` and leaves the rest of `dst` alone; `E` maps blocks to blocks. -/
def Block.Computes (block : Block) (E : List Nat → List Nat) : Prop :=
  (∀ x, x.length = block.BlockSize → (E x).length = block.BlockSize) ∧
  ∀ dst src, block.BlockSize ≤ dst.length → src.length = block.BlockSize →
    block.Encrypt dst src = .ok (E src ++ dst.drop block.BlockSize)

/-- The big-endian value of a byte string. -/
def beValue (b : List Nat) : Nat :=
  b.foldl (fun acc x => acc * 256 + x) 0

/-- The big-endian encoding of `v mod 256 ^ n` in `n` bytes. -/
def beBytes : Nat → Nat → List Nat
  | 0, _ => []
  | n + 1, v => beBytes n (v / 256) ++ [v % 256]

/-- The counter `iv + k`: the IV read as a big-endian integer, plus `k`, modulo
`2 ^ (8 * len(iv))`, written back in `len(iv)` bytes. -/
def counterAdd (iv : List Nat) (k : Nat) : List Nat :=
  beBytes iv.length ((beValue iv + k) % 2 ^ (8 * iv.length))

/-- Byte `j` of the keystream of `E` from `iv`: byte `j mod bs` of `E (iv + j / bs)`. -/
def keystream (E : List Nat → List Nat) (iv : List Nat) (j : Nat) : Nat :=
  (E (counterAdd iv (j / iv.length))).getD (j % iv.length) 0

namespace ctr

/-- The stream state. `out` is the backing array of the Go slice `s.out` (its length is
`cap(s.out)`) and `outLen` is `len(s.out)`. -/
structure ctrStream where
  block : Block
  ctr : List Nat
  out : List Nat
  outLen : Nat
  outUsed : Nat

def NewCTR (block : Block) (iv : List Nat) : Except Fault ctrStream :=
  if iv.length ≠ block.BlockSize then throw Fault.panic
  else
    let bufSize := if 512 < block.BlockSize then block.BlockSize else 512
    pure ⟨block, iv, List.replicate bufSize 0, 0, 0⟩

/-- The counter increment loop `for i := len(s.ctr) - 1; i >= 0; i--` of `refill`; the
first argument is `i + 1`. -/
def incLoop : Nat → List Nat → List Nat
  | 0, ctr => ctr
  | i + 1, ctr =>
    let v := u8 (ctr.getD i 0 + 1)
    if v ≠ 0 then ctr.set i v else incLoop i (ctr.set i v)

/-- The loop `for remain <= len(s.out)-bs` of `refill`, cut off by `fuel`; returns
`remain`, the buffer and the counter. -/
def refillLoop (block : Block) (bs : Nat) :
    Nat → Nat → List Nat → List Nat → Except Fault (Nat × List Nat × List Nat)
  | 0, remain, out, ctr =>
    if (remain : Int) ≤ (out.length : Int) - bs then throw Fault.outOfFuel
    else pure (remain, out, ctr)
  | fuel + 1, remain, out, ctr =>
    if (remain : Int) ≤ (out.length : Int) - bs then do
      let d ← block.Encrypt (out.drop remain) ctr
      refillLoop block bs fuel (remain + bs) (out.take remain ++ d) (incLoop ctr.length ctr)
    else pure (remain, out, ctr)

def ctrStream.refill (fuel : Nat) (s : ctrStream) : Except Fault ctrStream :=
  if s.outLen < s.outUsed then throw Fault.panic
  else do
    let remain := s.outLen - s.outUsed
    let out1 := ((s.out.take s.outLen).drop s.outUsed) ++ s.out.drop remain
    let r ← refillLoop s.block s.block.BlockSize fuel remain out1 s.ctr
    pure ⟨s.block, r.2.2, r.2.1, r.1, 0⟩

/-- The loop `for i := 0; i < n; i++` of `xorBytes`, `m` iterations left. -/
def xorBytesLoop (a b : List Nat) : Nat → Nat → List Nat → Except Fault (List Nat)
  | 0, _, dst => pure dst
  | m + 1, i, dst => do
    let x ← idx a i
    let y ← idx b i
    let dst1 ← upd dst i (x ^^^ y)
    xorBytesLoop a b m (i + 1) dst1

/-- The call `xorBytes(dst, a, b)`; returns the new contents of `dst` and `n`. -/
def xorBytes (dst a b : List Nat) : Except Fault (List Nat × Nat) := do
  let n := if b.length < a.length then b.length else a.length
  if n = 0 then pure (dst, 0)
  else do
    let dst1 ← xorBytesLoop a b n 0 dst
    pure (dst1, n)

/-- The loop `for len(src) > 0` of `XORKeyStream`, cut off after `n` iterations; every
`refill` runs with `fuel`. Returns the stream and the contents of the `dst` it was given. -/
def xorKeyStreamLoop (fuel : Nat) :
    Nat → ctrStream → List Nat → List Nat → Except Fault (ctrStream × List Nat)
  | _, s, dst, [] => pure (s, dst)
  | 0, _, _, _ :: _ => throw Fault.outOfFuel
  | n + 1, s, dst, x :: xs => do
    let s1 ← (if (s.outUsed : Int) ≥ (s.outLen : Int) - s.block.BlockSize then s.refill fuel
      else pure s : Except Fault ctrStream)
    if s1.outLen < s1.outUsed then throw Fault.panic
    else do
      let r ← xorBytes dst (x :: xs) ((s1.out.take s1.outLen).drop s1.outUsed)
      let rest ← xorKeyStreamLoop fuel n { s1 with outUsed := s1.outUsed + r.2 }
        (r.1.drop r.2) ((x :: xs).drop r.2)
      pure (rest.1, r.1.take r.2 ++ rest.2)

/-- The call `s.XORKeyStream(dst, src)`; returns the stream and the new contents of `dst`. -/
def ctrStream.XORKeyStream (fuel : Nat) (s : ctrStream) (dst src : List Nat) :
    Except Fault (ctrStream × List Nat) :=
  if dst.length < src.length then throw Fault.panic
  else xorKeyStreamLoop fuel fuel s dst src

/-- The stream `s` of cipher `block` (encrypting with `E`) from `iv` has handed out the
first `p` keystream bytes: its buffer holds the next bytes of the keystream and its
counter is the IV plus the number of blocks generated. -/
def ctrStream.At (s : ctrStream) (block : Block) (E : List Nat → List Nat) (iv : List Nat)
    (p : Nat) : Prop :=
  s.block = block ∧ block.BlockSize ≤ s.out.length ∧ s.outUsed ≤ s.outLen ∧
    s.outLen ≤ s.out.length ∧
    (∃ m, s.ctr = counterAdd iv m ∧ p + (s.outLen - s.outUsed) = m * iv.length) ∧
    ∀ i < s.outLen - s.outUsed, s.out.getD (s.outUsed + i) 0 = keystream E iv (p + i)

end ctr

/-! ## FIPS-197 vectors -/

namespace aes

/-- FIPS-197 Appendix A.1 sample key (128 bits). -/
def keyA1 : List Nat :=
  [0x2b, 0x7e, 0x15, 0x16, 0x28, 0xae, 0xd2, 0xa6, 0xab, 0xf7, 0x15, 0x88, 0x09, 0xcf, 0x4f, 0x3c]

/-- FIPS-197 Appendix A.2 sample key (192 bits). -/
def keyA2 : List Nat :=
  [0x8e, 0x73, 0xb0, 0xf7, 0xda, 0x0e, 0x64, 0x52, 0xc8, 0x10, 0xf3, 0x2b, 0x80, 0x90, 0x79, 0xe5,
   0x62, 0xf8, 0xea, 0xd2, 0x52, 0x2c, 0x6b, 0x7b]

/-- FIPS-197 Appendix A.3 sample key (256 bits). -/
def keyA3 : List Nat :=
  [0x60, 0x3d, 0xeb, 0x10, 0x15, 0xca, 0x71, 0xbe, 0x2b, 0x73, 0xae, 0xf0, 0x85, 0x7d, 0x77, 0x81,
   0x1f, 0x35, 0x2c, 0x07, 0x3b, 0x61, 0x08, 0xd7, 0x2d, 0x98, 0x10, 0xa3, 0x09, 0x14, 0xdf, 0xf4]

/-- The forward round keys of `expandKeyTests` for the 128-bit key. -/
def encA1 : List (List Nat) :=
  [[0x2b7e1516, 0x28aed2a6, 0xabf71588, 0x09cf4f3c],
   [0xa0fafe17, 0x88542cb1, 0x23a33939, 0x2a6c7605],
   [0xf2c295f2, 0x7a96b943, 0x5935807a, 0x7359f67f],
   [0x3d80477d, 0x4716fe3e, 0x1e237e44, 0x6d7a883b],
   [0xef44a541, 0xa8525b7f, 0xb671253b, 0xdb0bad00],
   [0xd4d1c6f8, 0x7c839d87, 0xcaf2b8bc, 0x11f915bc],
   [0x6d88a37a, 0x110b3efd, 0xdbf98641, 0xca0093fd],
   [0x4e54f70e, 0x5f5fc9f3, 0x84a64fb2, 0x4ea6dc4f],
   [0xead27321, 0xb58dbad2, 0x312bf560, 0x7f8d292f],
   [0xac7766f3, 0x19fadc21, 0x28d12941, 0x575c006e],
   [0xd014f9a8, 0xc9ee2589, 0xe13f0cc8, 0xb6630ca6]]

/-- The inverse round keys of `expandKeyTests` for the 128-bit key. -/
def decA1 : List (List Nat) :=
  [[0xd014f9a8, 0xc9ee2589, 0xe13f0cc8, 0xb6630ca6],
   [0xc7b5a63, 0x1319eafe, 0xb0398890, 0x664cfbb4],
   [0xdf7d925a, 0x1f62b09d, 0xa320626e, 0xd6757324],
   [0x12c07647, 0xc01f22c7, 0xbc42d2f3, 0x7555114a],
   [0x6efcd876, 0xd2df5480, 0x7c5df034, 0xc917c3b9],
   [0x6ea30afc, 0xbc238cf6, 0xae82a4b4, 0xb54a338d],
   [0x90884413, 0xd280860a, 0x12a12842, 0x1bc89739],
   [0x7c1f13f7, 0x4208c219, 0xc021ae48, 0x969bf7b],
   [0xcc7505eb, 0x3e17d1ee, 0x82296c51, 0xc9481133],
   [0x2b3708a7, 0xf262d405, 0xbc3ebdbf, 0x4b617d62],
   [0x2b7e1516, 0x28aed2a6, 0xabf71588, 0x9cf4f3c]]

/-- The forward round keys of `expandKeyTests` for the 192-bit key. -/
def encA2 : List (List Nat) :=
  [[0x8e73b0f7, 0xda0e6452, 0xc810f32b, 0x809079e5],
   [0x62f8ead2, 0x522c6b7b, 0xfe0c91f7, 0x2402f5a5],
   [0xec12068e, 0x6c827f6b, 0x0e7a95b9, 0x5c56fec2],
   [0x4db7b4bd, 0x69b54118, 0x85a74796, 0xe92538fd],
   [0xe75fad44, 0xbb095386, 0x485af057, 0x21efb14f],
   [0xa448f6d9, 0x4d6dce24, 0xaa326360, 0x113b30e6],
   [0xa25e7ed5, 0x83b1cf9a, 0x27f93943, 0x6a94f767],
   [0xc0a69407, 0xd19da4e1, 0xec1786eb, 0x6fa64971],
   [0x485f7032, 0x22cb8755, 0xe26d1352, 0x33f0b7b3],
   [0x40beeb28, 0x2f18a259, 0x6747d26b, 0x458c553e],
   [0xa7e1466c, 0x9411f1df, 0x821f750a, 0xad07d753],
   [0xca400538, 0x8fcc5006, 0x282d166a, 0xbc3ce7b5],
   [0xe98ba06f, 0x448c773c, 0x8ecc7204, 0x01002202]]

/-- The forward round keys of `expandKeyTests` for the 256-bit key. -/
def encA3 : List (List Nat) :=
  [[0x603deb10, 0x15ca71be, 0x2b73aef0, 0x857d7781],
   [0x1f352c07, 0x3b6108d7, 0x2d9810a3, 0x0914dff4],
   [0x9ba35411, 0x8e6925af, 0xa51a8b5f, 0x2067fcde],
   [0xa8b09c1a, 0x93d194cd, 0xbe49846e, 0xb75d5b9a],
   [0xd59aecb8, 0x5bf3c917, 0xfee94248, 0xde8ebe96],
   [0xb5a9328a, 0x2678a647, 0x98312229, 0x2f6c79b3],
   [0x812c81ad, 0xdadf48ba, 0x24360af2, 0xfab8b464],
   [0x98c5bfc9, 0xbebd198e, 0x268c3ba7, 0x09e04214],
   [0x68007bac, 0xb2df3316, 0x96e939e4, 0x6c518d80],
   [0xc814e204, 0x76a9fb8a, 0x5025c02d, 0x59c58239],
   [0xde136967, 0x6ccc5a71, 0xfa256395, 0x9674ee15],
   [0x5886ca5d, 0x2e2f31d7, 0x7e0af1fa, 0x27cf73c3],
   [0x749c47ab, 0x18501dda, 0xe2757e4f, 0x7401905a],
   [0xcafaaae3, 0xe4d59b34, 0x9adf6ace, 0xbd10190d],
   [0xfe4890d1, 0xe6188d0b, 0x046df344, 0x706c631e]]

/-- The zeroed `l × 4` schedule that `Test_expandKey` and `NewCipher` allocate. -/
def zeroSchedule (l : Nat) : List (List Nat) :=
  List.replicate l (List.replicate 4 0)

/-- Row of `aesCipherTests`, FIPS-197 Appendix B: key, plaintext (`dec`), ciphertext (`enc`). -/
def vecB : List Nat × List Nat × List Nat :=
  (keyA1,
   [0x32, 0x43, 0xf6, 0xa8, 0x88, 0x5a, 0x30, 0x8d, 0x31, 0x31, 0x98, 0xa2, 0xe0, 0x37, 0x07, 0x34],
   [0x39, 0x25, 0x84, 0x1d, 0x02, 0xdc, 0x09, 0xfb, 0xdc, 0x11, 0x85, 0x97, 0x19, 0x6a, 0x0b, 0x32])

/-- Row of `aesCipherTests`, FIPS-197 Appendix C.1 (AES-128). -/
def vecC1 : List Nat × List Nat × List Nat :=
  ([0x00, 0x01, 0x02, 0x03, 0x04, 0x05, 0x06, 0x07, 0x08, 0x09, 0x0a, 0x0b, 0x0c, 0x0d, 0x0e, 0x0f],
   [0x00, 0x11, 0x22, 0x33, 0x44, 0x55, 0x66, 0x77, 0x88, 0x99, 0xaa, 0xbb, 0xcc, 0xdd, 0xee, 0xff],
   [0x69, 0xc4, 0xe0, 0xd8, 0x6a, 0x7b, 0x04, 0x30, 0xd8, 0xcd, 0xb7, 0x80, 0x70, 0xb4, 0xc5, 0x5a])

/-- Row of `aesCipherTests`, FIPS-197 Appendix C.2 (AES-192). -/
def vecC2 : List Nat × List Nat × List Nat :=
  ([0x00, 0x01, 0x02, 0x03, 0x04, 0x05, 0x06, 0x07, 0x08, 0x09, 0x0a, 0x0b, 0x0c, 0x0d, 0x0e, 0x0f,
    0x10, 0x11, 0x12, 0x13, 0x14, 0x15, 0x16, 0x17],
   [0x00, 0x11, 0x22, 0x33, 0x44, 0x55, 0x66, 0x77, 0x88, 0x99, 0xaa, 0xbb, 0xcc, 0xdd, 0xee, 0xff],
   [0xdd, 0xa9, 0x7c, 0xa4, 0x86, 0x4c, 0xdf, 0xe0, 0x6e, 0xaf, 0x70, 0xa0, 0xec, 0x0d, 0x71, 0x91])

/-- Row of `aesCipherTests`, FIPS-197 Appendix C.3 (AES-256). -/
def vecC3 : List Nat × List Nat × List Nat :=
  ([0x00, 0x01, 0x02, 0x03, 0x04, 0x05, 0x06, 0x07, 0x08, 0x09, 0x0a, 0x0b, 0x0c, 0x0d, 0x0e, 0x0f,
    0x10, 0x11, 0x12, 0x13, 0x14, 0x15, 0x16, 0x17, 0x18, 0x19, 0x1a, 0x1b, 0x1c, 0x1d, 0x1e, 0x1f],
   [0x00, 0x11, 0x22, 0x33, 0x44, 0x55, 0x66, 0x77, 0x88, 0x99, 0xaa, 0xbb, 0xcc, 0xdd, 0xee, 0xff],
   [0x8e, 0xa2, 0xb7, 0xca, 0x51, 0x67, 0x45, 0xbf, 0xea, 0xfc, 0x49, 0x90, 0x4b, 0x49, 0x60, 0x89])

/-- The body of `Test_aesCipher_Encrypt` for one row: `c.Encrypt(got, tt.dec)` into a
zeroed `got` of the ciphertext length. -/
def runEncryptTest (tt : List Nat × List Nat × List Nat) : Except Fault (List Nat) := do
  let c ← NewCipher tt.1
  c.Encrypt (List.replicate tt.2.2.length 0) tt.2.1

/-- The body of `Test_aesCipher_Decrypt` for one row: `c.Decrypt(got, tt.enc)` into a
zeroed `got` of the plaintext length. -/
def runDecryptTest (tt : List Nat × List Nat × List Nat) : Except Fault (List Nat) := do
  let c ← NewCipher tt.1
  c.Decrypt (List.replicate tt.2.1.length 0) tt.2.2

end aes

/-! ## NIST SP 800-38A vectors -/

namespace ctr

def commonKey128 : List Nat :=
  [0x2b, 0x7e, 0x15, 0x16, 0x28, 0xae, 0xd2, 0xa6, 0xab, 0xf7, 0x15, 0x88, 0x09, 0xcf, 0x4f, 0x3c]

def commonKey192 : List Nat :=
  [0x8e, 0x73, 0xb0, 0xf7, 0xda, 0x0e, 0x64, 0x52, 0xc8, 0x10, 0xf3, 0x2b, 0x80, 0x90, 0x79, 0xe5,
   0x62, 0xf8, 0xea, 0xd2, 0x52, 0x2c, 0x6b, 0x7b]

def commonKey256 : List Nat :=
  [0x60, 0x3d, 0xeb, 0x10, 0x15, 0xca, 0x71, 0xbe, 0x2b, 0x73, 0xae, 0xf0, 0x85, 0x7d, 0x77, 0x81,
   0x1f, 0x35, 0x2c, 0x07, 0x3b, 0x61, 0x08, 0xd7, 0x2d, 0x98, 0x10, 0xa3, 0x09, 0x14, 0xdf, 0xf4]

def commonCounter : List Nat :=
  [0xf0, 0xf1, 0xf2, 0xf3, 0xf4, 0xf5, 0xf6, 0xf7, 0xf8, 0xf9, 0xfa, 0xfb, 0xfc, 0xfd, 0xfe, 0xff]

def commonInput : List Nat :=
  [0x6b, 0xc1, 0xbe, 0xe2, 0x2e, 0x40, 0x9f, 0x96, 0xe9, 0x3d, 0x7e, 0x11, 0x73, 0x93, 0x17, 0x2a,
   0xae, 0x2d, 0x8a, 0x57, 0x1e, 0x03, 0xac, 0x9c, 0x9e, 0xb7, 0x6f, 0xac, 0x45, 0xaf, 0x8e, 0x51,
   0x30, 0xc8, 0x1c, 0x46, 0xa3, 0x5c, 0xe4, 0x11, 0xe5, 0xfb, 0xc1, 0x19, 0x1a, 0x0a, 0x52, 0xef,
   0xf6, 0x9f, 0x24, 0x45, 0xdf, 0x4f, 0x9b, 0x17, 0xad, 0x2b, 0x41, 0x7b, 0xe6, 0x6c, 0x37, 0x10]

/-- The ciphertext of the row `CTR-AES128` of `ctrAESTests`. -/
def outAES128 : List Nat :=
  [0x87, 0x4d, 0x61, 0x91, 0xb6, 0x20, 0xe3, 0x26, 0x1b, 0xef, 0x68, 0x64, 0x99, 0x0d, 0xb6, 0xce,
   0x98, 0x06, 0xf6, 0x6b, 0x79, 0x70, 0xfd, 0xff, 0x86, 0x17, 0x18, 0x7b, 0xb9, 0xff, 0xfd, 0xff,
   0x5a, 0xe4, 0xdf, 0x3e, 0xdb, 0xd5, 0xd3, 0x5e, 0x5b, 0x4f, 0x09, 0x02, 0x0d, 0xb0, 0x3e, 0xab,
   0x1e, 0x03, 0x1d, 0xda, 0x2f, 0xbe, 0x03, 0xd1, 0x79, 0x21, 0x70, 0xa0, 0xf3, 0x00, 0x9c, 0xee]

/-- The ciphertext of the row `CTR-AES192` of `ctrAESTests`. -/
def outAES192 : List Nat :=
  [0x1a, 0xbc, 0x93, 0x24, 0x17, 0x52, 0x1c, 0xa2, 0x4f, 0x2b, 0x04, 0x59, 0xfe, 0x7e, 0x6e, 0x0b,
   0x09, 0x03, 0x39, 0xec, 0x0a, 0xa6, 0xfa, 0xef, 0xd5, 0xcc, 0xc2, 0xc6, 0xf4, 0xce, 0x8e, 0x94,
   0x1e, 0x36, 0xb2, 0x6b, 0xd1, 0xeb, 0xc6, 0x70, 0xd1, 0xbd, 0x1d, 0x66, 0x56, 0x20, 0xab, 0xf7,
   0x4f, 0x78, 0xa7, 0xf6, 0xd2, 0x98, 0x09, 0x58, 0x5a, 0x97, 0xda, 0xec, 0x58, 0xc6, 0xb0, 0x50]

/-- The ciphertext of the row `CTR-AES256` of `ctrAESTests`. -/
def outAES256 : List Nat :=
  [0x60, 0x1e, 0xc3, 0x13, 0x77, 0x57, 0x89, 0xa5, 0xb7, 0xa7, 0xf5, 0x04, 0xbb, 0xf3, 0xd2, 0x28,
   0xf4, 0x43, 0xe3, 0xca, 0x4d, 0x62, 0xb5, 0x9a, 0xca, 0x84, 0xe9, 0x90, 0xca, 0xca, 0xf5, 0xc5,
   0x2b, 0x09, 0x30, 0xda, 0xa2, 0x3d, 0xe9, 0x4c, 0xe8, 0x70, 0x17, 0xba, 0x2d, 0x84, 0x98, 0x8d,
   0xdf, 0xc9, 0xc5, 0x8d, 0xb6, 0x7a, 0xad, 0xa6, 0x13, 0xc2, 0xdd, 0x08, 0x45, 0x79, 0x41, 0xa6]

/-- One run of the AES part of `Test_ctr_XORKeyStream`: a cipher for `key`, a fresh
stream from `iv`, and `XORKeyStream` over `input` into a zeroed buffer of the same
length. The loops run with fuel `512 + len(input)`. -/
def runCTR (key iv input : List Nat) : Except Fault (List Nat) := do
  let c ← aes.NewCipher key
  let s ← NewCTR c.toBlock iv
  let r ← s.XORKeyStream (512 + input.length) (List.replicate input.length 0) input
  pure r.2

/-- The first `n` keystream blocks of AES under `key` from `iv`: the encryptions of the
counters `iv`, `iv + 1`, ... -/
def keystreamBlocks (key iv : List Nat) (n : Nat) : Except Fault (List (List Nat)) := do
  let c ← aes.NewCipher key
  pure ((List.range n).map (fun k => c.encryptFn (counterAdd iv k)))

/-- Byte-wise XOR of two byte strings, as long as the shorter one. -/
def xorList (a b : List Nat) : List Nat :=
  List.zipWith (fun x y => x ^^^ y) a b

/-- The four keystream blocks of CTR-AES128 for `commonCounter`. -/
def ksAES128 : List (List Nat) :=
  [[0xEC, 0x8C, 0xDF, 0x73, 0x98, 0x60, 0x7C, 0xB0, 0xF2, 0xD2, 0x16, 0x75, 0xEA, 0x9E, 0xA1, 0xE4],
   [0x36, 0x2B, 0x7C, 0x3C, 0x67, 0x73, 0x51, 0x63, 0x18, 0xA0, 0x77, 0xD7, 0xFC, 0x50, 0x73, 0xAE],
   [0x6A, 0x2C, 0xC3, 0x78, 0x78, 0x89, 0x37, 0x4F, 0xBE, 0xB4, 0xC8, 0x1B, 0x17, 0xBA, 0x6C, 0x44],
   [0xE8, 0x9C, 0x39, 0x9F, 0xF0, 0xF1, 0x98, 0xC6, 0xD4, 0x0A, 0x31, 0xDB, 0x15, 0x6C, 0xAB, 0xFE]]

/-- The four keystream blocks of CTR-AES192 for `commonCounter`. -/
def ksAES192 : List (List Nat) :=
  [[0x71, 0x7d, 0x2d, 0xc6, 0x39, 0x12, 0x83, 0x34, 0xa6, 0x16, 0x7a, 0x48, 0x8d, 0xed, 0x79, 0x21],
   [0xa7, 0x2e, 0xb3, 0xbb, 0x14, 0xa5, 0x56, 0x73, 0x4b, 0x7b, 0xad, 0x6a, 0xb1, 0x61, 0x00, 0xc5],
   [0x2e, 0xfe, 0xae, 0x2d, 0x72, 0xb7, 0x22, 0x61, 0x34, 0x46, 0xdc, 0x7f, 0x4c, 0x2a, 0xf9, 0x18],
   [0xb9, 0xe7, 0x83, 0xb3, 0x0d, 0xd7, 0x92, 0x4f, 0xf7, 0xbc, 0x9b, 0x97, 0xbe, 0xaa, 0x87, 0x40]]

/-- The four keystream blocks of CTR-AES256 for `commonCounter`. -/
def ksAES256 : List (List Nat) :=
  [[0x0b, 0xdf, 0x7d, 0xf1, 0x59, 0x17, 0x16, 0x33, 0x5e, 0x9a, 0x8b, 0x15, 0xc8, 0x60, 0xc5, 0x02],
   [0x5a, 0x6e, 0x69, 0x9d, 0x53, 0x61, 0x19, 0x06, 0x54, 0x33, 0x86, 0x3c, 0x8f, 0x65, 0x7b, 0x94],
   [0x1b, 0xc1, 0x2c, 0x9c, 0x01, 0x61, 0x0d, 0x5d, 0x0d, 0x8b, 0xd6, 0xa3, 0x37, 0x8e, 0xca, 0x62],
   [0x29, 0x56, 0xe1, 0xc8, 0x69, 0x35, 0x36, 0xb1, 0xbe, 0xe9, 0x9c, 0x73, 0xa3, 0x15, 0x76, 0xb6]]

end ctr

/-! ## Calls with the memory they leave behind -/

/-- What a call that can panic leaves behind: the memory it was working on when it ended,
and the fault that ended it, if any. -/
structure Outcome (σ : Type) where
  mem : σ
  fault : Option Fault

/-- The call seen as a value: the memory on a normal return, the fault otherwise. -/
def Outcome.result {σ : Type} (o : Outcome σ) : Except Fault σ :=
  match o.fault with
  | none => .ok o.mem
  | some e => .error e

/-- A step of a call that reads and computes but stores nothing in `dst`: when it faults
`dst` holds what it held, otherwise the call goes on with the value. -/
def readThen {α : Type} (dst : List Nat) (x : Except Fault α)
    (k : α → Outcome (List Nat)) : Outcome (List Nat) :=
  match x with
  | .error e => ⟨dst, some e⟩
  | .ok a => k a

namespace aes

/-- The four stores `binary.BigEndian.PutUint32(dst[4*k:4*k+4], b[k])` that end `Encrypt`
and `Decrypt`, one after the other, with the contents of `dst` when they end. -/
def storeBlockMem (dst b : List Nat) : Outcome (List Nat) :=
  readThen dst (idx b 0) fun b0 =>
    let d1 := bePutUint32 b0 ++ dst.drop 4
    readThen d1 (idx b 1) fun b1 =>
      let d2 := d1.take 4 ++ bePutUint32 b1 ++ d1.drop 8
      readThen d2 (idx b 2) fun b2 =>
        let d3 := d2.take 8 ++ bePutUint32 b2 ++ d2.drop 12
        readThen d3 (idx b 3) fun b3 =>
          ⟨d3.take 12 ++ bePutUint32 b3 ++ d3.drop 16, none⟩

/-- The call `c.Encrypt(dst, src)` with the contents of `dst` when it ends: the bounds
check, the reads of `src` and `encryptBlock` work on the local `b` and store nothing in
`dst`; the four stores come last. -/
def aesCipher.EncryptMem (c : aesCipher) (dst src : List Nat) : Outcome (List Nat) :=
  if dst.length ≤ 15 ∨ src.length ≤ 15 then ⟨dst, some Fault.panic⟩
  else
    readThen dst (loadBlock src) fun b =>
      readThen dst (encryptBlock c.enc b) fun b1 =>
        storeBlockMem dst b1

/-- The call `c.Decrypt(dst, src)` with the contents of `dst` when it ends. -/
def aesCipher.DecryptMem (c : aesCipher) (dst src : List Nat) : Outcome (List Nat) :=
  if dst.length ≤ 15 ∨ src.length ≤ 15 then ⟨dst, some Fault.panic⟩
  else
    readThen dst (loadBlock src) fun b =>
      readThen dst (decryptBlock c.dec b) fun b1 =>
        storeBlockMem dst b1

/-- The sixteen bytes that `c.Decrypt` stores for the source block `x`. -/
def aesCipher.decryptFn (c : aesCipher) (x : List Nat) : List Nat :=
  match c.Decrypt (List.replicate 16 0) x with
  | .ok r => r.take 16
  | .error _ => List.replicate 16 0

end aes

namespace des

/-- The body shared by the `Encrypt` and `Decrypt` calls of `desCipher` and
`tripleDESCipher`, with the contents of `dst` when it ends: the bounds check, then the
read of `src[:8]`, then `f` on the block, then the one store
`binary.BigEndian.PutUint64(dst[:8], ...)`. -/
def cryptMem (f : Nat → Nat) (dst src : List Nat) : Outcome (List Nat) :=
  if dst.length ≤ 7 ∨ src.length ≤ 7 then ⟨dst, some Fault.panic⟩
  else
    readThen dst (beUint64 (src.take 8)) fun b =>
      ⟨bePutUint64 (f b) ++ dst.drop 8, none⟩

/-- The call `c.Encrypt(dst, src)` with the contents of `dst` when it ends. -/
def desCipher.EncryptMem (c : desCipher) (dst src : List Nat) : Outcome (List Nat) :=
  cryptMem (encryptBlock c.subKeys) dst src

/-- The call `c.Decrypt(dst, src)` with the contents of `dst` when it ends. -/
def desCipher.DecryptMem (c : desCipher) (dst src : List Nat) : Outcome (List Nat) :=
  cryptMem (decryptBlock c.subKeys) dst src

/-- The call `c.Encrypt(dst, src)` with the contents of `dst` when it ends. -/
def tripleDESCipher.EncryptMem (c : tripleDESCipher) (dst src : List Nat) :
    Outcome (List Nat) :=
  cryptMem (fun b => encryptBlock c.cipher3.subKeys
    (decryptBlock c.cipher2.subKeys (encryptBlock c.cipher1.subKeys b))) dst src

/-- The call `c.Decrypt(dst, src)` with the contents of `dst` when it ends. -/
def tripleDESCipher.DecryptMem (c : tripleDESCipher) (dst src : List Nat) :
    Outcome (List Nat) :=
  cryptMem (fun b => decryptBlock c.cipher1.subKeys
    (encryptBlock c.cipher2.subKeys (decryptBlock c.cipher3.subKeys b))) dst src

/-- The eight bytes that a call with block transform `f` stores for the source `x`. -/
def blockFn (f : Nat → Nat) (x : List Nat) : List Nat :=
  match beUint64 (x.take 8) with
  | .ok b => bePutUint64 (f b)
  | .error _ => List.replicate 8 0

end des

/-- `Encrypt` of the block cipher returns on every destination and source of at least one
block, and, as every Go callee must, leaves the destination slice with the length it
had. -/
def Block.EncryptSucceeds (block : Block) : Prop :=
  ∀ dst src, block.BlockSize ≤ dst.length → block.BlockSize ≤ src.length →
    ∃ d, block.Encrypt dst src = .ok d ∧ d.length = dst.length

namespace ctr

/-- The call `s.XORKeyStream(dst, src)` with the stream and the contents of `dst` when it
ends. The length check is the first statement and panics before anything is stored;
a fault inside the loop leaves a memory that this embedding does not describe (`none`). -/
def ctrStream.XORKeyStreamMem (fuel : Nat) (s : ctrStream) (dst src : List Nat) :
    Outcome (Option (ctrStream × List Nat)) :=
  if dst.length < src.length then ⟨some (s, dst), some Fault.panic⟩
  else
    match xorKeyStreamLoop fuel fuel s dst src with
    | .ok r => ⟨some r, none⟩
    | .error e => ⟨none, some e⟩

/-- The stream states reachable from `NewCTR(block, iv)`: the stream it returns, and the
stream that a call of `XORKeyStream` on a reachable stream leaves when it returns. -/
inductive ctrStream.Reachable (block : Block) : ctrStream → Prop
  | fresh (iv : List Nat) (s : ctrStream) : NewCTR block iv = .ok s → Reachable block s
  | step (fuel : Nat) (s s1 : ctrStream) (dst src dst1 : List Nat) :
      Reachable block s → s.XORKeyStream fuel dst src = .ok (s1, dst1) → Reachable block s1

/-- The shape of every reachable stream of `block`: the counter is one block long, the
buffer has capacity `max(512, bs)`, and `outUsed ≤ len(out) ≤ cap(out)`. -/
def ctrStream.Inv (s : ctrStream) (block : Block) : Prop :=
  s.block = block ∧ s.ctr.length = block.BlockSize ∧
    s.out.length = max 512 block.BlockSize ∧ s.outUsed ≤ s.outLen ∧ s.outLen ≤ s.out.length

end ctr

/-- The call `call(dst, src)`, whose memory model is `callMem`, aborts exactly when `dst`
or `src` is shorter than `bs`; the abort is a panic, and when the call aborts `dst` holds
what it held before the call. -/
def AbortsIffShort (bs : Nat) (call : List Nat → List Nat → Except Fault (List Nat))
    (callMem : List Nat → List Nat → Outcome (List Nat)) (dst src : List Nat) : Prop :=
  (callMem dst src).result = call dst src ∧
    ((∃ e, call dst src = .error e) ↔ (dst.length < bs ∨ src.length < bs)) ∧
    ((dst.length < bs ∨ src.length < bs) → call dst src = .error Fault.panic) ∧
    ((callMem dst src).fault ≠ none → (callMem dst src).mem = dst)

/-- The call `call(dst, src)` on buffers of at least `bs` bytes returns, storing in
`dst[0:bs]` the `bs` bytes `F(src[0:bs])` and leaving every `dst[i]` with `i ≥ bs` as it
was. -/
def WritesBlock (bs : Nat) (call : List Nat → List Nat → Except Fault (List Nat))
    (F : List Nat → List Nat) (dst src : List Nat) : Prop :=
  (F (src.take bs)).length = bs ∧
    call dst src = .ok (F (src.take bs) ++ dst.drop bs) ∧
    ∀ r, call dst src = .ok r →
      r.length = dst.length ∧ r.take bs = F (src.take bs) ∧
        ∀ i, bs ≤ i → r.getD i 0 = dst.getD i 0

/-! ## Reference vectors and reference definitions -/

namespace des

/-- The key `133457799BBCDFF1` of the worked example in "The DES Algorithm Illustrated". -/
def keyI : List Nat := [0x13, 0x34, 0x57, 0x79, 0x9B, 0xBC, 0xDF, 0xF1]

/-- The plaintext block `0123456789ABCDEF` of the worked example. -/
def plainI : List Nat := [0x01, 0x23, 0x45, 0x67, 0x89, 0xAB, 0xCD, 0xEF]

/-- The ciphertext block `85E813540F0AB405` of the worked example. -/
def cipherI : List Nat := [0x85, 0xE8, 0x13, 0x54, 0x0F, 0x0A, 0xB4, 0x05]

/-- `NewCipher(key)` followed by `Encrypt(dst, src)` on a fresh 8-byte `dst`. -/
def runEncrypt (key src : List Nat) : Except Fault (List Nat) := do
  let c ← NewCipher key
  c.Encrypt (List.replicate 8 0) src

/-- `NewCipher(key)` followed by `Decrypt(dst, src)` on a fresh 8-byte `dst`. -/
def runDecrypt (key src : List Nat) : Except Fault (List Nat) := do
  let c ← NewCipher key
  c.Decrypt (List.replicate 8 0) src

end des

namespace aes

/-- From the statement of the claim, not from the source: the carry-less product of `a`
with the low `n` bits of `b`, that is the product of the two polynomials over GF(2) whose
coefficients are the bits of `a` and of `b`. -/
def carrylessMul (a b : Nat) : Nat → Nat
  | 0 => 0
  | n + 1 => carrylessMul a b n ^^^ (if b.testBit n then a <<< n else 0)

/-- From the statement of the claim, not from the source: reduction modulo
`x^8 + x^4 + x^3 + x + 1` (`0x11b`) of a polynomial of degree below `8 + n`; the terms of
degree `8 + n - 1` down to `8` are cancelled in turn. -/
def reduce11b : Nat → Nat → Nat
  | 0, v => v
  | n + 1, v => reduce11b n (if v.testBit (8 + n) then v ^^^ 0x11b <<< n else v)

/-- From the statement of the claim, not from the source: the product of the bytes `a`
and `b` in GF(2^8), the carry-less product reduced modulo `0x11b`. -/
def gf256Mul (a b : Nat) : Nat :=
  reduce11b 7 (carrylessMul a b 8)

/-- From the statement of the claim, not from the source: rotation of the byte `y` to the
left by `k` bits. -/
def rotl8 (y k : Nat) : Nat :=
  u8 (y <<< k) ||| y >>> (8 - k)

/-- From the statement of the claim, not from the source: the affine step of the Rijndael
S-box. -/
def sBoxAffine (y : Nat) : Nat :=
  y ^^^ rotl8 y 1 ^^^ rotl8 y 2 ^^^ rotl8 y 3 ^^^ rotl8 y 4 ^^^ 0x63

end aes

namespace ctr

/-- The first statement of the body of the loop of `XORKeyStream`:
`if s.outUsed >= len(s.out)-s.block.BlockSize() { s.refill() }`. -/
def ctrStream.refillCheck (fuel : Nat) (s : ctrStream) : Except Fault ctrStream :=
  if (s.outUsed : Int) ≥ (s.outLen : Int) - s.block.BlockSize then s.refill fuel else pure s

/-- What a run shows of the refill check: a fresh stream of `block` from `iv` handles
`src`, then the refill check of the next loop iteration runs; returns the unconsumed
remainder `len(out) - outUsed` and the counter before the check, and the counter after
it. -/
def runRefillCheck (block : Block) (iv src : List Nat) (fuel : Nat) :
    Except Fault (Nat × List Nat × List Nat) := do
  let s0 ← NewCTR block iv
  let r ← s0.XORKeyStream fuel (List.replicate src.length 0) src
  let s2 ← r.1.refillCheck fuel
  pure (r.1.outLen - r.1.outUsed, r.1.ctr, s2.ctr)

end ctr

/-! ## Bytes and words as natural numbers -/

theorem shl_or_eq_add (a b k : Nat) (h : b < 2 ^ k) : a <<< k ||| b = a * 2 ^ k + b := by
  rw [Nat.shiftLeft_eq, Nat.mul_comm, Nat.mul_add_lt_is_or h]

theorem and_255 (x : Nat) : x &&& 255 = x % 256 :=
  Nat.and_pow_two_sub_one_eq_mod x 8

/-- Masking with a byte-wide mask placed at bit `k` keeps the byte at bit `k`. -/
theorem and_byte_mask (x k : Nat) : x &&& (255 <<< k) = (x >>> k % 256) <<< k := by
  apply Nat.eq_of_testBit_eq
  intro i
  have h255 : (255 : Nat) = 2 ^ 8 - 1 := by norm_num
  have h256 : (256 : Nat) = 2 ^ 8 := by norm_num
  rw [Nat.testBit_and, Nat.testBit_shiftLeft, Nat.testBit_shiftLeft, h255, h256,
    Nat.testBit_two_pow_sub_one, Nat.testBit_mod_two_pow, Nat.testBit_shiftRight]
  by_cases h : i ≥ k
  · have : k + (i - k) = i := by omega
    simp [h, this, Bool.and_comm]
  · simp [h]

theorem and_mask3 (x : Nat) : x &&& 0xff000000 = (x >>> 24 % 256) <<< 24 :=
  and_byte_mask x 24

theorem and_mask2 (x : Nat) : x &&& 0xff0000 = (x >>> 16 % 256) <<< 16 :=
  and_byte_mask x 16

theorem and_mask1 (x : Nat) : x &&& 0xff00 = (x >>> 8 % 256) <<< 8 :=
  and_byte_mask x 8

theorem xor_hi_lo (a b c d k : Nat) (hb : b < 2 ^ k) (hd : d < 2 ^ k) :
    (a * 2 ^ k + b) ^^^ (c * 2 ^ k + d) = (a ^^^ c) * 2 ^ k + (b ^^^ d) := by
  apply Nat.eq_of_testBit_eq
  intro i
  have hbd : b ^^^ d < 2 ^ k := Nat.xor_lt_two_pow hb hd
  rw [Nat.testBit_xor, Nat.mul_comm a, Nat.mul_comm c, Nat.mul_comm (a ^^^ c),
    Nat.testBit_mul_pow_two_add a hb, Nat.testBit_mul_pow_two_add c hd,
    Nat.testBit_mul_pow_two_add _ hbd]
  by_cases h : i < k <;> simp [h]

theorem xor_shiftRight (a b k : Nat) : (a ^^^ b) >>> k = a >>> k ^^^ b >>> k := by
  apply Nat.eq_of_testBit_eq
  intro i
  simp

theorem xor_mod_256 (a b : Nat) : (a ^^^ b) % 256 = a % 256 ^^^ b % 256 := by
  apply Nat.eq_of_testBit_eq
  intro i
  have h256 : (256 : Nat) = 2 ^ 8 := by norm_num
  rw [h256, Nat.testBit_xor, Nat.testBit_mod_two_pow, Nat.testBit_mod_two_pow,
    Nat.testBit_mod_two_pow, Nat.testBit_xor]
  by_cases h : i < 8 <;> simp [h]

theorem xor_lt_256 {a b : Nat} (ha : a < 256) (hb : b < 256) : a ^^^ b < 256 :=
  @Nat.xor_lt_two_pow a b 8 ha hb

theorem mul_or_eq_add (x b k : Nat) (h : b < 2 ^ k) : x * 2 ^ k ||| b = x * 2 ^ k + b := by
  rw [Nat.mul_comm, Nat.mul_add_lt_is_or h]

/-- The word with bytes `a b c d`, most significant first. -/
theorem pack4_eq (a b c d : Nat) (hb : b < 256) (hc : c < 256) (hd : d < 256) :
    aes.pack4 a b c d = a * 16777216 + b * 65536 + c * 256 + d := by
  unfold aes.pack4
  simp only [Nat.shiftLeft_eq]
  have e1 : a * 2 ^ 24 + b * 2 ^ 16 = (a * 256 + b) * 2 ^ 16 := by omega
  have e2 : (a * 256 + b) * 2 ^ 16 + c * 2 ^ 8 = (a * 65536 + b * 256 + c) * 2 ^ 8 := by omega
  rw [mul_or_eq_add _ _ 24 (by omega), e1, mul_or_eq_add _ _ 16 (by omega), e2,
    mul_or_eq_add _ _ 8 (by omega)]
  omega

theorem pack4_lt (a b c d : Nat) (ha : a < 256) (hb : b < 256) (hc : c < 256) (hd : d < 256) :
    aes.pack4 a b c d < 4294967296 := by
  rw [pack4_eq a b c d hb hc hd]; omega

theorem pack4_byte3 (a b c d : Nat) (hb : b < 256) (hc : c < 256) (hd : d < 256) :
    aes.pack4 a b c d >>> 24 = a := by
  rw [pack4_eq a b c d hb hc hd, Nat.shiftRight_eq_div_pow]; omega

theorem pack4_byte2 (a b c d : Nat) (hb : b < 256) (hc : c < 256) (hd : d < 256) :
    aes.pack4 a b c d >>> 16 % 256 = b := by
  rw [pack4_eq a b c d hb hc hd, Nat.shiftRight_eq_div_pow]; omega

theorem pack4_byte1 (a b c d : Nat) (hb : b < 256) (hc : c < 256) (hd : d < 256) :
    aes.pack4 a b c d >>> 8 % 256 = c := by
  rw [pack4_eq a b c d hb hc hd, Nat.shiftRight_eq_div_pow]; omega

theorem pack4_byte0 (a b c d : Nat) (hb : b < 256) (hc : c < 256) (hd : d < 256) :
    aes.pack4 a b c d % 256 = d := by
  rw [pack4_eq a b c d hb hc hd]; omega

theorem pack4_bytes (w : Nat) :
    aes.pack4 (w >>> 24) (w >>> 16 % 256) (w >>> 8 % 256) (w % 256) = w := by
  rw [pack4_eq _ _ _ _ (Nat.mod_lt _ (by norm_num)) (Nat.mod_lt _ (by norm_num))
    (Nat.mod_lt _ (by norm_num))]
  simp only [Nat.shiftRight_eq_div_pow]
  omega

theorem pack4_xor (a b c d a1 b1 c1 d1 : Nat) (hb : b < 256) (hc : c < 256) (hd : d < 256)
    (hb1 : b1 < 256) (hc1 : c1 < 256) (hd1 : d1 < 256) :
    aes.pack4 a b c d ^^^ aes.pack4 a1 b1 c1 d1
      = aes.pack4 (a ^^^ a1) (b ^^^ b1) (c ^^^ c1) (d ^^^ d1) := by
  rw [pack4_eq a b c d hb hc hd, pack4_eq a1 b1 c1 d1 hb1 hc1 hd1,
    pack4_eq _ _ _ _ (xor_lt_256 hb hb1) (xor_lt_256 hc hc1) (xor_lt_256 hd hd1)]
  have hbx := xor_lt_256 hb hb1
  have hcx := xor_lt_256 hc hc1
  have hdx := xor_lt_256 hd hd1
  have e1 : a * 16777216 + b * 65536 + c * 256 + d
      = (a * 65536 + b * 256 + c) * 2 ^ 8 + d := by omega
  have e2 : a1 * 16777216 + b1 * 65536 + c1 * 256 + d1
      = (a1 * 65536 + b1 * 256 + c1) * 2 ^ 8 + d1 := by omega
  have e3 : a * 65536 + b * 256 + c = (a * 256 + b) * 2 ^ 8 + c := by omega
  have e4 : a1 * 65536 + b1 * 256 + c1 = (a1 * 256 + b1) * 2 ^ 8 + c1 := by omega
  have e5 : a * 256 + b = a * 2 ^ 8 + b := by omega
  have e6 : a1 * 256 + b1 = a1 * 2 ^ 8 + b1 := by omega
  rw [e1, e2, xor_hi_lo _ _ _ _ 8 (by omega) (by omega), e3, e4,
    xor_hi_lo _ _ _ _ 8 (by omega) (by omega), e5, e6,
    xor_hi_lo _ _ _ _ 8 (by omega) (by omega)]
  omega

/-! ## AES: the round transforms -/

namespace aes

theorem sBox_lt (i : Nat) : sBox i < 256 := by
  by_cases h : i < 256
  · revert i; decide!
  · have hl : sBoxRows.length = 16 := rfl
    unfold sBox
    rw [List.getD_eq_default sBoxRows _ (by omega)]
    simp

theorem inverseSBox_lt (i : Nat) : inverseSBox i < 256 := by
  by_cases h : i < 256
  · revert i; decide!
  · have hl : inverseSBoxRows.length = 16 := rfl
    unfold inverseSBox
    rw [List.getD_eq_default inverseSBoxRows _ (by omega)]
    simp

theorem inverseSBox_sBox : ∀ x < 256, inverseSBox (sBox x) = x := by
  decide!

theorem sBox_inverseSBox : ∀ x < 256, sBox (inverseSBox x) = x := by
  decide!

theorem subWord_eq (box : Nat → Nat) (t : Nat) :
    subWord box t = pack4 (box (t >>> 24)) (box (t >>> 16 % 256))
      (box (t >>> 8 % 256)) (box (t % 256)) := by
  simp only [subWord, pack4, and_255]

theorem subWord_pack4 (box : Nat → Nat) (a b c d : Nat)
    (hb : b < 256) (hc : c < 256) (hd : d < 256) :
    subWord box (pack4 a b c d)
      = pack4 (box a) (box b) (box c) (box d) := by
  rw [subWord_eq, pack4_byte3 a b c d hb hc hd, pack4_byte2 a b c d hb hc hd,
    pack4_byte1 a b c d hb hc hd, pack4_byte0 a b c d hb hc hd]

/-- A word reassembled from one masked byte of each of four words. -/
theorem mask_combine (x y z w : Nat) :
    x &&& 0xff000000 ||| y &&& 0xff0000 ||| z &&& 0xff00 ||| w &&& 0xff
      = pack4 (x >>> 24 % 256) (y >>> 16 % 256) (z >>> 8 % 256) (w % 256) := by
  rw [and_mask3, and_mask2, and_mask1, and_255]; rfl

theorem mask_combine_pack4 (a b c d a1 b1 c1 d1 a2 b2 c2 d2 a3 b3 c3 d3 : Nat)
    (ha : a < 256) (hb : b < 256) (hc : c < 256) (hd : d < 256)
    (hb1 : b1 < 256) (hc1 : c1 < 256) (hd1 : d1 < 256)
    (hb2 : b2 < 256) (hc2 : c2 < 256) (hd2 : d2 < 256)
    (hb3 : b3 < 256) (hc3 : c3 < 256) (hd3 : d3 < 256) :
    pack4 a b c d &&& 0xff000000 ||| pack4 a1 b1 c1 d1 &&& 0xff0000 |||
      pack4 a2 b2 c2 d2 &&& 0xff00 ||| pack4 a3 b3 c3 d3 &&& 0xff
      = pack4 a b1 c2 d3 := by
  rw [mask_combine, pack4_byte3 a b c d hb hc hd, pack4_byte2 a1 b1 c1 d1 hb1 hc1 hd1,
    pack4_byte1 a2 b2 c2 d2 hb2 hc2 hd2, pack4_byte0 a3 b3 c3 d3 hb3 hc3 hd3,
    Nat.mod_eq_of_lt ha]

theorem shr24_lt {w : Nat} (h : w < 4294967296) : w >>> 24 < 256 := by
  rw [Nat.shiftRight_eq_div_pow]; omega

/-- SubBytes followed by ShiftRows, in bytes. -/
theorem shiftRows_subWord (box : Nat → Nat) (hbox : ∀ i, box i < 256) (t : Words) :
    shiftRows (t.map (subWord box))
      = ⟨pack4 (box (t.t0 >>> 24)) (box (t.t1 >>> 16 % 256))
            (box (t.t2 >>> 8 % 256)) (box (t.t3 % 256)),
         pack4 (box (t.t1 >>> 24)) (box (t.t2 >>> 16 % 256))
            (box (t.t3 >>> 8 % 256)) (box (t.t0 % 256)),
         pack4 (box (t.t2 >>> 24)) (box (t.t3 >>> 16 % 256))
            (box (t.t0 >>> 8 % 256)) (box (t.t1 % 256)),
         pack4 (box (t.t3 >>> 24)) (box (t.t0 >>> 16 % 256))
            (box (t.t1 >>> 8 % 256)) (box (t.t2 % 256))⟩ := by
  simp only [shiftRows, Words.map, subWord_eq]
  simp only [mask_combine_pack4, hbox]

/-- SubBytes followed by the inverse ShiftRows, in bytes. -/
theorem invShiftRows_subWord (box : Nat → Nat) (hbox : ∀ i, box i < 256) (t : Words) :
    invShiftRows (t.map (subWord box))
      = ⟨pack4 (box (t.t0 >>> 24)) (box (t.t3 >>> 16 % 256))
            (box (t.t2 >>> 8 % 256)) (box (t.t1 % 256)),
         pack4 (box (t.t1 >>> 24)) (box (t.t0 >>> 16 % 256))
            (box (t.t3 >>> 8 % 256)) (box (t.t2 % 256)),
         pack4 (box (t.t2 >>> 24)) (box (t.t1 >>> 16 % 256))
            (box (t.t0 >>> 8 % 256)) (box (t.t3 % 256)),
         pack4 (box (t.t3 >>> 24)) (box (t.t2 >>> 16 % 256))
            (box (t.t1 >>> 8 % 256)) (box (t.t0 % 256))⟩ := by
  simp only [invShiftRows, Words.map, subWord_eq]
  simp only [mask_combine_pack4, hbox]

/-- The inverse SubBytes and ShiftRows undo SubBytes and ShiftRows. -/
theorem invShiftRows_shiftRows (t : Words) (ht : t.Valid) :
    invShiftRows ((shiftRows (t.map (subWord sBox))).map (subWord inverseSBox)) = t := by
  obtain ⟨h0, h1, h2, h3⟩ := ht
  rw [invShiftRows_subWord _ inverseSBox_lt, shiftRows_subWord _ sBox_lt]
  simp only [pack4_byte3 _ _ _ _ (sBox_lt _) (sBox_lt _) (sBox_lt _),
    pack4_byte2 _ _ _ _ (sBox_lt _) (sBox_lt _) (sBox_lt _),
    pack4_byte1 _ _ _ _ (sBox_lt _) (sBox_lt _) (sBox_lt _),
    pack4_byte0 _ _ _ _ (sBox_lt _) (sBox_lt _) (sBox_lt _)]
  simp only [inverseSBox_sBox _ (shr24_lt h0), inverseSBox_sBox _ (shr24_lt h1),
    inverseSBox_sBox _ (shr24_lt h2), inverseSBox_sBox _ (shr24_lt h3),
    inverseSBox_sBox _ (Nat.mod_lt _ (by norm_num : 256 > 0)), pack4_bytes]

/-- SubBytes and ShiftRows undo the inverse SubBytes and ShiftRows. -/
theorem shiftRows_invShiftRows (t : Words) (ht : t.Valid) :
    shiftRows ((invShiftRows (t.map (subWord inverseSBox))).map (subWord sBox)) = t := by
  obtain ⟨h0, h1, h2, h3⟩ := ht
  rw [shiftRows_subWord _ sBox_lt, invShiftRows_subWord _ inverseSBox_lt]
  simp only [pack4_byte3 _ _ _ _ (inverseSBox_lt _) (inverseSBox_lt _) (inverseSBox_lt _),
    pack4_byte2 _ _ _ _ (inverseSBox_lt _) (inverseSBox_lt _) (inverseSBox_lt _),
    pack4_byte1 _ _ _ _ (inverseSBox_lt _) (inverseSBox_lt _) (inverseSBox_lt _),
    pack4_byte0 _ _ _ _ (inverseSBox_lt _) (inverseSBox_lt _) (inverseSBox_lt _)]
  simp only [sBox_inverseSBox _ (shr24_lt h0), sBox_inverseSBox _ (shr24_lt h1),
    sBox_inverseSBox _ (shr24_lt h2), sBox_inverseSBox _ (shr24_lt h3),
    sBox_inverseSBox _ (Nat.mod_lt _ (by norm_num : 256 > 0)), pack4_bytes]

end aes

/-! ## AES: multiplication in GF(2^8) and MixColumns -/

namespace aes

theorem and_one_xor (x y : Nat) :
    (x ^^^ y) &&& 1 = (if x &&& 1 ≠ 0 then 1 else 0) ^^^ (if y &&& 1 ≠ 0 then 1 else 0) := by
  rw [Nat.and_xor_distrib_right]
  simp only [Nat.and_one_is_mod]
  have hx := Nat.mod_two_eq_zero_or_one x
  have hy := Nat.mod_two_eq_zero_or_one y
  rcases hx with hx | hx <;> rcases hy with hy | hy <;> simp [hx, hy]

/-- The loop of `gmul` is linear in its second operand and its accumulator. -/
theorem gmulLoop_xor (n a x y p q : Nat) :
    gmulLoop n a (x ^^^ y) (p ^^^ q) = gmulLoop n a x p ^^^ gmulLoop n a y q := by
  induction n generalizing a x y p q with
  | zero => rfl
  | succ n ih =>
    simp only [gmulLoop]
    rw [xor_shiftRight, ← ih]
    congr 1
    rw [and_one_xor]
    by_cases hx : x &&& 1 ≠ 0 <;> by_cases hy : y &&& 1 ≠ 0
    · rw [if_pos hx, if_pos hy, if_pos hx, if_pos hy, if_neg (by simp),
        Nat.xor_assoc p a, ← Nat.xor_assoc a q a, Nat.xor_comm a q, Nat.xor_assoc q a a,
        Nat.xor_self, Nat.xor_zero]
    · rw [if_pos hx, if_neg hy, if_pos hx, if_neg hy, if_pos (by simp),
        Nat.xor_assoc, Nat.xor_comm q a, Nat.xor_assoc]
    · rw [if_neg hx, if_pos hy, if_neg hx, if_pos hy, if_pos (by simp), Nat.xor_assoc]
    · rw [if_neg hx, if_neg hy, if_neg hx, if_neg hy, if_neg (by simp)]

theorem gmul_xor (a x y : Nat) : gmul a (x ^^^ y) = gmul a x ^^^ gmul a y := by
  have := gmulLoop_xor 8 a x y 0 0
  simpa [gmul] using this

theorem u8_lt (x : Nat) : u8 x < 256 := Nat.mod_lt _ (by norm_num)

theorem gmulLoop_lt (n a b p : Nat) (ha : a < 256) (hp : p < 256) :
    gmulLoop n a b p < 256 := by
  induction n generalizing a b p with
  | zero => exact hp
  | succ n ih =>
    simp only [gmulLoop]
    apply ih
    · split
      · exact xor_lt_256 (u8_lt _) (by norm_num)
      · exact u8_lt _
    · split
      · exact xor_lt_256 hp ha
      · exact hp

theorem gmul_lt (a b : Nat) (ha : a < 256) : gmul a b < 256 :=
  gmulLoop_lt 8 a b 0 ha (by norm_num)

end aes

namespace aes

theorem u8_xor_shr (x y k : Nat) : u8 ((x ^^^ y) >>> k) = u8 (x >>> k) ^^^ u8 (y >>> k) := by
  unfold u8; rw [xor_shiftRight, xor_mod_256]

theorem u8_xor (x y : Nat) : u8 (x ^^^ y) = u8 x ^^^ u8 y := by
  unfold u8; rw [xor_mod_256]

theorem xor4_lt {a b c d : Nat} (ha : a < 256) (hb : b < 256) (hc : c < 256) (hd : d < 256) :
    a ^^^ b ^^^ c ^^^ d < 256 :=
  xor_lt_256 (xor_lt_256 (xor_lt_256 ha hb) hc) hd

theorem xor4_xor4 (a b c d a1 b1 c1 d1 : Nat) :
    (a ^^^ a1) ^^^ (b ^^^ b1) ^^^ (c ^^^ c1) ^^^ (d ^^^ d1)
      = (a ^^^ b ^^^ c ^^^ d) ^^^ (a1 ^^^ b1 ^^^ c1 ^^^ d1) := by
  ac_rfl

theorem mixColumn_eq (t : Nat) :
    mixColumn t = pack4
      (gmul 0x02 (u8 (t >>> 24)) ^^^ gmul 0x03 (u8 (t >>> 16)) ^^^ u8 (t >>> 8) ^^^ u8 t)
      (u8 (t >>> 24) ^^^ gmul 0x02 (u8 (t >>> 16)) ^^^ gmul 0x03 (u8 (t >>> 8)) ^^^ u8 t)
      (u8 (t >>> 24) ^^^ u8 (t >>> 16) ^^^ gmul 0x02 (u8 (t >>> 8)) ^^^ gmul 0x03 (u8 t))
      (gmul 0x03 (u8 (t >>> 24)) ^^^ u8 (t >>> 16) ^^^ u8 (t >>> 8) ^^^ gmul 0x02 (u8 t)) :=
  rfl

theorem invMixColumn_eq (t : Nat) :
    invMixColumn t = pack4
      (gmul 14 (u8 (t >>> 24)) ^^^ gmul 11 (u8 (t >>> 16)) ^^^ gmul 13 (u8 (t >>> 8)) ^^^ gmul 9 (u8 t))
      (gmul 9 (u8 (t >>> 24)) ^^^ gmul 14 (u8 (t >>> 16)) ^^^ gmul 11 (u8 (t >>> 8)) ^^^ gmul 13 (u8 t))
      (gmul 13 (u8 (t >>> 24)) ^^^ gmul 9 (u8 (t >>> 16)) ^^^ gmul 14 (u8 (t >>> 8)) ^^^ gmul 11 (u8 t))
      (gmul 11 (u8 (t >>> 24)) ^^^ gmul 13 (u8 (t >>> 16)) ^^^ gmul 9 (u8 (t >>> 8)) ^^^ gmul 14 (u8 t)) :=
  rfl

theorem mixColumn_lt (t : Nat) : mixColumn t < 4294967296 := by
  rw [mixColumn_eq]
  apply pack4_lt <;> apply xor4_lt <;> first | exact u8_lt _ | exact gmul_lt _ _ (by norm_num)

theorem invMixColumn_lt (t : Nat) : invMixColumn t < 4294967296 := by
  rw [invMixColumn_eq]
  apply pack4_lt <;> apply xor4_lt <;> exact gmul_lt _ _ (by norm_num)

/-- MixColumns is linear over XOR. -/
theorem mixColumn_xor (x y : Nat) : mixColumn (x ^^^ y) = mixColumn x ^^^ mixColumn y := by
  have hx (t : Nat) (a : Nat) (ha : a < 256) : gmul a (u8 t) < 256 := gmul_lt _ _ ha
  rw [mixColumn_eq, mixColumn_eq, mixColumn_eq, pack4_xor]
  · simp only [u8_xor_shr, u8_xor, gmul_xor, xor4_xor4]
  all_goals apply xor4_lt <;> first | exact u8_lt _ | exact gmul_lt _ _ (by norm_num)

/-- The inverse MixColumns is linear over XOR. -/
theorem invMixColumn_xor (x y : Nat) :
    invMixColumn (x ^^^ y) = invMixColumn x ^^^ invMixColumn y := by
  rw [invMixColumn_eq, invMixColumn_eq, invMixColumn_eq, pack4_xor]
  · simp only [u8_xor_shr, u8_xor, gmul_xor, xor4_xor4]
  all_goals apply xor4_lt <;> exact gmul_lt _ _ (by norm_num)

/-- An XOR-linear map that fixes every power of two below `2 ^ n` fixes every number
below `2 ^ n`. -/
theorem xor_linear_fix (f : Nat → Nat) (hlin : ∀ x y, f (x ^^^ y) = f x ^^^ f y) (n : Nat)
    (hbasis : ∀ i < n, f (2 ^ i) = 2 ^ i) : ∀ w < 2 ^ n, f w = w := by
  have h0 : f 0 = 0 := by
    have := hlin 0 0
    simp only [Nat.xor_self] at this
    exact this
  induction n with
  | zero =>
    intro w hw
    have : w = 0 := by simpa using hw
    rw [this, h0]
  | succ n ih =>
    intro w hw
    have hlo : w % 2 ^ n < 2 ^ n := Nat.mod_lt _ (Nat.two_pow_pos n)
    have hsplit : w = (w / 2 ^ n * 2 ^ n) ^^^ (w % 2 ^ n) := by
      have := xor_hi_lo (w / 2 ^ n) 0 0 (w % 2 ^ n) n (Nat.two_pow_pos n) hlo
      simp only [Nat.add_zero, Nat.zero_mul, Nat.zero_add, Nat.xor_zero, Nat.zero_xor] at this
      rw [this]
      have := Nat.div_add_mod w (2 ^ n)
      rw [Nat.mul_comm] at this
      exact this.symm
    have hhi : w / 2 ^ n < 2 := by
      rw [Nat.div_lt_iff_lt_mul (Nat.two_pow_pos n)]
      rw [Nat.pow_succ] at hw
      omega
    have hfhi : f (w / 2 ^ n * 2 ^ n) = w / 2 ^ n * 2 ^ n := by
      rcases Nat.lt_succ_iff_lt_or_eq.mp hhi with h | h
      · rw [Nat.lt_one_iff.mp h, Nat.zero_mul, h0]
      · rw [h, Nat.one_mul, hbasis n (Nat.lt_succ_self n)]
    conv => lhs; rw [hsplit]
    rw [hlin, hfhi, ih (fun i hi => hbasis i (Nat.lt_succ_of_lt hi)) _ hlo]
    exact hsplit.symm

theorem invMixColumn_mixColumn_basis :
    ∀ i < 32, invMixColumn (mixColumn (2 ^ i)) = 2 ^ i := by decide!

theorem mixColumn_invMixColumn_basis :
    ∀ i < 32, mixColumn (invMixColumn (2 ^ i)) = 2 ^ i := by decide!

/-- The inverse MixColumns undoes MixColumns on every `uint32`. -/
theorem invMixColumn_mixColumn (w : Nat) (hw : w < 4294967296) :
    invMixColumn (mixColumn w) = w :=
  xor_linear_fix (fun x => invMixColumn (mixColumn x))
    (fun x y => by simp only [mixColumn_xor, invMixColumn_xor]) 32
    invMixColumn_mixColumn_basis w hw

/-- MixColumns undoes the inverse MixColumns on every `uint32`. -/
theorem mixColumn_invMixColumn (w : Nat) (hw : w < 4294967296) :
    mixColumn (invMixColumn w) = w :=
  xor_linear_fix (fun x => mixColumn (invMixColumn x))
    (fun x y => by simp only [mixColumn_xor, invMixColumn_xor]) 32
    mixColumn_invMixColumn_basis w hw

end aes

/-! ## Slices and schedules -/

theorem idx_ok {α : Type} (xs : List α) (i : Nat) (d : α) (h : i < xs.length) :
    idx xs i = .ok (xs.getD i d) := by
  unfold idx
  rw [List.get?_eq_get h, List.getD_eq_getElem _ _ h]
  rfl

theorem upd_ok {α : Type} (xs : List α) (i : Nat) (v : α) (h : i < xs.length) :
    upd xs i v = .ok (xs.set i v) := by
  unfold upd
  rw [if_pos h]

theorem getD_set {α : Type} (xs : List α) (i i1 : Nat) (v d : α) :
    (xs.set i v).getD i1 d = if i1 = i ∧ i < xs.length then v else xs.getD i1 d := by
  by_cases h : i1 = i
  · subst h
    by_cases h2 : i1 < xs.length
    · rw [if_pos ⟨rfl, h2⟩, List.getD_eq_getElem _ _ (by rw [List.length_set]; exact h2),
        List.getElem_set_self]
    · rw [if_neg (fun hh => h2 hh.2), List.getD_eq_default _ _ (by rw [List.length_set]; omega),
        List.getD_eq_default _ _ (by omega)]
  · rw [if_neg (fun hh => h hh.1)]
    by_cases h2 : i1 < xs.length
    · rw [List.getD_eq_getElem _ _ (by rw [List.length_set]; exact h2),
        List.getElem_set_ne (Ne.symm h), List.getD_eq_getElem _ _ h2]
    · rw [List.getD_eq_default _ _ (by rw [List.length_set]; omega),
        List.getD_eq_default _ _ (by omega)]

theorem getD_replicate {α : Type} (n i : Nat) (a d : α) :
    (List.replicate n a).getD i d = if i < n then a else d := by
  by_cases h : i < n
  · rw [if_pos h, List.getD_eq_getElem _ _ (by rw [List.length_replicate]; exact h),
      List.getElem_replicate]
  · rw [if_neg h, List.getD_eq_default _ _ (by rw [List.length_replicate]; omega)]

namespace aes

theorem idx2_ok (l : Nat) (xk : List (List Nat)) (hs : IsSchedule l xk) (i j : Nat)
    (hi : i < l) (hj : j < 4) : idx2 xk i j = .ok (get2 xk i j) := by
  unfold idx2 get2
  rw [idx_ok xk i [] (by rw [hs.1]; exact hi)]
  show idx (xk.getD i []) j = _
  rw [idx_ok _ j 0 (by rw [hs.2 i hi]; exact hj)]

theorem upd2_ok (l : Nat) (xk : List (List Nat)) (hs : IsSchedule l xk) (i j v : Nat)
    (hi : i < l) (hj : j < 4) : upd2 xk i j v = .ok (set2 xk i j v) := by
  unfold upd2 set2
  rw [idx_ok xk i [] (by rw [hs.1]; exact hi)]
  show (do let row1 ← upd (xk.getD i []) j v; upd xk i row1) = _
  rw [upd_ok _ j v (by rw [hs.2 i hi]; exact hj)]
  show upd xk i _ = _
  rw [upd_ok _ i _ (by rw [hs.1]; exact hi)]

theorem isSchedule_set2 (l : Nat) (xk : List (List Nat)) (hs : IsSchedule l xk) (i j v : Nat) :
    IsSchedule l (set2 xk i j v) := by
  unfold set2
  refine ⟨by rw [List.length_set]; exact hs.1, ?_⟩
  intro i1 hi1
  rw [getD_set]
  split
  · next h => rw [List.length_set, ← h.1]; exact hs.2 i1 hi1
  · exact hs.2 i1 hi1

theorem get2_set2 (l : Nat) (xk : List (List Nat)) (hs : IsSchedule l xk) (i j v : Nat)
    (hi : i < l) (hj : j < 4) (i1 j1 : Nat) :
    get2 (set2 xk i j v) i1 j1 = if i1 = i ∧ j1 = j then v else get2 xk i1 j1 := by
  unfold get2 set2
  rw [getD_set]
  by_cases h : i1 = i
  · subst h
    rw [if_pos ⟨rfl, by rw [hs.1]; exact hi⟩, getD_set]
    by_cases h2 : j1 = j
    · rw [if_pos ⟨h2, by rw [hs.2 i1 hi]; exact hj⟩, if_pos ⟨rfl, h2⟩]
    · rw [if_neg (fun hh => h2 hh.1), if_neg (fun hh => h2 hh.2)]
  · rw [if_neg (fun hh => h hh.1), if_neg (fun hh => h hh.1)]

theorem isSchedule_zero (l : Nat) : IsSchedule l (zeroSchedule l) := by
  unfold zeroSchedule
  refine ⟨List.length_replicate _ _, ?_⟩
  intro i hi
  rw [getD_replicate, if_pos hi, List.length_replicate]

theorem get2_zero (l i j : Nat) : get2 (zeroSchedule l) i j = 0 := by
  unfold get2 zeroSchedule
  rw [getD_replicate]
  split
  · rw [getD_replicate]; split <;> rfl
  · rfl

end aes

/-! ## AES: the key schedule -/

theorem ok_bind {ε α β : Type} (a : α) (f : α → Except ε β) :
    (Except.ok a >>= f) = f a := rfl

theorem error_bind {ε α β : Type} (e : ε) (f : α → Except ε β) :
    ((Except.error e : Except ε α) >>= f) = Except.error e := rfl

theorem pure_eq_ok {ε α : Type} (a : α) : (pure a : Except ε α) = Except.ok a := rfl

theorem shl_lt (a k n : Nat) (h : a < 2 ^ n) : a <<< k < 2 ^ (n + k) := by
  rw [Nat.shiftLeft_eq, Nat.pow_add]
  exact Nat.mul_lt_mul_of_pos_right h (Nat.two_pow_pos k)

theorem beUint32_eq (a b c d : Nat) (rest : List Nat) :
    beUint32 (a :: b :: c :: d :: rest) = .ok (aes.pack4 a b c d) := by
  have h : d ||| c <<< 8 ||| b <<< 16 ||| a <<< 24 = a <<< 24 ||| b <<< 16 ||| c <<< 8 ||| d := by
    rw [Nat.or_comm (d ||| c <<< 8 ||| b <<< 16), Nat.or_comm (d ||| c <<< 8), Nat.or_comm d,
      ← Nat.or_assoc, ← Nat.or_assoc]
  show Except.ok _ = Except.ok _
  rw [h]; rfl

theorem beUint32_ok (b : List Nat) (h : 4 ≤ b.length) (hb : ∀ x ∈ b, x < 256) :
    ∃ v, beUint32 b = .ok v ∧ v < 4294967296 := by
  match b, h, hb with
  | a :: b :: c :: d :: rest, _, hb =>
    refine ⟨_, beUint32_eq a b c d rest, ?_⟩
    apply pack4_lt <;> apply hb <;> simp

namespace aes

theorem bounded_set2 (l : Nat) (xk : List (List Nat)) (hs : IsSchedule l xk) (hb : Bounded xk)
    (i j v : Nat) (hi : i < l) (hj : j < 4) (hv : v < 4294967296) :
    Bounded (set2 xk i j v) := by
  intro i1 j1
  rw [get2_set2 l xk hs i j v hi hj]
  split
  · exact hv
  · exact hb i1 j1

theorem bounded_zero (l : Nat) : Bounded (zeroSchedule l) := by
  intro i j
  rw [get2_zero]
  norm_num

theorem expandKeyCopy_ok (key : List Nat) (l : Nat) (hkb : ∀ x ∈ key, x < 256) (n i : Nat)
    (enc : List (List Nat)) (hs : IsSchedule l enc) (hb : Bounded enc)
    (hkey : 4 * (i + n) ≤ key.length) (hl : i + n ≤ 4 * l) :
    ∃ enc1, expandKeyCopy key n i enc = .ok enc1 ∧ IsSchedule l enc1 ∧ Bounded enc1 := by
  induction n generalizing i enc with
  | zero => exact ⟨enc, rfl, hs, hb⟩
  | succ n ih =>
    obtain ⟨v, hv, hvlt⟩ := beUint32_ok (key.drop (4 * i)) (by rw [List.length_drop]; omega)
      (fun x hx => hkb x (List.mem_of_mem_drop hx))
    have hi : i / 4 < l := by omega
    have hj : i % 4 < 4 := by omega
    obtain ⟨enc1, h1, hs1, hb1⟩ := ih (i + 1) (set2 enc (i / 4) (i % 4) v)
      (isSchedule_set2 l enc hs _ _ _) (bounded_set2 l enc hs hb _ _ _ hi hj hvlt)
      (by omega) (by omega)
    refine ⟨enc1, ?_, hs1, hb1⟩
    simp only [expandKeyCopy, hv, upd2_ok l enc hs _ _ v hi hj, ok_bind]
    exact h1

theorem rcon_lt (i : Nat) (h : i < 16) : rcon.getD i 0 < 256 := by
  revert i; decide

theorem subWord_lt (box : Nat → Nat) (hbox : ∀ i, box i < 256) (t : Nat) :
    subWord box t < 4294967296 := by
  rw [subWord_eq]
  apply pack4_lt <;> apply hbox

theorem xor_lt_u32 {a b : Nat} (ha : a < 4294967296) (hb : b < 4294967296) :
    a ^^^ b < 4294967296 :=
  @Nat.xor_lt_two_pow a b 32 ha hb

theorem or_lt_u32 {a b : Nat} (ha : a < 4294967296) (hb : b < 4294967296) :
    a ||| b < 4294967296 :=
  @Nat.or_lt_two_pow a b 32 ha hb

theorem expandKeyWords_ok (nk l : Nat) (hnk : 0 < nk) (hrc : 4 * l ≤ 17 * nk) (n i : Nat)
    (enc : List (List Nat)) (hs : IsSchedule l enc) (hb : Bounded enc)
    (hi : nk ≤ i) (hl : i + n ≤ 4 * l) :
    ∃ enc1, expandKeyWords nk n i enc = .ok enc1 ∧ IsSchedule l enc1 ∧ Bounded enc1 := by
  induction n generalizing i enc with
  | zero => exact ⟨enc, rfl, hs, hb⟩
  | succ n ih =>
    have hnk0 : nk ≠ 0 := by omega
    have hc : i / nk - 1 < 16 := by
      have : i / nk < 17 := by
        rw [Nat.div_lt_iff_lt_mul hnk]; omega
      omega
    let g := get2 enc ((i - 1) / 4) ((i - 1) % 4)
    have hg : g < 4294967296 := hb _ _
    let g1 := if i % nk = 0 then u32 (g <<< 8) ||| g >>> 24 else g
    have hg1 : g1 < 4294967296 := by
      show (if i % nk = 0 then u32 (g <<< 8) ||| g >>> 24 else g) < 4294967296
      split
      · apply or_lt_u32
        · exact Nat.mod_lt _ (by norm_num)
        · rw [Nat.shiftRight_eq_div_pow]; omega
      · exact hg
    let g2 := if i % nk = 0 ∨ (nk > 6 ∧ i % nk = 4) then subWord sBox g1 else g1
    have hg2 : g2 < 4294967296 := by
      show (if i % nk = 0 ∨ (nk > 6 ∧ i % nk = 4) then subWord sBox g1 else g1) < 4294967296
      split
      · exact subWord_lt _ sBox_lt _
      · exact hg1
    let g3 := if i % nk = 0 then g2 ^^^ rcon.getD (i / nk - 1) 0 <<< 24 else g2
    have hg3 : g3 < 4294967296 := by
      show (if i % nk = 0 then g2 ^^^ rcon.getD (i / nk - 1) 0 <<< 24 else g2) < 4294967296
      split
      · apply xor_lt_u32 hg2
        exact shl_lt _ 24 8 (rcon_lt _ hc)
      · exact hg2
    have hw : get2 enc ((i - nk) / 4) ((i - nk) % 4) < 4294967296 := hb _ _
    have hi4 : i / 4 < l := by omega
    have hj4 : i % 4 < 4 := by omega
    obtain ⟨enc1, h1, hs1, hb1⟩ := ih (i + 1)
      (set2 enc (i / 4) (i % 4) (get2 enc ((i - nk) / 4) ((i - nk) % 4) ^^^ g3))
      (isSchedule_set2 l enc hs _ _ _)
      (bounded_set2 l enc hs hb _ _ _ hi4 hj4 (xor_lt_u32 hw hg3)) (by omega) (by omega)
    refine ⟨enc1, ?_, hs1, hb1⟩
    rw [← h1]
    simp only [expandKeyWords]
    rw [idx2_ok l enc hs _ _ (by omega) (by omega)]
    simp only [hnk0, if_false, ok_bind]
    rw [idx2_ok l enc hs _ _ (by omega) (by omega)]
    by_cases hm : i % nk = 0
    · simp only [hm, if_true, true_or]
      rw [idx_ok rcon _ 0 (by simpa [rcon] using hc)]
      simp only [ok_bind, pure_eq_ok]
      rw [upd2_ok l enc hs _ _ _ hi4 hj4]
      simp only [g3, g2, g1, g, hm, if_true, true_or, ok_bind]
    · simp only [hm, if_false, false_or]
      simp only [ok_bind, pure_eq_ok]
      rw [upd2_ok l enc hs _ _ _ hi4 hj4]
      simp only [g3, g2, g1, g, hm, if_false, false_or, ok_bind]

end aes

namespace aes

theorem expandKeyDecRow_ok (enc : List (List Nat)) (n i : Nat) (hse : IsSchedule n enc)
    (hi : i < n) (m j : Nat) (dec : List (List Nat)) (hsd : IsSchedule n dec) (hj : j + m ≤ 4) :
    ∃ dec1, expandKeyDecRow enc n i m j dec = .ok dec1 ∧ IsSchedule n dec1 ∧
      ∀ i1 j1, get2 dec1 i1 j1
        = if i1 = i ∧ j ≤ j1 ∧ j1 < j + m then decWord enc n i j1 else get2 dec i1 j1 := by
  induction m generalizing j dec with
  | zero =>
    refine ⟨dec, rfl, hsd, ?_⟩
    intro i1 j1
    rw [if_neg (by omega)]
  | succ m ih =>
    obtain ⟨dec1, h1, hs1, hg1⟩ := ih (j + 1) (set2 dec i j (decWord enc n i j))
      (isSchedule_set2 n dec hsd _ _ _) (by omega)
    refine ⟨dec1, ?_, hs1, ?_⟩
    · rw [← h1]
      simp only [expandKeyDecRow]
      rw [idx2_ok n enc hse _ _ (by omega) (by omega)]
      simp only [ok_bind]
      rw [upd2_ok n dec hsd _ _ _ hi (by omega)]
      simp only [ok_bind, decWord]
    · intro i1 j1
      rw [hg1, get2_set2 n dec hsd i j _ hi (by omega)]
      by_cases h : i1 = i ∧ j + 1 ≤ j1 ∧ j1 < j + 1 + m
      · rw [if_pos h, if_pos (by omega)]
      · rw [if_neg h]
        by_cases h2 : i1 = i ∧ j1 = j
        · rw [if_pos h2, if_pos (by omega), h2.2]
        · rw [if_neg h2, if_neg (by omega)]

theorem expandKeyDec_ok (enc : List (List Nat)) (n : Nat) (hse : IsSchedule n enc)
    (m i : Nat) (dec : List (List Nat)) (hsd : IsSchedule n dec) (hi : i + m ≤ n) :
    ∃ dec1, expandKeyDec enc n m i dec = .ok dec1 ∧ IsSchedule n dec1 ∧
      ∀ i1 j1, get2 dec1 i1 j1
        = if i ≤ i1 ∧ i1 < i + m ∧ j1 < 4 then decWord enc n i1 j1 else get2 dec i1 j1 := by
  induction m generalizing i dec with
  | zero =>
    refine ⟨dec, rfl, hsd, ?_⟩
    intro i1 j1
    rw [if_neg (by omega)]
  | succ m ih =>
    obtain ⟨dec0, h0, hs0, hg0⟩ := expandKeyDecRow_ok enc n i hse (by omega) 4 0 dec hsd
      (by omega)
    obtain ⟨dec1, h1, hs1, hg1⟩ := ih (i + 1) dec0 hs0 (by omega)
    refine ⟨dec1, ?_, hs1, ?_⟩
    · rw [← h1]
      simp only [expandKeyDec]
      rw [h0]
      simp only [ok_bind]
    · intro i1 j1
      rw [hg1, hg0]
      by_cases h : i + 1 ≤ i1 ∧ i1 < i + 1 + m ∧ j1 < 4
      · rw [if_pos h, if_pos (by omega)]
      · rw [if_neg h]
        by_cases h2 : i1 = i ∧ 0 ≤ j1 ∧ j1 < 0 + 4
        · rw [if_pos h2, if_pos (by omega), h2.1]
        · rw [if_neg h2, if_neg (by omega)]

/-- For a key of 16, 24 or 32 bytes the constructor succeeds, and the two schedules it
builds fit together. -/
theorem NewCipher_ok (key : List Nat) (hlen : key.length = 16 ∨ key.length = 24 ∨ key.length = 32)
    (hkb : ∀ x ∈ key, x < 256) :
    ∃ c, NewCipher key = .ok c ∧ IsKeyPair (key.length / 4 + 7) c.enc c.dec := by
  have hl4 : 4 * (key.length / 4) ≤ key.length := by omega
  obtain ⟨enc1, h1, hs1, hb1⟩ := expandKeyCopy_ok key (key.length / 4 + 7) hkb (key.length / 4) 0
    (zeroSchedule _) (isSchedule_zero _) (bounded_zero _) (by omega) (by omega)
  obtain ⟨enc2, h2, hs2, hb2⟩ := expandKeyWords_ok (key.length / 4) (key.length / 4 + 7)
    (by omega) (by omega) ((key.length / 4 + 7) * 4 - key.length / 4) (key.length / 4) enc1 hs1 hb1
    (by omega) (by omega)
  obtain ⟨dec1, h3, hs3, hg3⟩ := expandKeyDec_ok enc2 (key.length / 4 + 7) hs2
    (key.length / 4 + 7) 0 (zeroSchedule _) (isSchedule_zero _) (by omega)
  refine ⟨⟨enc2, dec1⟩, ?_, by omega, hs2, hs3, hb2, ?_⟩
  · unfold NewCipher
    rw [if_pos hlen]
    unfold expandKey
    simp only [zeroSchedule] at h1 h3
    simp only [h1, ok_bind, hs1.1, h2, hs2.1, h3]
    rfl
  · intro i hi j hj
    rw [hg3, if_pos (by omega)]

end aes

/-! ## AES: decryption inverts encryption -/

namespace aes

theorem addRoundKey_ok (l : Nat) (xk : List (List Nat)) (hs : IsSchedule l xk) (i : Nat)
    (hi : i < l) (t : Words) : addRoundKey xk i t = .ok (t.xor (roundKey xk i)) := by
  unfold addRoundKey
  rw [idx2_ok l xk hs i 0 hi (by norm_num), idx2_ok l xk hs i 1 hi (by norm_num),
    idx2_ok l xk hs i 2 hi (by norm_num), idx2_ok l xk hs i 3 hi (by norm_num)]
  rfl

theorem valid_xor (a b : Words) (ha : a.Valid) (hb : b.Valid) : (a.xor b).Valid :=
  ⟨xor_lt_u32 ha.1 hb.1, xor_lt_u32 ha.2.1 hb.2.1, xor_lt_u32 ha.2.2.1 hb.2.2.1,
    xor_lt_u32 ha.2.2.2 hb.2.2.2⟩

theorem valid_roundKey (xk : List (List Nat)) (hb : Bounded xk) (i : Nat) :
    (roundKey xk i).Valid :=
  ⟨hb _ _, hb _ _, hb _ _, hb _ _⟩

theorem valid_map (f : Nat → Nat) (hf : ∀ x, f x < 4294967296) (t : Words) : (t.map f).Valid :=
  ⟨hf _, hf _, hf _, hf _⟩

theorem valid_shiftRows (box : Nat → Nat) (hbox : ∀ i, box i < 256) (t : Words) :
    (shiftRows (t.map (subWord box))).Valid := by
  rw [shiftRows_subWord box hbox]
  exact ⟨pack4_lt _ _ _ _ (hbox _) (hbox _) (hbox _) (hbox _),
    pack4_lt _ _ _ _ (hbox _) (hbox _) (hbox _) (hbox _),
    pack4_lt _ _ _ _ (hbox _) (hbox _) (hbox _) (hbox _),
    pack4_lt _ _ _ _ (hbox _) (hbox _) (hbox _) (hbox _)⟩

theorem valid_invShiftRows (box : Nat → Nat) (hbox : ∀ i, box i < 256) (t : Words) :
    (invShiftRows (t.map (subWord box))).Valid := by
  rw [invShiftRows_subWord box hbox]
  exact ⟨pack4_lt _ _ _ _ (hbox _) (hbox _) (hbox _) (hbox _),
    pack4_lt _ _ _ _ (hbox _) (hbox _) (hbox _) (hbox _),
    pack4_lt _ _ _ _ (hbox _) (hbox _) (hbox _) (hbox _),
    pack4_lt _ _ _ _ (hbox _) (hbox _) (hbox _) (hbox _)⟩

theorem xor_xor_cancel (a k : Words) : (a.xor k).xor k = a := by
  cases a; cases k
  simp only [Words.xor, Nat.xor_assoc, Nat.xor_self, Nat.xor_zero]

theorem map_invMixColumn_xor (a b : Words) :
    (a.xor b).map invMixColumn = (a.map invMixColumn).xor (b.map invMixColumn) := by
  simp only [Words.xor, Words.map, invMixColumn_xor]

theorem map_mixColumn_xor (a b : Words) :
    (a.xor b).map mixColumn = (a.map mixColumn).xor (b.map mixColumn) := by
  simp only [Words.xor, Words.map, mixColumn_xor]

theorem map_invMixColumn_mixColumn (t : Words) (ht : t.Valid) :
    (t.map mixColumn).map invMixColumn = t := by
  cases t
  simp only [Words.map, invMixColumn_mixColumn _ ht.1, invMixColumn_mixColumn _ ht.2.1,
    invMixColumn_mixColumn _ ht.2.2.1, invMixColumn_mixColumn _ ht.2.2.2]

theorem map_mixColumn_invMixColumn (t : Words) (ht : t.Valid) :
    (t.map invMixColumn).map mixColumn = t := by
  cases t
  simp only [Words.map, mixColumn_invMixColumn _ ht.1, mixColumn_invMixColumn _ ht.2.1,
    mixColumn_invMixColumn _ ht.2.2.1, mixColumn_invMixColumn _ ht.2.2.2]

/-- One inverse round, run on the state before the next SubBytes and ShiftRows, undoes
one forward round. -/
theorem decRound_encRound (t k : Words) (hk : k.Valid) :
    ((invShiftRows ((shiftRows ((((shiftRows (t.map (subWord sBox))).map mixColumn).xor k).map
        (subWord sBox))).map (subWord inverseSBox))).map invMixColumn).xor (k.map invMixColumn)
      = shiftRows (t.map (subWord sBox)) := by
  have hv : (((shiftRows (t.map (subWord sBox))).map mixColumn).xor k).Valid :=
    valid_xor _ _ (valid_map _ mixColumn_lt _) hk
  rw [invShiftRows_shiftRows _ hv, ← map_invMixColumn_xor, xor_xor_cancel,
    map_invMixColumn_mixColumn _ (valid_shiftRows _ sBox_lt _)]

/-- One forward round, run on the state before the next inverse SubBytes and ShiftRows,
undoes one inverse round. -/
theorem encRound_decRound (u k : Words) (hk : k.Valid) :
    ((shiftRows ((invShiftRows ((((invShiftRows (u.map (subWord inverseSBox))).map
        invMixColumn).xor (k.map invMixColumn)).map (subWord inverseSBox))).map
        (subWord sBox))).map mixColumn).xor k
      = invShiftRows (u.map (subWord inverseSBox)) := by
  have hv : (((invShiftRows (u.map (subWord inverseSBox))).map invMixColumn).xor
      (k.map invMixColumn)).Valid :=
    valid_xor _ _ (valid_map _ invMixColumn_lt _) (valid_map _ invMixColumn_lt _)
  rw [shiftRows_invShiftRows _ hv, map_mixColumn_xor,
    map_mixColumn_invMixColumn _ (valid_invShiftRows _ inverseSBox_lt _),
    map_mixColumn_invMixColumn _ hk, xor_xor_cancel]

theorem encryptLoop_add (xk : List (List Nat)) (n m i : Nat) (t : Words) :
    encryptLoop xk (n + m) i t = encryptLoop xk n i t >>= encryptLoop xk m (i + n) := by
  induction n generalizing i t with
  | zero => simp only [Nat.zero_add, encryptLoop, Nat.add_zero]; rfl
  | succ n ih =>
    rw [Nat.succ_add]
    simp only [encryptLoop]
    cases h : addRoundKey xk i ((shiftRows (t.map (subWord sBox))).map mixColumn) with
    | error e => rfl
    | ok t1 =>
      simp only [ok_bind]
      rw [ih, Nat.add_assoc, Nat.add_comm 1 n]

theorem decryptLoop_add (xk : List (List Nat)) (n m i : Nat) (t : Words) :
    decryptLoop xk (n + m) i t = decryptLoop xk n i t >>= decryptLoop xk m (i + n) := by
  induction n generalizing i t with
  | zero => simp only [Nat.zero_add, decryptLoop, Nat.add_zero]; rfl
  | succ n ih =>
    rw [Nat.succ_add]
    simp only [decryptLoop]
    cases h : addRoundKey xk i
      ((invShiftRows (t.map (subWord inverseSBox))).map invMixColumn) with
    | error e => rfl
    | ok t1 =>
      simp only [ok_bind]
      rw [ih, Nat.add_assoc, Nat.add_comm 1 n]

theorem roundKey_dec (l : Nat) (enc dec : List (List Nat)) (hk : IsKeyPair l enc dec) (i : Nat)
    (h0 : 0 < i) (h1 : i < l - 1) :
    roundKey dec i = (roundKey enc (l - 1 - i)).map invMixColumn := by
  obtain ⟨_, _, _, _, hd⟩ := hk
  have hi : i < l := by omega
  have hw : ∀ j, decWord enc l i j = invMixColumn (get2 enc (l - 1 - i) j) := by
    intro j
    unfold decWord
    rw [if_pos ⟨h0, h1⟩, show l - i - 1 = l - 1 - i by omega]
  simp only [roundKey, Words.map, hd i hi 0 (by norm_num), hd i hi 1 (by norm_num),
    hd i hi 2 (by norm_num), hd i hi 3 (by norm_num), hw]

theorem roundKey_dec_zero (l : Nat) (enc dec : List (List Nat)) (hk : IsKeyPair l enc dec) :
    roundKey dec 0 = roundKey enc (l - 1) := by
  obtain ⟨h3, _, _, _, hd⟩ := hk
  have hw : ∀ j, decWord enc l 0 j = get2 enc (l - 1) j := by
    intro j
    unfold decWord
    rw [if_neg (by omega)]
    rfl
  simp only [roundKey, hd 0 (by omega) 0 (by norm_num), hd 0 (by omega) 1 (by norm_num),
    hd 0 (by omega) 2 (by norm_num), hd 0 (by omega) 3 (by norm_num), hw]

theorem roundKey_dec_last (l : Nat) (enc dec : List (List Nat)) (hk : IsKeyPair l enc dec) :
    roundKey dec (l - 1) = roundKey enc 0 := by
  obtain ⟨h3, _, _, _, hd⟩ := hk
  have hw : ∀ j, decWord enc l (l - 1) j = get2 enc 0 j := by
    intro j
    unfold decWord
    rw [if_neg (by omega), show l - (l - 1) - 1 = 0 by omega]
  simp only [roundKey, hd (l - 1) (by omega) 0 (by norm_num),
    hd (l - 1) (by omega) 1 (by norm_num), hd (l - 1) (by omega) 2 (by norm_num),
    hd (l - 1) (by omega) 3 (by norm_num), hw]

/-- Running the inverse rounds that mirror `n` forward rounds leads back to the state
the forward rounds started from. -/
theorem decryptLoop_encryptLoop (l : Nat) (enc dec : List (List Nat))
    (hk : IsKeyPair l enc dec) (n i : Nat) (t : Words) (hi : 1 ≤ i) (hn : i + n ≤ l - 1) :
    ∃ t1, encryptLoop enc n i t = .ok t1 ∧
      decryptLoop dec n (l - i - n) (shiftRows (t1.map (subWord sBox)))
        = .ok (shiftRows (t.map (subWord sBox))) := by
  induction n generalizing i t with
  | zero => exact ⟨t, rfl, rfl⟩
  | succ n ih =>
    have hse := hk.2.1
    have hsd := hk.2.2.1
    have hb := hk.2.2.2.1
    obtain ⟨t1, h1, h2⟩ := ih (i + 1)
      (((shiftRows (t.map (subWord sBox))).map mixColumn).xor (roundKey enc i)) (by omega)
      (by omega)
    refine ⟨t1, ?_, ?_⟩
    · simp only [encryptLoop]
      rw [addRoundKey_ok l enc hse i (by omega)]
      exact h1
    · rw [decryptLoop_add dec n 1, show l - i - (n + 1) = l - (i + 1) - n by omega, h2]
      simp only [ok_bind, decryptLoop]
      rw [addRoundKey_ok l dec hsd _ (by omega),
        roundKey_dec l enc dec hk _ (by omega) (by omega),
        show l - 1 - (l - (i + 1) - n + n) = i by omega,
        decRound_encRound _ _ (valid_roundKey enc hb i)]
      rfl

/-- Running the forward rounds that mirror `n` inverse rounds leads back to the state
the inverse rounds started from. -/
theorem encryptLoop_decryptLoop (l : Nat) (enc dec : List (List Nat))
    (hk : IsKeyPair l enc dec) (n i : Nat) (u : Words) (hi : 1 ≤ i) (hn : i + n ≤ l - 1) :
    ∃ u1, decryptLoop dec n i u = .ok u1 ∧
      encryptLoop enc n (l - i - n) (invShiftRows (u1.map (subWord inverseSBox)))
        = .ok (invShiftRows (u.map (subWord inverseSBox))) := by
  induction n generalizing i u with
  | zero => exact ⟨u, rfl, rfl⟩
  | succ n ih =>
    have hse := hk.2.1
    have hsd := hk.2.2.1
    have hb := hk.2.2.2.1
    obtain ⟨u1, h1, h2⟩ := ih (i + 1)
      (((invShiftRows (u.map (subWord inverseSBox))).map invMixColumn).xor (roundKey dec i))
      (by omega) (by omega)
    refine ⟨u1, ?_, ?_⟩
    · simp only [decryptLoop]
      rw [addRoundKey_ok l dec hsd i (by omega)]
      exact h1
    · rw [encryptLoop_add enc n 1, show l - i - (n + 1) = l - (i + 1) - n by omega, h2]
      simp only [ok_bind, encryptLoop]
      rw [addRoundKey_ok l enc hse _ (by omega),
        roundKey_dec l enc dec hk i (by omega) (by omega),
        show l - (i + 1) - n + n = l - 1 - i by omega,
        encRound_decRound _ _ (valid_roundKey enc hb _)]
      rfl

end aes

namespace aes

/-- On the schedules of a cipher, decrypting the encryption of four words gives the
words back. -/
theorem decryptBlock_encryptBlock (l : Nat) (enc dec : List (List Nat))
    (hk : IsKeyPair l enc dec) (b : Words) (hb : b.Valid) :
    ∃ c : Words, c.Valid ∧ encryptBlock enc [b.t0, b.t1, b.t2, b.t3] = .ok [c.t0, c.t1, c.t2, c.t3]
      ∧ decryptBlock dec [c.t0, c.t1, c.t2, c.t3] = .ok [b.t0, b.t1, b.t2, b.t3] := by
  have h3 := hk.1
  have hse := hk.2.1
  have hsd := hk.2.2.1
  have hbd := hk.2.2.2.1
  obtain ⟨t1, h1, h2⟩ := decryptLoop_encryptLoop l enc dec hk (l - 2) 1
    (b.xor (roundKey enc 0)) (by omega) (by omega)
  have hv0 : (b.xor (roundKey enc 0)).Valid := valid_xor _ _ hb (valid_roundKey enc hbd 0)
  refine ⟨(shiftRows (t1.map (subWord sBox))).xor (roundKey enc (l - 1)),
    valid_xor _ _ (valid_shiftRows _ sBox_lt _) (valid_roundKey enc hbd _), ?_, ?_⟩
  · unfold encryptBlock
    have hload : loadWords [b.t0, b.t1, b.t2, b.t3] = .ok b := rfl
    simp only [hload, ok_bind, hse.1]
    rw [addRoundKey_ok l enc hse 0 (by omega)]
    simp only [ok_bind, h1]
    rw [addRoundKey_ok l enc hse (l - 1) (by omega)]
    rfl
  · unfold decryptBlock
    have hload (c : Words) : loadWords [c.t0, c.t1, c.t2, c.t3] = .ok c := rfl
    simp only [hload, ok_bind, hsd.1]
    rw [addRoundKey_ok l dec hsd 0 (by omega), roundKey_dec_zero l enc dec hk, xor_xor_cancel]
    simp only [ok_bind]
    rw [show l - 1 - (l - 2) = 1 by omega] at h2
    rw [h2]
    simp only [ok_bind]
    rw [addRoundKey_ok l dec hsd (l - 1) (by omega), roundKey_dec_last l enc dec hk,
      invShiftRows_shiftRows _ hv0, xor_xor_cancel]
    rfl

/-- On the schedules of a cipher, encrypting the decryption of four words gives the
words back. -/
theorem encryptBlock_decryptBlock (l : Nat) (enc dec : List (List Nat))
    (hk : IsKeyPair l enc dec) (b : Words) (hb : b.Valid) :
    ∃ c : Words, c.Valid ∧ decryptBlock dec [b.t0, b.t1, b.t2, b.t3] = .ok [c.t0, c.t1, c.t2, c.t3]
      ∧ encryptBlock enc [c.t0, c.t1, c.t2, c.t3] = .ok [b.t0, b.t1, b.t2, b.t3] := by
  have h3 := hk.1
  have hse := hk.2.1
  have hsd := hk.2.2.1
  have hbd := hk.2.2.2.1
  obtain ⟨u1, h1, h2⟩ := encryptLoop_decryptLoop l enc dec hk (l - 2) 1
    (b.xor (roundKey dec 0)) (by omega) (by omega)
  have hvd0 : (roundKey dec 0).Valid := by
    rw [roundKey_dec_zero l enc dec hk]; exact valid_roundKey enc hbd _
  have hvdl : (roundKey dec (l - 1)).Valid := by
    rw [roundKey_dec_last l enc dec hk]; exact valid_roundKey enc hbd _
  have hv0 : (b.xor (roundKey dec 0)).Valid := valid_xor _ _ hb hvd0
  refine ⟨(invShiftRows (u1.map (subWord inverseSBox))).xor (roundKey dec (l - 1)),
    valid_xor _ _ (valid_invShiftRows _ inverseSBox_lt _) hvdl, ?_, ?_⟩
  · unfold decryptBlock
    have hload : loadWords [b.t0, b.t1, b.t2, b.t3] = .ok b := rfl
    simp only [hload, ok_bind, hsd.1]
    rw [addRoundKey_ok l dec hsd 0 (by omega)]
    simp only [ok_bind, h1]
    rw [addRoundKey_ok l dec hsd (l - 1) (by omega)]
    rfl
  · unfold encryptBlock
    have hload (c : Words) : loadWords [c.t0, c.t1, c.t2, c.t3] = .ok c := rfl
    simp only [hload, ok_bind, hse.1]
    rw [addRoundKey_ok l enc hse 0 (by omega), roundKey_dec_last l enc dec hk, xor_xor_cancel]
    simp only [ok_bind]
    rw [show l - 1 - (l - 2) = 1 by omega] at h2
    rw [h2]
    simp only [ok_bind]
    rw [addRoundKey_ok l enc hse (l - 1) (by omega), ← roundKey_dec_zero l enc dec hk,
      shiftRows_invShiftRows _ hv0, xor_xor_cancel]
    rfl

end aes

theorem bePutUint32_pack4 (a b c d : Nat) (ha : a < 256) (hb : b < 256) (hc : c < 256)
    (hd : d < 256) : bePutUint32 (aes.pack4 a b c d) = [a, b, c, d] := by
  unfold bePutUint32 u8
  rw [pack4_byte3 a b c d hb hc hd, pack4_byte2 a b c d hb hc hd, pack4_byte1 a b c d hb hc hd,
    pack4_byte0 a b c d hb hc hd, Nat.mod_eq_of_lt ha]

theorem beUint32_bePutUint32 (w : Nat) (hw : w < 4294967296) (rest : List Nat) :
    beUint32 (bePutUint32 w ++ rest) = .ok w := by
  unfold bePutUint32
  show beUint32 (u8 (w >>> 24) :: u8 (w >>> 16) :: u8 (w >>> 8) :: u8 w :: rest) = _
  rw [beUint32_eq]
  unfold u8
  rw [Nat.mod_eq_of_lt (aes.shr24_lt hw), pack4_bytes]

theorem list_length_16 (p : List Nat) (hp : p.length = 16) :
    ∃ a0 a1 a2 a3 a4 a5 a6 a7 a8 a9 a10 a11 a12 a13 a14 a15,
      p = [a0, a1, a2, a3, a4, a5, a6, a7, a8, a9, a10, a11, a12, a13, a14, a15] := by
  match p, hp with
  | [a0, a1, a2, a3, a4, a5, a6, a7, a8, a9, a10, a11, a12, a13, a14, a15], _ =>
    exact ⟨a0, a1, a2, a3, a4, a5, a6, a7, a8, a9, a10, a11, a12, a13, a14, a15, rfl⟩

namespace aes

theorem loadBlock_bytes (a0 a1 a2 a3 a4 a5 a6 a7 a8 a9 a10 a11 a12 a13 a14 a15 : Nat)
    (rest : List Nat) :
    loadBlock (a0 :: a1 :: a2 :: a3 :: a4 :: a5 :: a6 :: a7 :: a8 :: a9 :: a10 :: a11 :: a12 ::
        a13 :: a14 :: a15 :: rest)
      = .ok [pack4 a0 a1 a2 a3, pack4 a4 a5 a6 a7, pack4 a8 a9 a10 a11, pack4 a12 a13 a14 a15] := by
  simp only [loadBlock, List.take_succ_cons, List.take_zero, List.drop_succ_cons, List.drop_zero,
    beUint32_eq, ok_bind, pure_eq_ok]

theorem loadBlock_storeBlock (c : Words) (hc : c.Valid) (dst : List Nat) :
    loadBlock (bePutUint32 c.t0 ++ bePutUint32 c.t1 ++ bePutUint32 c.t2 ++ bePutUint32 c.t3
      ++ dst) = .ok [c.t0, c.t1, c.t2, c.t3] := by
  have := loadBlock_bytes (u8 (c.t0 >>> 24)) (u8 (c.t0 >>> 16)) (u8 (c.t0 >>> 8)) (u8 c.t0)
    (u8 (c.t1 >>> 24)) (u8 (c.t1 >>> 16)) (u8 (c.t1 >>> 8)) (u8 c.t1)
    (u8 (c.t2 >>> 24)) (u8 (c.t2 >>> 16)) (u8 (c.t2 >>> 8)) (u8 c.t2)
    (u8 (c.t3 >>> 24)) (u8 (c.t3 >>> 16)) (u8 (c.t3 >>> 8)) (u8 c.t3) dst
  have e (w : Nat) (hw : w < 4294967296) :
      pack4 (u8 (w >>> 24)) (u8 (w >>> 16)) (u8 (w >>> 8)) (u8 w) = w := by
    unfold u8
    rw [Nat.mod_eq_of_lt (shr24_lt hw), pack4_bytes]
  rw [e _ hc.1, e _ hc.2.1, e _ hc.2.2.1, e _ hc.2.2.2] at this
  exact this

theorem storeBlock_eq (dst : List Nat) (c0 c1 c2 c3 : Nat) :
    storeBlock dst [c0, c1, c2, c3]
      = .ok (bePutUint32 c0 ++ bePutUint32 c1 ++ bePutUint32 c2 ++ bePutUint32 c3
        ++ dst.drop 16) := rfl

/-- Byte-level form of the round trip: what `Decrypt` reads back from the output of
`Encrypt`, and conversely. -/
theorem crypt_roundtrip (f g : List Nat → Except Fault (List Nat))
    (hfg : ∀ b : Words, b.Valid → ∃ c : Words, c.Valid ∧
      f [b.t0, b.t1, b.t2, b.t3] = .ok [c.t0, c.t1, c.t2, c.t3] ∧
      g [c.t0, c.t1, c.t2, c.t3] = .ok [b.t0, b.t1, b.t2, b.t3])
    (p dst1 dst2 : List Nat) (hp : p.length = 16) (hpb : ∀ x ∈ p, x < 256)
    (hd1 : 16 ≤ dst1.length) (hd2 : 16 ≤ dst2.length) :
    ∃ ct, (if dst1.length ≤ 15 ∨ p.length ≤ 15 then throw Fault.panic
        else do let b ← loadBlock p; let b1 ← f b; storeBlock dst1 b1) = .ok ct ∧
      (if dst2.length ≤ 15 ∨ ct.length ≤ 15 then throw Fault.panic
        else do let b ← loadBlock ct; let b1 ← g b; storeBlock dst2 b1)
        = .ok (p ++ dst2.drop 16) := by
  obtain ⟨a0, a1, a2, a3, a4, a5, a6, a7, a8, a9, a10, a11, a12, a13, a14, a15, rfl⟩ :=
    list_length_16 p hp
  have hb : ∀ x ∈ [a0, a1, a2, a3, a4, a5, a6, a7, a8, a9, a10, a11, a12, a13, a14, a15],
      x < 256 := hpb
  simp only [List.mem_cons, List.mem_singleton, forall_eq_or_imp, forall_eq, List.not_mem_nil,
    false_implies, implies_true, and_true] at hb
  obtain ⟨h0, h1, h2, h3, h4, h5, h6, h7, h8, h9, h10, h11, h12, h13, h14, h15⟩ := hb
  have hv : (⟨pack4 a0 a1 a2 a3, pack4 a4 a5 a6 a7, pack4 a8 a9 a10 a11,
      pack4 a12 a13 a14 a15⟩ : Words).Valid :=
    ⟨pack4_lt _ _ _ _ h0 h1 h2 h3, pack4_lt _ _ _ _ h4 h5 h6 h7,
      pack4_lt _ _ _ _ h8 h9 h10 h11, pack4_lt _ _ _ _ h12 h13 h14 h15⟩
  obtain ⟨c, hc, hf, hg⟩ := hfg _ hv
  refine ⟨bePutUint32 c.t0 ++ bePutUint32 c.t1 ++ bePutUint32 c.t2 ++ bePutUint32 c.t3
    ++ dst1.drop 16, ?_, ?_⟩
  · rw [if_neg (by simp only [List.length_cons, List.length_nil]; omega), loadBlock_bytes]
    simp only [ok_bind, hf, storeBlock_eq]
  · rw [if_neg (by
      simp only [List.length_append, bePutUint32, List.length_cons, List.length_nil]; omega),
      loadBlock_storeBlock c hc]
    simp only [ok_bind, hg, storeBlock_eq]
    rw [bePutUint32_pack4 _ _ _ _ h0 h1 h2 h3, bePutUint32_pack4 _ _ _ _ h4 h5 h6 h7,
      bePutUint32_pack4 _ _ _ _ h8 h9 h10 h11, bePutUint32_pack4 _ _ _ _ h12 h13 h14 h15]
    simp only [List.cons_append, List.nil_append]

end aes

namespace aes

/-- For a row of `aesCipherTests`, the decryption test follows from the encryption test:
`Decrypt` undoes `Encrypt`. -/
theorem runDecryptTest_of_runEncryptTest (tt : List Nat × List Nat × List Nat)
    (hlen : tt.1.length = 16 ∨ tt.1.length = 24 ∨ tt.1.length = 32)
    (hkb : ∀ x ∈ tt.1, x < 256) (hp : tt.2.1.length = 16) (hpb : ∀ x ∈ tt.2.1, x < 256)
    (hc : tt.2.2.length = 16) (henc : runEncryptTest tt = .ok tt.2.2) :
    runEncryptTest tt = .ok tt.2.2 ∧ runDecryptTest tt = .ok tt.2.1 := by
  refine ⟨henc, ?_⟩
  obtain ⟨c, hnew, hk⟩ := NewCipher_ok tt.1 hlen hkb
  obtain ⟨ct, h1, h2⟩ := crypt_roundtrip (encryptBlock c.enc) (decryptBlock c.dec)
    (decryptBlock_encryptBlock _ c.enc c.dec hk) tt.2.1 (List.replicate tt.2.2.length 0)
    (List.replicate tt.2.1.length 0) hp hpb (by rw [List.length_replicate, hc])
    (by rw [List.length_replicate, hp])
  have hct : ct = tt.2.2 := by
    unfold runEncryptTest at henc
    rw [hnew] at henc
    have h3 : c.Encrypt (List.replicate tt.2.2.length 0) tt.2.1 = .ok ct := h1
    rw [ok_bind, h3] at henc
    exact Except.ok.inj henc
  subst hct
  unfold runDecryptTest
  rw [hnew, ok_bind]
  have h4 : c.Decrypt (List.replicate tt.2.1.length 0) tt.2.2
      = .ok (tt.2.1 ++ (List.replicate tt.2.1.length 0).drop 16) := h2
  rw [h4, hp]
  simp

theorem runEncryptTest_vecB : runEncryptTest vecB = .ok vecB.2.2 := by decide!

theorem runEncryptTest_vecC1 : runEncryptTest vecC1 = .ok vecC1.2.2 := by decide!

theorem runEncryptTest_vecC2 : runEncryptTest vecC2 = .ok vecC2.2.2 := by decide!

theorem runEncryptTest_vecC3 : runEncryptTest vecC3 = .ok vecC3.2.2 := by decide!

end aes

/-! ## DES: the bit permutations -/

theorem two_pow_and (m b : Nat) : 2 ^ m &&& b = if b.testBit m then 2 ^ m else 0 := by
  apply Nat.eq_of_testBit_eq
  intro i
  rw [Nat.testBit_and, Nat.testBit_two_pow]
  by_cases h : m = i
  · subst h
    by_cases hb : b.testBit m
    · simp [hb, Nat.testBit_two_pow_self]
    · simp [hb]
  · by_cases hb : b.testBit m
    · simp [h, hb, Nat.testBit_two_pow_of_ne h]
    · simp [h, hb]

theorem two_pow_and_ne_zero (m b : Nat) : (2 ^ m &&& b ≠ 0) ↔ b.testBit m = true := by
  rw [two_pow_and]
  by_cases hb : b.testBit m
  · simp [hb, Nat.two_pow_pos]
  · simp [hb]

namespace des

theorem permuteLoop_testBit (b L l : Nat) (hl : l ≤ 255) (i : Nat) (rest : List Nat) (t : Nat)
    (hL : i + rest.length = L) (hv : ValidTable rest l) (k : Nat) :
    (permuteLoop b (2 ^ (L - 1)) (2 ^ (l - 1)) i rest t).testBit k
      = (t.testBit k || (decide (k < L - i) && b.testBit (l - rest.getD (L - 1 - k - i) 0))) := by
  induction rest generalizing i t with
  | nil =>
    simp only [permuteLoop]
    have : ¬ k < L - i := by simp at hL; omega
    simp [this]
  | cons n rest ih =>
    have hn := hv n (List.mem_cons_self _ _)
    have hlen : i + 1 + rest.length = L := by simp at hL; omega
    simp only [permuteLoop]
    rw [ih (i + 1) _ hlen (fun m hm => hv m (List.mem_cons_of_mem _ hm))]
    have hu8 : u8 (n + 255) = n - 1 := by unfold u8; omega
    have hshift : 2 ^ (l - 1) >>> (n - 1) = 2 ^ (l - n) := by
      rw [Nat.shiftRight_eq_div_pow, Nat.pow_div (by omega) (by norm_num)]
      congr 1; omega
    have hui : 2 ^ (L - 1) >>> i = 2 ^ (L - 1 - i) := by
      rw [Nat.shiftRight_eq_div_pow, Nat.pow_div (by omega) (by norm_num)]
    rw [hu8, hshift, hui]
    by_cases hk : k = L - 1 - i
    · have h1 : ¬ k < L - (i + 1) := by omega
      have h2 : k < L - i := by omega
      have h3 : L - 1 - k - i = 0 := by omega
      simp only [h1, h2, h3, decide_False, decide_True, Bool.false_and, Bool.true_and,
        Bool.or_false, List.getD_cons_zero]
      by_cases hb : b.testBit (l - n) = true
      · rw [if_pos ((two_pow_and_ne_zero _ _).mpr hb), Nat.testBit_or, hk,
          Nat.testBit_two_pow_self, hb]
      · rw [if_neg (fun h => hb ((two_pow_and_ne_zero _ _).mp h))]
        simp [hb]
    · have hbit : (2 ^ (L - 1 - i)).testBit k = false := Nat.testBit_two_pow_of_ne (Ne.symm hk)
      have ht : (if 2 ^ (l - n) &&& b ≠ 0 then t ||| 2 ^ (L - 1 - i) else t).testBit k
          = t.testBit k := by
        split
        · rw [Nat.testBit_or, hbit, Bool.or_false]
        · rfl
      rw [ht]
      by_cases hk2 : k < L - 1 - i
      · have h1 : k < L - (i + 1) := by omega
        have h2 : k < L - i := by omega
        have h3 : L - 1 - k - i = (L - 1 - k - (i + 1)) + 1 := by omega
        simp only [h1, h2, decide_True, Bool.true_and]
        rw [h3, List.getD_cons_succ]
      · have h1 : ¬ k < L - (i + 1) := by omega
        have h2 : ¬ k < L - i := by omega
        simp only [h1, h2, decide_False, Bool.false_and]

theorem permute_consts (p : List Nat) (l : Nat) (hp : p.length ≤ 64) (hl1 : 1 ≤ l)
    (hl : l ≤ 64) :
    u64 (1 <<< (p.length - 1)) = 2 ^ (p.length - 1) ∧ u64 (1 <<< u8 (l + 255)) = 2 ^ (l - 1) := by
  have hu8 : u8 (l + 255) = l - 1 := by unfold u8; omega
  rw [hu8]
  unfold u64
  simp only [Nat.shiftLeft_eq, Nat.one_mul]
  have e : (18446744073709551616 : Nat) = 2 ^ 64 := by norm_num
  rw [e]
  constructor
  · exact Nat.mod_eq_of_lt (Nat.pow_lt_pow_right (by norm_num) (by omega))
  · exact Nat.mod_eq_of_lt (Nat.pow_lt_pow_right (by norm_num) (by omega))

/-- Bit `k` of `permute(b, p, l)`, counted from the least significant bit: the output has
`len(p)` bits, and its bit number `i + 1` from the top is bit number `p[i]` from the top
of the `l`-bit input. -/
theorem permute_testBit (b : Nat) (p : List Nat) (l : Nat) (hp : p.length ≤ 64) (hl1 : 1 ≤ l)
    (hl : l ≤ 64) (hv : ValidTable p l) (k : Nat) :
    (permute b p l).testBit k
      = (decide (k < p.length) && b.testBit (l - p.getD (p.length - 1 - k) 0)) := by
  unfold permute
  obtain ⟨hu, hv2⟩ := permute_consts p l hp hl1 hl
  simp only [hu, hv2]
  rw [permuteLoop_testBit b p.length l (by omega) 0 p 0 (by omega) hv k]
  simp

theorem permute_lt (b : Nat) (p : List Nat) (l : Nat) (hp : p.length ≤ 64) (hl1 : 1 ≤ l)
    (hl : l ≤ 64) (hv : ValidTable p l) : permute b p l < 2 ^ p.length := by
  apply Nat.lt_pow_two_of_testBit
  intro i hi
  rw [permute_testBit b p l hp hl1 hl hv]
  have : ¬ i < p.length := by omega
  simp [this]

end des

/-! ## DES: decryption inverts encryption -/

namespace des

theorem validTable_initialPermutation : ValidTable initialPermutation 64 := by
  unfold ValidTable; decide

theorem validTable_finalPermutation : ValidTable finalPermutation 64 := by
  unfold ValidTable; decide

theorem final_initial_index :
    ∀ k < 64, initialPermutation.getD (64 - 1 - (64 - finalPermutation.getD (64 - 1 - k) 0)) 0
      = 64 - k := by
  decide

theorem initial_final_index :
    ∀ k < 64, finalPermutation.getD (64 - 1 - (64 - initialPermutation.getD (64 - 1 - k) 0)) 0
      = 64 - k := by
  decide

theorem finalPermutation_entry : ∀ k < 64,
    1 ≤ finalPermutation.getD (64 - 1 - k) 0 ∧ finalPermutation.getD (64 - 1 - k) 0 ≤ 64 := by
  decide

theorem initialPermutation_entry : ∀ k < 64,
    1 ≤ initialPermutation.getD (64 - 1 - k) 0 ∧ initialPermutation.getD (64 - 1 - k) 0 ≤ 64 := by
  decide

/-- The final permutation undoes the initial permutation on every `uint64`. -/
theorem final_initial (b : Nat) (hb : b < 2 ^ 64) :
    permute (permute b initialPermutation 64) finalPermutation 64 = b := by
  apply Nat.eq_of_testBit_eq
  intro k
  rw [permute_testBit _ finalPermutation 64 (by decide) (by norm_num) (by norm_num)
    validTable_finalPermutation]
  by_cases hk : k < 64
  · have hlen : finalPermutation.length = 64 := rfl
    have hlen2 : initialPermutation.length = 64 := rfl
    have he := finalPermutation_entry k hk
    rw [permute_testBit _ initialPermutation 64 (by decide) (by norm_num) (by norm_num)
      validTable_initialPermutation, hlen, hlen2, final_initial_index k hk]
    have h1 : 64 - finalPermutation.getD (64 - 1 - k) 0 < 64 := by omega
    have h2 : 64 - (64 - k) = k := by omega
    simp only [hk, h1, h2, decide_True, Bool.true_and]
  · have hlen : finalPermutation.length = 64 := rfl
    rw [hlen, Nat.testBit_lt_two_pow (Nat.lt_of_lt_of_le hb
      (Nat.pow_le_pow_right (by norm_num) (by omega)))]
    simp [hk]

/-- The initial permutation undoes the final permutation on every `uint64`. -/
theorem initial_final (b : Nat) (hb : b < 2 ^ 64) :
    permute (permute b finalPermutation 64) initialPermutation 64 = b := by
  apply Nat.eq_of_testBit_eq
  intro k
  rw [permute_testBit _ initialPermutation 64 (by decide) (by norm_num) (by norm_num)
    validTable_initialPermutation]
  by_cases hk : k < 64
  · have hlen : finalPermutation.length = 64 := rfl
    have hlen2 : initialPermutation.length = 64 := rfl
    have he := initialPermutation_entry k hk
    rw [permute_testBit _ finalPermutation 64 (by decide) (by norm_num) (by norm_num)
      validTable_finalPermutation, hlen, hlen2, initial_final_index k hk]
    have h1 : 64 - initialPermutation.getD (64 - 1 - k) 0 < 64 := by omega
    have h2 : 64 - (64 - k) = k := by omega
    simp only [hk, h1, h2, decide_True, Bool.true_and]
  · have hlen : initialPermutation.length = 64 := rfl
    rw [hlen, Nat.testBit_lt_two_pow (Nat.lt_of_lt_of_le hb
      (Nat.pow_le_pow_right (by norm_num) (by omega)))]
    simp [hk]

/-- The sixteen-round loop of `cryptBlock` on a pair of halves. -/
theorem feistel_fst (l r k : Nat) : (feistel l r k).1 = r := rfl

theorem feistel_undo (l r k : Nat) :
    feistel (feistel l r k).2 (feistel l r k).1 k = (r, l) := by
  simp only [feistel]
  rw [Nat.xor_assoc, Nat.xor_self, Nat.xor_zero]

theorem feistel_lt (l r k : Nat) (hl : l < 4294967296) (hr : r < 4294967296) :
    (feistel l r k).1 < 4294967296 ∧ (feistel l r k).2 < 4294967296 := by
  simp only [feistel]
  exact ⟨hr, @Nat.xor_lt_two_pow _ _ 32 hl (Nat.mod_lt _ (by norm_num))⟩

theorem rounds_lt (sk : List Nat) (lr : Nat × Nat) (hl : lr.1 < 4294967296)
    (hr : lr.2 < 4294967296) :
    (sk.foldl (fun (lr : Nat × Nat) k => feistel lr.1 lr.2 k) lr).1 < 4294967296 ∧
    (sk.foldl (fun (lr : Nat × Nat) k => feistel lr.1 lr.2 k) lr).2 < 4294967296 := by
  induction sk generalizing lr with
  | nil => exact ⟨hl, hr⟩
  | cons k ks ih =>
    simp only [List.foldl_cons]
    exact ih _ (feistel_lt _ _ k hl hr).1 (feistel_lt _ _ k hl hr).2

/-- Running the rounds with the subkeys reversed on the swapped result gives back the
swapped input. -/
theorem rounds_reverse (sk : List Nat) (lr : Nat × Nat) :
    sk.reverse.foldl (fun (lr : Nat × Nat) k => feistel lr.1 lr.2 k)
        ((sk.foldl (fun (lr : Nat × Nat) k => feistel lr.1 lr.2 k) lr).2,
         (sk.foldl (fun (lr : Nat × Nat) k => feistel lr.1 lr.2 k) lr).1)
      = (lr.2, lr.1) := by
  induction sk generalizing lr with
  | nil => rfl
  | cons k ks ih =>
    simp only [List.foldl_cons, List.reverse_cons, List.foldl_append, List.foldl_nil]
    rw [ih]
    exact feistel_undo lr.1 lr.2 k

theorem reverseLoop_eq (sk : List Nat) (i : Nat) (tk : List Nat) (hi : i ≤ sk.length) :
    reverseLoop sk i tk = tk ++ (sk.take i).reverse := by
  induction i generalizing tk with
  | zero => simp [reverseLoop]
  | succ i ih =>
    simp only [reverseLoop]
    rw [ih _ (by omega), List.take_succ, List.getD_eq_getElem _ _ (by omega : i < sk.length),
      List.getElem?_eq_getElem (by omega)]
    simp only [Option.toList, List.reverse_append, List.reverse_cons, List.reverse_nil,
      List.nil_append, List.append_assoc, List.singleton_append]

theorem reverseLoop_reverse (sk : List Nat) : reverseLoop sk sk.length [] = sk.reverse := by
  rw [reverseLoop_eq sk sk.length [] (Nat.le_refl _)]
  simp

theorem join_halves (l r : Nat) (hl : l < 4294967296) (hr : r < 4294967296) :
    u64 (r <<< 32) ||| l = r * 4294967296 + l := by
  unfold u64
  rw [Nat.shiftLeft_eq, Nat.mod_eq_of_lt (by omega)]
  have := mul_or_eq_add r l 32 (by omega)
  simpa using this

theorem cryptBlock_lt (sk : List Nat) (b : Nat) : cryptBlock sk b < 2 ^ 64 := by
  unfold cryptBlock
  exact permute_lt _ finalPermutation 64 (by decide) (by norm_num) (by norm_num)
    validTable_finalPermutation

theorem cryptBlock_unfold (sk : List Nat) (b : Nat) :
    cryptBlock sk b = permute (u64 ((sk.foldl (fun (lr : Nat × Nat) k => feistel lr.1 lr.2 k)
        (u32 (permute b initialPermutation 64 >>> 32), u32 (permute b initialPermutation 64))).2
          <<< 32) ||| (sk.foldl (fun (lr : Nat × Nat) k => feistel lr.1 lr.2 k)
        (u32 (permute b initialPermutation 64 >>> 32), u32 (permute b initialPermutation 64))).1)
      finalPermutation 64 := rfl

/-- The network run with the reversed subkeys undoes the network. -/
theorem cryptBlock_reverse (sk : List Nat) (b : Nat) (hb : b < 2 ^ 64) :
    cryptBlock sk.reverse (cryptBlock sk b) = b := by
  have hip : permute b initialPermutation 64 < 2 ^ 64 :=
    permute_lt _ initialPermutation 64 (by decide) (by norm_num) (by norm_num)
      validTable_initialPermutation
  generalize hb1 : permute b initialPermutation 64 = b1 at hip
  have hl0 : u32 (b1 >>> 32) < 4294967296 := Nat.mod_lt _ (by norm_num)
  have hr0 : u32 b1 < 4294967296 := Nat.mod_lt _ (by norm_num)
  obtain ⟨hl1, hr1⟩ := rounds_lt sk (u32 (b1 >>> 32), u32 b1) hl0 hr0
  have hrev := rounds_reverse sk (u32 (b1 >>> 32), u32 b1)
  generalize hlr : sk.foldl (fun (lr : Nat × Nat) k => feistel lr.1 lr.2 k)
    (u32 (b1 >>> 32), u32 b1) = lr at hl1 hr1 hrev
  have hj := join_halves lr.1 lr.2 hl1 hr1
  have hb2 : u64 (lr.2 <<< 32) ||| lr.1 < 2 ^ 64 := by rw [hj]; omega
  have hsplit1 : u32 ((u64 (lr.2 <<< 32) ||| lr.1) >>> 32) = lr.2 := by
    rw [hj]; unfold u32; rw [Nat.shiftRight_eq_div_pow]; omega
  have hsplit2 : u32 (u64 (lr.2 <<< 32) ||| lr.1) = lr.1 := by
    rw [hj]; unfold u32; omega
  have hfinal : u64 (u32 (b1 >>> 32) <<< 32) ||| u32 b1 = b1 := by
    rw [join_halves _ _ hr0 hl0]
    unfold u32
    rw [Nat.shiftRight_eq_div_pow]
    omega
  rw [cryptBlock_unfold sk b, hb1, hlr, cryptBlock_unfold sk.reverse, initial_final _ hb2,
    hsplit1, hsplit2, hrev]
  show permute (u64 (u32 (b1 >>> 32) <<< 32) ||| u32 b1) finalPermutation 64 = b
  rw [hfinal, ← hb1, final_initial b hb]

end des

theorem or_shl_eq_add (x y k : Nat) (h : x < 2 ^ k) : x ||| y <<< k = y * 2 ^ k + x := by
  rw [Nat.or_comm, Nat.shiftLeft_eq, mul_or_eq_add y x k h]

theorem beUint64_cons (b0 b1 b2 b3 b4 b5 b6 b7 : Nat) (rest : List Nat) :
    beUint64 (b0 :: b1 :: b2 :: b3 :: b4 :: b5 :: b6 :: b7 :: rest)
      = .ok (b7 ||| b6 <<< 8 ||| b5 <<< 16 ||| b4 <<< 24 |||
        b3 <<< 32 ||| b2 <<< 40 ||| b1 <<< 48 ||| b0 <<< 56) := by
  rw [beUint64]

theorem or_shl_lit (x y k m : Nat) (hm : 2 ^ k = m) (h : x < m) :
    x ||| y <<< k = y * m + x := by
  subst hm; exact or_shl_eq_add x y k h

/-- The value read by `beUint64` from eight bytes. -/
theorem beUint64_eq (b0 b1 b2 b3 b4 b5 b6 b7 : Nat) (rest : List Nat)
    (h1 : b1 < 256) (h2 : b2 < 256) (h3 : b3 < 256) (h4 : b4 < 256) (h5 : b5 < 256)
    (h6 : b6 < 256) (h7 : b7 < 256) :
    beUint64 (b0 :: b1 :: b2 :: b3 :: b4 :: b5 :: b6 :: b7 :: rest)
      = .ok (pack8 b0 b1 b2 b3 b4 b5 b6 b7) := by
  rw [beUint64_cons]
  have e1 := or_shl_lit b7 b6 8 256 (by norm_num) (by omega)
  have e2 := or_shl_lit (b6 * 256 + b7) b5 16 65536 (by norm_num) (by omega)
  have e3 := or_shl_lit (b5 * 65536 + (b6 * 256 + b7)) b4 24 16777216 (by norm_num) (by omega)
  have e4 := or_shl_lit (b4 * 16777216 + (b5 * 65536 + (b6 * 256 + b7))) b3 32 4294967296
    (by norm_num) (by omega)
  have e5 := or_shl_lit (b3 * 4294967296 + (b4 * 16777216 + (b5 * 65536 + (b6 * 256 + b7))))
    b2 40 1099511627776 (by norm_num) (by omega)
  have e6 := or_shl_lit (b2 * 1099511627776 + (b3 * 4294967296 + (b4 * 16777216
    + (b5 * 65536 + (b6 * 256 + b7))))) b1 48 281474976710656 (by norm_num) (by omega)
  have e7 := or_shl_lit (b1 * 281474976710656 + (b2 * 1099511627776 + (b3 * 4294967296
    + (b4 * 16777216 + (b5 * 65536 + (b6 * 256 + b7)))))) b0 56 72057594037927936
    (by norm_num) (by omega)
  simp only [e1, e2, e3, e4, e5, e6, e7]
  unfold pack8
  apply congrArg
  omega

theorem pack8_lt (b0 b1 b2 b3 b4 b5 b6 b7 : Nat)
    (h0 : b0 < 256) (h1 : b1 < 256) (h2 : b2 < 256) (h3 : b3 < 256) (h4 : b4 < 256)
    (h5 : b5 < 256) (h6 : b6 < 256) (h7 : b7 < 256) :
    pack8 b0 b1 b2 b3 b4 b5 b6 b7 < 18446744073709551616 := by
  unfold pack8; omega

theorem shr_lit (w k m : Nat) (hm : 2 ^ k = m) : w >>> k = w / m := by
  subst hm; exact Nat.shiftRight_eq_div_pow w k

theorem bePutUint64_eq (w : Nat) :
    bePutUint64 w = [w / 72057594037927936 % 256, w / 281474976710656 % 256,
      w / 1099511627776 % 256, w / 4294967296 % 256, w / 16777216 % 256, w / 65536 % 256,
      w / 256 % 256, w % 256] := by
  unfold bePutUint64 u8
  simp only [shr_lit w 56 72057594037927936 (by norm_num),
    shr_lit w 48 281474976710656 (by norm_num), shr_lit w 40 1099511627776 (by norm_num),
    shr_lit w 32 4294967296 (by norm_num), shr_lit w 24 16777216 (by norm_num),
    shr_lit w 16 65536 (by norm_num), shr_lit w 8 256 (by norm_num)]

theorem bePutUint64_pack8 (b0 b1 b2 b3 b4 b5 b6 b7 : Nat)
    (h0 : b0 < 256) (h1 : b1 < 256) (h2 : b2 < 256) (h3 : b3 < 256) (h4 : b4 < 256)
    (h5 : b5 < 256) (h6 : b6 < 256) (h7 : b7 < 256) :
    bePutUint64 (pack8 b0 b1 b2 b3 b4 b5 b6 b7) = [b0, b1, b2, b3, b4, b5, b6, b7] := by
  rw [bePutUint64_eq]
  unfold pack8
  congr 1
  · omega
  congr 1
  · omega
  congr 1
  · omega
  congr 1
  · omega
  congr 1
  · omega
  congr 1
  · omega
  congr 1
  · omega
  congr 1
  omega

theorem beUint64_bePutUint64 (w : Nat) (hw : w < 18446744073709551616) (rest : List Nat) :
    beUint64 ((bePutUint64 w ++ rest).take 8) = .ok w := by
  rw [bePutUint64_eq]
  have h256 : (0 : Nat) < 256 := by norm_num
  show beUint64 [w / 72057594037927936 % 256, w / 281474976710656 % 256,
      w / 1099511627776 % 256, w / 4294967296 % 256, w / 16777216 % 256, w / 65536 % 256,
      w / 256 % 256, w % 256] = _
  rw [beUint64_eq _ _ _ _ _ _ _ _ _ (Nat.mod_lt _ h256) (Nat.mod_lt _ h256) (Nat.mod_lt _ h256)
    (Nat.mod_lt _ h256) (Nat.mod_lt _ h256) (Nat.mod_lt _ h256) (Nat.mod_lt _ h256)]
  unfold pack8
  apply congrArg
  omega

theorem list_length_8 (p : List Nat) (hp : p.length = 8) :
    ∃ a0 a1 a2 a3 a4 a5 a6 a7, p = [a0, a1, a2, a3, a4, a5, a6, a7] := by
  match p, hp with
  | [a0, a1, a2, a3, a4, a5, a6, a7], _ => exact ⟨a0, a1, a2, a3, a4, a5, a6, a7, rfl⟩

/-- Reading eight bytes gives a `uint64` whose big-endian bytes are the bytes read. -/
theorem beUint64_ok (p : List Nat) (hp : p.length = 8) (hpb : ∀ x ∈ p, x < 256) :
    ∃ w, beUint64 p = .ok w ∧ w < 18446744073709551616 ∧ bePutUint64 w = p := by
  obtain ⟨a0, a1, a2, a3, a4, a5, a6, a7, rfl⟩ := list_length_8 p hp
  simp only [List.mem_cons, List.mem_singleton, forall_eq_or_imp, forall_eq, List.not_mem_nil,
    false_implies, implies_true, and_true] at hpb
  obtain ⟨h0, h1, h2, h3, h4, h5, h6, h7⟩ := hpb
  exact ⟨_, beUint64_eq _ _ _ _ _ _ _ _ _ h1 h2 h3 h4 h5 h6 h7,
    pack8_lt _ _ _ _ _ _ _ _ h0 h1 h2 h3 h4 h5 h6 h7,
    bePutUint64_pack8 _ _ _ _ _ _ _ _ h0 h1 h2 h3 h4 h5 h6 h7⟩

namespace des

theorem decryptBlock_eq (sk : List Nat) (b : Nat) :
    decryptBlock sk b = cryptBlock sk.reverse b := by
  unfold decryptBlock
  simp only [reverseLoop_reverse]

theorem encryptBlock_lt (sk : List Nat) (b : Nat) : encryptBlock sk b < 18446744073709551616 := by
  have := cryptBlock_lt sk b
  norm_num at this
  exact this

theorem decryptBlock_lt (sk : List Nat) (b : Nat) : decryptBlock sk b < 18446744073709551616 := by
  rw [decryptBlock_eq]
  have := cryptBlock_lt sk.reverse b
  norm_num at this
  exact this

theorem desDecrypt_encrypt (sk : List Nat) (b : Nat) (hb : b < 18446744073709551616) :
    decryptBlock sk (encryptBlock sk b) = b := by
  rw [decryptBlock_eq]
  exact cryptBlock_reverse sk b (by norm_num; exact hb)

theorem desEncrypt_decrypt (sk : List Nat) (b : Nat) (hb : b < 18446744073709551616) :
    encryptBlock sk (decryptBlock sk b) = b := by
  rw [decryptBlock_eq]
  have := cryptBlock_reverse sk.reverse b (by norm_num; exact hb)
  rw [List.reverse_reverse] at this
  exact this

end des

namespace des

/-- The shape shared by the `Encrypt` and `Decrypt` methods: read a `uint64`, transform
it, store it. -/
theorem crypt_bytes (f : Nat → Nat) (dst src : List Nat) (w : Nat) (hd : 8 ≤ dst.length)
    (hs : 8 ≤ src.length) (hw : beUint64 (src.take 8) = .ok w) :
    (if dst.length ≤ 7 ∨ src.length ≤ 7 then throw Fault.panic
      else do
        let b ← beUint64 (src.take 8)
        pure (bePutUint64 (f b) ++ dst.drop 8) : Except Fault (List Nat))
      = .ok (bePutUint64 (f w) ++ dst.drop 8) := by
  rw [if_neg (by omega), hw]
  rfl

theorem bePutUint64_length (v : Nat) : (bePutUint64 v).length = 8 := rfl

theorem put_length (w : Nat) (dst : List Nat) : 8 ≤ (bePutUint64 w ++ dst).length := by
  rw [List.length_append, bePutUint64_length]; omega

theorem desCipher_Encrypt_eq (c : desCipher) (dst src : List Nat) (w : Nat)
    (hd : 8 ≤ dst.length) (hs : 8 ≤ src.length) (hw : beUint64 (src.take 8) = .ok w) :
    c.Encrypt dst src = .ok (bePutUint64 (encryptBlock c.subKeys w) ++ dst.drop 8) :=
  crypt_bytes (encryptBlock c.subKeys) dst src w hd hs hw

theorem desCipher_Decrypt_eq (c : desCipher) (dst src : List Nat) (w : Nat)
    (hd : 8 ≤ dst.length) (hs : 8 ≤ src.length) (hw : beUint64 (src.take 8) = .ok w) :
    c.Decrypt dst src = .ok (bePutUint64 (decryptBlock c.subKeys w) ++ dst.drop 8) :=
  crypt_bytes (decryptBlock c.subKeys) dst src w hd hs hw

theorem tripleDESCipher_Encrypt_eq (c : tripleDESCipher) (dst src : List Nat) (w : Nat)
    (hd : 8 ≤ dst.length) (hs : 8 ≤ src.length) (hw : beUint64 (src.take 8) = .ok w) :
    c.Encrypt dst src = .ok (bePutUint64 (encryptBlock c.cipher3.subKeys
      (decryptBlock c.cipher2.subKeys (encryptBlock c.cipher1.subKeys w))) ++ dst.drop 8) :=
  crypt_bytes (fun b => encryptBlock c.cipher3.subKeys
      (decryptBlock c.cipher2.subKeys (encryptBlock c.cipher1.subKeys b))) dst src w hd hs hw

theorem tripleDESCipher_Decrypt_eq (c : tripleDESCipher) (dst src : List Nat) (w : Nat)
    (hd : 8 ≤ dst.length) (hs : 8 ≤ src.length) (hw : beUint64 (src.take 8) = .ok w) :
    c.Decrypt dst src = .ok (bePutUint64 (decryptBlock c.cipher1.subKeys
      (encryptBlock c.cipher2.subKeys (decryptBlock c.cipher3.subKeys w))) ++ dst.drop 8) :=
  crypt_bytes (fun b => decryptBlock c.cipher1.subKeys
      (encryptBlock c.cipher2.subKeys (decryptBlock c.cipher3.subKeys b))) dst src w hd hs hw

/-- Byte-level round trip of two word transforms that undo each other. -/
theorem bytes_roundtrip (f g : Nat → Nat) (hf : ∀ w, f w < 18446744073709551616)
    (hgf : ∀ w, w < 18446744073709551616 → g (f w) = w)
    (b dst1 dst2 : List Nat) (hb : b.length = 8) (hbb : ∀ x ∈ b, x < 256) :
    ∃ w, beUint64 (b.take 8) = .ok w ∧
      beUint64 ((bePutUint64 (f w) ++ dst1.drop 8).take 8) = .ok (f w) ∧
      bePutUint64 (g (f w)) ++ dst2.drop 8 = b ++ dst2.drop 8 := by
  obtain ⟨w, hw, hwlt, hput⟩ := beUint64_ok b hb hbb
  refine ⟨w, ?_, beUint64_bePutUint64 _ (hf w) _, ?_⟩
  · rw [List.take_of_length_le (by omega)]; exact hw
  · rw [hgf w hwlt, hput]

theorem desNewCipher_ok (key : List Nat) (hk : key.length = 8) (hkb : ∀ x ∈ key, x < 256) :
    ∃ k, beUint64 key = .ok k ∧ NewCipher key = .ok ⟨newSubKeys k⟩ := by
  obtain ⟨k, hk1, _, _⟩ := beUint64_ok key hk hkb
  refine ⟨k, hk1, ?_⟩
  unfold NewCipher
  rw [if_neg (by omega), hk1]
  rfl

theorem NewTripleDESCipher_ok (key : List Nat) (hk : key.length = 24)
    (hkb : ∀ x ∈ key, x < 256) :
    ∃ k1 k2 k3, NewCipher (key.take 8) = .ok ⟨newSubKeys k1⟩ ∧
      NewCipher ((key.take 16).drop 8) = .ok ⟨newSubKeys k2⟩ ∧
      NewCipher (key.drop 16) = .ok ⟨newSubKeys k3⟩ ∧
      NewTripleDESCipher key = .ok ⟨⟨newSubKeys k1⟩, ⟨newSubKeys k2⟩, ⟨newSubKeys k3⟩⟩ := by
  have hl1 : (key.take 8).length = 8 := by rw [List.length_take]; omega
  have hl2 : ((key.take 16).drop 8).length = 8 := by
    rw [List.length_drop, List.length_take]; omega
  have hl3 : (key.drop 16).length = 8 := by rw [List.length_drop]; omega
  obtain ⟨k1, h1, hc1⟩ := desNewCipher_ok (key.take 8) hl1
    (fun x hx => hkb x (List.mem_of_mem_take hx))
  obtain ⟨k2, h2, hc2⟩ := desNewCipher_ok ((key.take 16).drop 8) hl2
    (fun x hx => hkb x (List.mem_of_mem_take (List.mem_of_mem_drop hx)))
  obtain ⟨k3, h3, hc3⟩ := desNewCipher_ok (key.drop 16) hl3
    (fun x hx => hkb x (List.mem_of_mem_drop hx))
  refine ⟨k1, k2, k3, hc1, hc2, hc3, ?_⟩
  unfold NewTripleDESCipher
  rw [if_neg (by omega), h1, h2, h3]
  rfl

end des

/-! ## CTR: the counter -/

theorem beValue_append_singleton (b : List Nat) (x : Nat) :
    beValue (b ++ [x]) = beValue b * 256 + x := by
  unfold beValue
  rw [List.foldl_append]
  rfl

theorem beBytes_length (n v : Nat) : (beBytes n v).length = n := by
  induction n generalizing v with
  | zero => rfl
  | succ n ih => simp [beBytes, ih]

theorem beBytes_lt (n v : Nat) : ∀ x ∈ beBytes n v, x < 256 := by
  induction n generalizing v with
  | zero => intro x hx; simp [beBytes] at hx
  | succ n ih =>
    intro x hx
    simp only [beBytes, List.mem_append, List.mem_singleton] at hx
    rcases hx with hx | hx
    · exact ih _ x hx
    · rw [hx]; exact Nat.mod_lt _ (by norm_num)

theorem beBytes_mod (n v : Nat) : beBytes n (v % 256 ^ n) = beBytes n v := by
  induction n generalizing v with
  | zero => rfl
  | succ n ih =>
    simp only [beBytes]
    have h1 : v % 256 ^ (n + 1) % 256 = v % 256 := by
      rw [Nat.pow_succ, Nat.mod_mul_left_mod]
    have h2 : v % 256 ^ (n + 1) / 256 = v / 256 % 256 ^ n := by
      rw [Nat.pow_succ, Nat.mul_comm, Nat.mod_mul_right_div_self]
    rw [h1, h2, ih]

theorem beValue_beBytes (n v : Nat) : beValue (beBytes n v) = v % 256 ^ n := by
  induction n generalizing v with
  | zero => simp [beBytes, beValue, Nat.mod_one]
  | succ n ih =>
    simp only [beBytes]
    rw [beValue_append_singleton, ih, Nat.pow_succ, Nat.mul_comm (256 ^ n) 256,
      Nat.mod_mul, Nat.mul_comm, Nat.add_comm]

theorem beValue_lt (b : List Nat) (hb : ∀ x ∈ b, x < 256) : beValue b < 256 ^ b.length := by
  induction b using List.reverseRecOn with
  | nil => simp [beValue]
  | append_singleton b x ih =>
    rw [beValue_append_singleton, List.length_append, List.length_singleton, Nat.pow_succ]
    have h1 := ih (fun y hy => hb y (List.mem_append_left _ hy))
    have h2 := hb x (List.mem_append_right _ (List.mem_singleton_self x))
    have : (beValue b + 1) * 256 ≤ 256 ^ b.length * 256 := Nat.mul_le_mul_right _ h1
    omega

theorem beBytes_beValue (b : List Nat) (hb : ∀ x ∈ b, x < 256) :
    beBytes b.length (beValue b) = b := by
  induction b using List.reverseRecOn with
  | nil => rfl
  | append_singleton b x ih =>
    have h1 := ih (fun y hy => hb y (List.mem_append_left _ hy))
    have h2 := hb x (List.mem_append_right _ (List.mem_singleton_self x))
    rw [beValue_append_singleton, List.length_append, List.length_singleton]
    simp only [beBytes]
    have e1 : (beValue b * 256 + x) / 256 = beValue b := by omega
    have e2 : (beValue b * 256 + x) % 256 = x := by omega
    rw [e1, e2, h1]

theorem two_pow_8n (n : Nat) : 2 ^ (8 * n) = 256 ^ n := by
  rw [Nat.pow_mul]

theorem counterAdd_length (iv : List Nat) (k : Nat) : (counterAdd iv k).length = iv.length :=
  beBytes_length _ _

theorem counterAdd_lt (iv : List Nat) (k : Nat) : ∀ x ∈ counterAdd iv k, x < 256 :=
  beBytes_lt _ _

theorem counterAdd_zero (iv : List Nat) (hiv : ∀ x ∈ iv, x < 256) : counterAdd iv 0 = iv := by
  unfold counterAdd
  rw [Nat.add_zero, two_pow_8n, beBytes_mod, beBytes_beValue iv hiv]

namespace ctr

theorem incLoop_append (i : Nat) (a b : List Nat) (hi : i ≤ a.length) :
    incLoop i (a ++ b) = incLoop i a ++ b := by
  induction i generalizing a with
  | zero => rfl
  | succ i ih =>
    have hlt : i < a.length := by omega
    simp only [incLoop]
    rw [List.getD_append _ _ _ _ hlt, List.set_append_left _ _ hlt]
    split
    · rfl
    · exact ih _ (by rw [List.length_set]; omega)

/-- The counter increment of `refill` adds one to the big-endian value of the counter,
modulo `256 ^ n`. -/
theorem incLoop_spec (ctr : List Nat) (hb : ∀ x ∈ ctr, x < 256) :
    incLoop ctr.length ctr = beBytes ctr.length ((beValue ctr + 1) % 256 ^ ctr.length) := by
  induction ctr using List.reverseRecOn with
  | nil => rfl
  | append_singleton b x ih =>
    have h1 := ih (fun y hy => hb y (List.mem_append_left _ hy))
    have h2 := hb x (List.mem_append_right _ (List.mem_singleton_self x))
    have hbl := beValue_lt b (fun y hy => hb y (List.mem_append_left _ hy))
    rw [beBytes_mod, beValue_append_singleton, List.length_append, List.length_singleton]
    simp only [incLoop, beBytes]
    have hget : (b ++ [x]).getD b.length 0 = x := by
      rw [List.getD_append_right _ _ _ _ (Nat.le_refl _)]; simp
    have hset (v : Nat) : (b ++ [x]).set b.length v = b ++ [v] := by
      rw [List.set_append_right _ _ (Nat.le_refl _)]; simp
    rw [hget, hset]
    by_cases hx : x = 255
    · subst hx
      have e0 : u8 (255 + 1) = 0 := rfl
      rw [e0, if_neg (by simp), incLoop_append _ _ _ (Nat.le_refl _), h1, beBytes_mod]
      have e1 : (beValue b * 256 + 255 + 1) / 256 = beValue b + 1 := by omega
      have e2 : (beValue b * 256 + 255 + 1) % 256 = 0 := by omega
      rw [e1, e2]
    · have e0 : u8 (x + 1) = x + 1 := by unfold u8; omega
      rw [e0, if_pos (by omega)]
      have e1 : (beValue b * 256 + x + 1) / 256 = beValue b := by omega
      have e2 : (beValue b * 256 + x + 1) % 256 = x + 1 := by omega
      rw [e1, e2, beBytes_beValue b (fun y hy => hb y (List.mem_append_left _ hy))]

theorem incLoop_counterAdd (iv : List Nat) (m : Nat) :
    incLoop (counterAdd iv m).length (counterAdd iv m) = counterAdd iv (m + 1) := by
  rw [incLoop_spec _ (counterAdd_lt iv m), counterAdd_length]
  unfold counterAdd
  rw [two_pow_8n, beBytes_mod, beBytes_mod, beValue_beBytes, beBytes_mod,
    ← beBytes_mod _ (_ + 1), Nat.add_mod, Nat.mod_mod, ← Nat.add_mod, beBytes_mod, Nat.add_assoc]

end ctr

/-! ## CTR: the keystream buffer -/

theorem getD_take (l : List Nat) (k i : Nat) (hi : i < k) : (l.take k).getD i 0 = l.getD i 0 := by
  simp only [List.getD_eq_getElem?_getD, List.getElem?_take_of_lt hi]

theorem getD_drop (l : List Nat) (k i : Nat) : (l.drop k).getD i 0 = l.getD (k + i) 0 := by
  simp only [List.getD_eq_getElem?_getD, List.getElem?_drop]

theorem getD_take_append_left (l r : List Nat) (k i : Nat) (hk : k ≤ l.length) (hi : i < k) :
    (l.take k ++ r).getD i 0 = l.getD i 0 := by
  rw [List.getD_append _ _ _ _ (by rw [List.length_take]; omega)]
  exact getD_take l k i hi

theorem getD_take_append_right (l r : List Nat) (k i : Nat) (hk : k ≤ l.length) (hi : k ≤ i) :
    (l.take k ++ r).getD i 0 = r.getD (i - k) 0 := by
  rw [List.getD_append_right _ _ _ _ (by rw [List.length_take]; omega), List.length_take,
    Nat.min_eq_left hk]

namespace ctr

theorem keystream_block (E : List Nat → List Nat) (iv : List Nat) (m i : Nat)
    (hi : i < iv.length) :
    keystream E iv (m * iv.length + i) = (E (counterAdd iv m)).getD i 0 := by
  unfold keystream
  have h1 : (m * iv.length + i) / iv.length = m := by
    rw [Nat.mul_comm, Nat.mul_add_div (by omega), Nat.div_eq_of_lt hi, Nat.add_zero]
  have h2 : (m * iv.length + i) % iv.length = i := by
    rw [Nat.mul_comm, Nat.mul_add_mod, Nat.mod_eq_of_lt hi]
  rw [h1, h2]

/-- The loop of `refill` fills the buffer with the next blocks of the keystream. -/
theorem refillLoop_spec (block : Block) (E : List Nat → List Nat) (iv : List Nat)
    (hE : block.Computes E) (hiv : iv.length = block.BlockSize)
    (p fuel : Nat) (remain : Nat) (out : List Nat) (m : Nat)
    (hout : remain ≤ out.length) (hfuel : out.length < (fuel + 1) * block.BlockSize + remain)
    (hctr : p + remain = m * iv.length)
    (hks : ∀ i < remain, out.getD i 0 = keystream E iv (p + i)) :
    ∃ remain1 out1 m1,
      refillLoop block block.BlockSize fuel remain out (counterAdd iv m)
        = .ok (remain1, out1, counterAdd iv m1) ∧
      out1.length = out.length ∧ remain1 ≤ out.length ∧ out.length < remain1 + block.BlockSize ∧
      p + remain1 = m1 * iv.length ∧
      ∀ i < remain1, out1.getD i 0 = keystream E iv (p + i) := by
  induction fuel generalizing remain out m with
  | zero =>
    refine ⟨remain, out, m, ?_, rfl, hout, by omega, hctr, hks⟩
    simp only [refillLoop]
    rw [if_neg (by omega)]
    rfl
  | succ fuel ih =>
    by_cases hc : (remain : Int) ≤ (out.length : Int) - block.BlockSize
    · have hc2 : remain + block.BlockSize ≤ out.length := by omega
      have henc := hE.2 (out.drop remain) (counterAdd iv m)
        (by rw [List.length_drop]; omega) (by rw [counterAdd_length, hiv])
      have hlenE : (E (counterAdd iv m)).length = block.BlockSize :=
        hE.1 _ (by rw [counterAdd_length, hiv])
      have hlen1 : (out.take remain ++
          (E (counterAdd iv m) ++ (out.drop remain).drop block.BlockSize)).length
            = out.length := by
        simp only [List.length_append, List.length_take, List.length_drop, hlenE]
        omega
      obtain ⟨remain1, out1, m1, h1, h2, h3, h4, h5, h6⟩ := ih (remain + block.BlockSize)
        (out.take remain ++ (E (counterAdd iv m) ++ (out.drop remain).drop block.BlockSize))
        (m + 1) (by rw [hlen1]; omega)
        (by rw [hlen1]; have : (fuel + 1 + 1) * block.BlockSize
              = (fuel + 1) * block.BlockSize + block.BlockSize := by
              rw [Nat.add_mul, Nat.one_mul]
            omega)
        (by rw [Nat.add_mul, Nat.one_mul, ← hctr, hiv]; omega)
        (by
          intro i hi
          by_cases hlt : i < remain
          · rw [getD_take_append_left _ _ _ _ hout hlt]
            exact hks i hlt
          · rw [getD_take_append_right _ _ _ _ hout (by omega),
              List.getD_append _ _ _ _ (by rw [hlenE]; omega),
              ← keystream_block E iv m (i - remain) (by rw [hiv]; omega)]
            congr 1
            omega)
      refine ⟨remain1, out1, m1, ?_, by rw [h2, hlen1], by rw [← hlen1]; exact h3,
        by rw [← hlen1]; exact h4, h5, h6⟩
      simp only [refillLoop]
      rw [if_pos hc, henc]
      simp only [ok_bind]
      rw [incLoop_counterAdd]
      exact h1
    · refine ⟨remain, out, m, ?_, rfl, hout, by omega, hctr, hks⟩
      simp only [refillLoop]
      rw [if_neg hc]
      rfl

end ctr

namespace ctr

/-- `refill` keeps the position of the stream and leaves at least one unconsumed
keystream byte at the start of the buffer. -/
theorem refill_spec (block : Block) (E : List Nat → List Nat) (iv : List Nat)
    (hE : block.Computes E) (hbs : 1 ≤ block.BlockSize) (hiv : iv.length = block.BlockSize)
    (p fuel : Nat) (s : ctrStream) (hs : s.At block E iv p)
    (hfuel : s.out.length < (fuel + 1) * block.BlockSize) :
    ∃ s1, s.refill fuel = .ok s1 ∧ s1.At block E iv p ∧ s1.outUsed = 0 ∧ 1 ≤ s1.outLen ∧
      s1.out.length = s.out.length := by
  obtain ⟨hb, hcap, hused, hlen, ⟨m, hctr, hpos⟩, hks⟩ := hs
  have hl1 : (((s.out.take s.outLen).drop s.outUsed) ++ s.out.drop (s.outLen - s.outUsed)).length
      = s.out.length := by
    simp only [List.length_append, List.length_take, List.length_drop]
    omega
  obtain ⟨remain1, out1, m1, h1, h2, h3, h4, h5, h6⟩ := refillLoop_spec block E iv hE hiv p fuel
    (s.outLen - s.outUsed)
    (((s.out.take s.outLen).drop s.outUsed) ++ s.out.drop (s.outLen - s.outUsed)) m
    (by rw [hl1]; omega) (by rw [hl1]; omega) hpos
    (by
      intro i hi
      rw [List.getD_append _ _ _ _ (by
        simp only [List.length_take, List.length_drop]; omega), getD_drop,
        getD_take _ _ _ (by omega)]
      exact hks i hi)
  rw [hl1] at h2 h3 h4
  refine ⟨⟨s.block, counterAdd iv m1, out1, remain1, 0⟩, ?_, ?_, rfl, by
    show 1 ≤ remain1
    omega, h2⟩
  · unfold ctrStream.refill
    rw [if_neg (by omega)]
    simp only [pure_eq_ok, ok_bind]
    rw [hb, hctr, h1]
    rfl
  · refine ⟨hb, by show block.BlockSize ≤ out1.length; omega, Nat.zero_le _,
      by show remain1 ≤ out1.length; omega, ⟨m1, rfl, by simpa using h5⟩, ?_⟩
    intro i hi
    show out1.getD (0 + i) 0 = _
    rw [Nat.zero_add]
    exact h6 i (by simpa using hi)

theorem xorBytesLoop_spec (a b : List Nat) (m i : Nat) (dst : List Nat)
    (ha : i + m ≤ a.length) (hb : i + m ≤ b.length) (hd : i + m ≤ dst.length) :
    ∃ dst1, xorBytesLoop a b m i dst = .ok dst1 ∧ dst1.length = dst.length ∧
      ∀ j, dst1.getD j 0
        = if i ≤ j ∧ j < i + m then a.getD j 0 ^^^ b.getD j 0 else dst.getD j 0 := by
  induction m generalizing i dst with
  | zero =>
    refine ⟨dst, rfl, rfl, ?_⟩
    intro j
    rw [if_neg (by omega)]
  | succ m ih =>
    obtain ⟨dst1, h1, h2, h3⟩ := ih (i + 1) (dst.set i (a.getD i 0 ^^^ b.getD i 0)) (by omega)
      (by omega) (by rw [List.length_set]; omega)
    refine ⟨dst1, ?_, by rw [h2, List.length_set], ?_⟩
    · simp only [xorBytesLoop]
      rw [idx_ok a i 0 (by omega), idx_ok b i 0 (by omega)]
      simp only [ok_bind]
      rw [upd_ok dst i _ (by omega)]
      exact h1
    · intro j
      rw [h3, getD_set]
      by_cases hj : i + 1 ≤ j ∧ j < i + 1 + m
      · rw [if_pos hj, if_pos (by omega)]
      · rw [if_neg hj]
        by_cases hj2 : j = i
        · rw [if_pos ⟨hj2, by omega⟩, if_pos (by omega), hj2]
        · rw [if_neg (fun h => hj2 h.1), if_neg (by omega)]

theorem xorBytes_spec (dst a b : List Nat) (hd : min a.length b.length ≤ dst.length) :
    ∃ dst1, xorBytes dst a b = .ok (dst1, min a.length b.length) ∧ dst1.length = dst.length ∧
      ∀ j, dst1.getD j 0
        = if j < min a.length b.length then a.getD j 0 ^^^ b.getD j 0 else dst.getD j 0 := by
  have hn : (if b.length < a.length then b.length else a.length) = min a.length b.length := by
    split <;> omega
  unfold xorBytes
  simp only [hn]
  by_cases h0 : min a.length b.length = 0
  · refine ⟨dst, ?_, rfl, ?_⟩
    · rw [if_pos h0, h0]; rfl
    · intro j; rw [if_neg (by omega)]
  · obtain ⟨dst1, h1, h2, h3⟩ := xorBytesLoop_spec a b (min a.length b.length) 0 dst
      (by omega) (by omega) (by omega)
    refine ⟨dst1, ?_, h2, ?_⟩
    · rw [if_neg h0, h1]; rfl
    · intro j
      rw [h3]
      by_cases hj : j < min a.length b.length
      · rw [if_pos hj, if_pos (by omega)]
      · rw [if_neg hj, if_neg (by omega)]

end ctr

namespace ctr

/-- Consuming `r` available keystream bytes moves the stream `r` bytes on. -/
theorem at_advance (block : Block) (E : List Nat → List Nat) (iv : List Nat) (p r : Nat)
    (s : ctrStream) (hs : s.At block E iv p) (hr : s.outUsed + r ≤ s.outLen) :
    ctrStream.At { s with outUsed := s.outUsed + r } block E iv (p + r) := by
  obtain ⟨hb, hcap, hused, hlen, ⟨m, hctr, hpos⟩, hks⟩ := hs
  refine ⟨hb, hcap, hr, hlen, ⟨m, hctr, ?_⟩, ?_⟩
  · show p + r + (s.outLen - (s.outUsed + r)) = m * iv.length
    omega
  · intro i hi
    show s.out.getD (s.outUsed + r + i) 0 = keystream E iv (p + r + i)
    have hi2 : i < s.outLen - (s.outUsed + r) := hi
    rw [Nat.add_assoc, Nat.add_assoc]
    exact hks (r + i) (by omega)

/-- The loop of `XORKeyStream` XORs the source with the next keystream bytes, whatever
the position of the stream, and leaves the rest of the destination alone. -/
theorem xorKeyStreamLoop_spec (block : Block) (E : List Nat → List Nat) (iv : List Nat)
    (hE : block.Computes E) (hbs : 1 ≤ block.BlockSize) (hiv : iv.length = block.BlockSize)
    (fuel n : Nat) (s : ctrStream) (p : Nat) (dst src : List Nat) (hs : s.At block E iv p)
    (hfuel : s.out.length < (fuel + 1) * block.BlockSize)
    (hlen : src.length ≤ dst.length) (hn : src.length ≤ n) :
    ∃ s1 out, xorKeyStreamLoop fuel n s dst src = .ok (s1, out) ∧
      s1.At block E iv (p + src.length) ∧ s1.out.length = s.out.length ∧
      out.length = dst.length ∧
      ∀ j, out.getD j 0
        = if j < src.length then src.getD j 0 ^^^ keystream E iv (p + j) else dst.getD j 0 := by
  induction n generalizing s p dst src with
  | zero =>
    have : src = [] := List.eq_nil_of_length_eq_zero (by omega)
    subst this
    refine ⟨s, dst, by simp only [xorKeyStreamLoop]; rfl, hs, rfl, rfl, ?_⟩
    intro j
    rw [if_neg (by simp)]
  | succ n ih =>
    match src, hlen, hn with
    | [], _, _ =>
      refine ⟨s, dst, by simp only [xorKeyStreamLoop]; rfl, hs, rfl, rfl, ?_⟩
      intro j
      rw [if_neg (by simp)]
    | x :: xs, hlen, hn =>
      -- the refill check
      have hstep : ∃ s1, (if (s.outUsed : Int) ≥ (s.outLen : Int) - s.block.BlockSize
            then s.refill fuel else pure s) = .ok s1 ∧ s1.At block E iv p ∧
            s1.outUsed < s1.outLen ∧ s1.out.length = s.out.length := by
        by_cases hc : (s.outUsed : Int) ≥ (s.outLen : Int) - s.block.BlockSize
        · obtain ⟨s1, h1, h2, h3, h4, h5⟩ := refill_spec block E iv hE hbs hiv p fuel s hs hfuel
          exact ⟨s1, by rw [if_pos hc]; exact h1, h2, by omega, h5⟩
        · refine ⟨s, by rw [if_neg hc]; rfl, hs, ?_, rfl⟩
          rw [hs.1] at hc
          omega
      obtain ⟨s1, hs1eq, hs1, havail, hcap1⟩ := hstep
      have hs1' := hs1
      obtain ⟨hb, hcap, hused, hlen1, ⟨m, hctr, hpos⟩, hks⟩ := hs1
      have hsl : ((s1.out.take s1.outLen).drop s1.outUsed).length = s1.outLen - s1.outUsed := by
        simp only [List.length_drop, List.length_take]; omega
      obtain ⟨dst1, hx1, hx2, hx3⟩ := xorBytes_spec dst (x :: xs)
        ((s1.out.take s1.outLen).drop s1.outUsed) (by rw [hsl]; omega)
      rw [hsl] at hx1 hx3
      generalize hr : min (x :: xs).length (s1.outLen - s1.outUsed) = r at hx1 hx3
      have hr1 : 1 ≤ r := by rw [← hr]; simp only [List.length_cons]; omega
      have hr2 : r ≤ (x :: xs).length := by rw [← hr]; omega
      have hr3 : s1.outUsed + r ≤ s1.outLen := by rw [← hr]; omega
      obtain ⟨s2, out2, h1, h2, h3, h4, h5⟩ := ih { s1 with outUsed := s1.outUsed + r } (p + r)
        (dst1.drop r) ((x :: xs).drop r) (at_advance block E iv p r s1 hs1' hr3)
        (by show s1.out.length < _; rw [hcap1]; exact hfuel)
        (by simp only [List.length_drop]; omega)
        (by simp only [List.length_drop]; simp only [List.length_cons] at hn hr2 ⊢; omega)
      refine ⟨s2, dst1.take r ++ out2, ?_, ?_, ?_, ?_, ?_⟩
      · simp only [xorKeyStreamLoop]
        rw [hs1eq]
        simp only [ok_bind]
        rw [if_neg (by omega)]
        simp only [pure_eq_ok, ok_bind]
        rw [hx1]
        simp only [ok_bind]
        rw [h1]
        rfl
      · have e : p + r + ((x :: xs).drop r).length = p + (x :: xs).length := by
          simp only [List.length_drop]; omega
        rw [e] at h2
        exact h2
      · rw [h3]; exact hcap1
      · rw [List.length_append, List.length_take, h4, List.length_drop, hx2]
        omega
      · intro j
        by_cases hj : j < r
        · rw [getD_take_append_left _ _ _ _ (by omega) hj, hx3, if_pos hj, if_pos (by omega),
            getD_drop, getD_take _ _ _ (by omega), hks j (by omega)]
        · rw [getD_take_append_right _ _ _ _ (by omega) (by omega), h5]
          simp only [List.length_drop]
          have e1 : r + (j - r) = j := by omega
          have e2 : p + r + (j - r) = p + j := by omega
          by_cases hj2 : j < (x :: xs).length
          · rw [if_pos (by omega), if_pos hj2, getD_drop, e1, e2]
          · rw [if_neg (by omega), if_neg hj2, getD_drop, e1, hx3, if_neg (by omega)]

end ctr

theorem ext_getD (a b : List Nat) (hl : a.length = b.length)
    (h : ∀ j < a.length, a.getD j 0 = b.getD j 0) : a = b := by
  apply List.ext_getElem hl
  intro j h1 h2
  have := h j h1
  rw [List.getD_eq_getElem _ _ h1, List.getD_eq_getElem _ _ h2] at this
  exact this

theorem noopBlock_computes (n : Nat) : (noopBlock n).Computes id := by
  refine ⟨fun x hx => hx, ?_⟩
  intro dst src hd hs
  show Except.ok (copyBytes dst src) = Except.ok (id src ++ dst.drop n)
  unfold copyBytes
  have hs2 : src.length = n := hs
  have hd2 : n ≤ dst.length := hd
  rw [List.take_of_length_le (by omega), hs2]
  rfl

namespace ctr

theorem NewCTR_spec (block : Block) (E : List Nat → List Nat) (iv : List Nat)
    (hiv : iv.length = block.BlockSize) (hivb : ∀ x ∈ iv, x < 256) :
    ∃ s0, NewCTR block iv = .ok s0 ∧ s0.At block E iv 0 ∧
      s0.out.length = (if 512 < block.BlockSize then block.BlockSize else 512) := by
  refine ⟨⟨block, iv, List.replicate (if 512 < block.BlockSize then block.BlockSize else 512) 0,
    0, 0⟩, ?_, ?_, List.length_replicate _ _⟩
  · unfold NewCTR
    rw [if_neg (by omega)]
    rfl
  · refine ⟨rfl, ?_, Nat.le_refl _, Nat.zero_le _, ⟨0, (counterAdd_zero iv hivb).symm, by simp⟩,
      ?_⟩
    · show block.BlockSize ≤ (List.replicate _ 0).length
      rw [List.length_replicate]
      split <;> omega
    · intro i hi
      simp at hi

/-- `XORKeyStream` on a fresh stream, in terms of the keystream. -/
theorem XORKeyStream_fresh (block : Block) (E : List Nat → List Nat) (iv src dst : List Nat)
    (fuel : Nat) (hbs : 1 ≤ block.BlockSize) (hE : block.Computes E)
    (hiv : iv.length = block.BlockSize) (hivb : ∀ x ∈ iv, x < 256)
    (hlen : src.length ≤ dst.length) (hfuel : 512 + src.length ≤ fuel) :
    ∃ s0 s1 out, NewCTR block iv = .ok s0 ∧ s0.XORKeyStream fuel dst src = .ok (s1, out) ∧
      s1.At block E iv src.length ∧ out.length = dst.length ∧
      ∀ j, out.getD j 0
        = if j < src.length then src.getD j 0 ^^^ keystream E iv j else dst.getD j 0 := by
  obtain ⟨s0, h0, hat, hcap⟩ := NewCTR_spec block E iv hiv hivb
  have hf : s0.out.length < (fuel + 1) * block.BlockSize := by
    have h1 : 513 * block.BlockSize ≤ (fuel + 1) * block.BlockSize :=
      Nat.mul_le_mul_right _ (by omega)
    rw [hcap]
    split <;> omega
  obtain ⟨s1, out, h1, h2, _, h4, h5⟩ := xorKeyStreamLoop_spec block E iv hE hbs hiv fuel fuel
    s0 0 dst src hat hf hlen (by omega)
  refine ⟨s0, s1, out, h0, ?_, by simpa using h2, h4, ?_⟩
  · unfold ctrStream.XORKeyStream
    rw [if_neg (by omega)]
    exact h1
  · intro j
    rw [h5, Nat.zero_add]

end ctr

namespace aes

theorem encryptLoop_total (l : Nat) (xk : List (List Nat)) (hs : IsSchedule l xk) (n i : Nat)
    (t : Words) (hn : i + n ≤ l) : ∃ t1, encryptLoop xk n i t = .ok t1 := by
  induction n generalizing i t with
  | zero => exact ⟨t, rfl⟩
  | succ n ih =>
    simp only [encryptLoop]
    rw [addRoundKey_ok l xk hs i (by omega)]
    exact ih (i + 1) _ (by omega)

theorem encryptBlock_total (l : Nat) (xk : List (List Nat)) (hs : IsSchedule l xk) (hl : 2 ≤ l)
    (b0 b1 b2 b3 : Nat) :
    ∃ c : Words, encryptBlock xk [b0, b1, b2, b3] = .ok [c.t0, c.t1, c.t2, c.t3] := by
  obtain ⟨t1, h1⟩ := encryptLoop_total l xk hs (l - 2) 1
    ((⟨b0, b1, b2, b3⟩ : Words).xor (roundKey xk 0)) (by omega)
  refine ⟨(shiftRows (t1.map (subWord sBox))).xor (roundKey xk (l - 1)), ?_⟩
  unfold encryptBlock
  have hload : loadWords [b0, b1, b2, b3] = .ok ⟨b0, b1, b2, b3⟩ := rfl
  simp only [hload, ok_bind, hs.1]
  rw [addRoundKey_ok l xk hs 0 (by omega)]
  simp only [ok_bind, h1]
  rw [addRoundKey_ok l xk hs (l - 1) (by omega)]
  rfl

theorem bePutUint32_length (v : Nat) : (bePutUint32 v).length = 4 := rfl

/-- A cipher with a well-formed forward schedule encrypts every 16-byte source, and what
it stores depends on the source alone. -/
theorem aesCipher_computes (l : Nat) (c : aesCipher) (hs : IsSchedule l c.enc) (hl : 2 ≤ l) :
    c.toBlock.Computes c.encryptFn := by
  have key : ∀ src : List Nat, src.length = 16 → ∃ B : List Nat, B.length = 16 ∧
      ∀ dst : List Nat, 16 ≤ dst.length → c.Encrypt dst src = .ok (B ++ dst.drop 16) := by
    intro src hsrc
    obtain ⟨a0, a1, a2, a3, a4, a5, a6, a7, a8, a9, a10, a11, a12, a13, a14, a15, rfl⟩ :=
      list_length_16 src hsrc
    obtain ⟨w, hw⟩ := encryptBlock_total l c.enc hs hl (pack4 a0 a1 a2 a3) (pack4 a4 a5 a6 a7)
      (pack4 a8 a9 a10 a11) (pack4 a12 a13 a14 a15)
    refine ⟨bePutUint32 w.t0 ++ bePutUint32 w.t1 ++ bePutUint32 w.t2 ++ bePutUint32 w.t3, ?_, ?_⟩
    · simp only [List.length_append, bePutUint32_length]
    · intro dst hdst
      unfold aesCipher.Encrypt
      rw [if_neg (by simp only [List.length_cons, List.length_nil]; omega), loadBlock_bytes]
      simp only [ok_bind, hw, storeBlock_eq]
  have hfn : ∀ src : List Nat, src.length = 16 → ∀ B : List Nat, B.length = 16 →
      (∀ dst : List Nat, 16 ≤ dst.length → c.Encrypt dst src = .ok (B ++ dst.drop 16)) →
      c.encryptFn src = B := by
    intro src _ B hB h
    unfold aesCipher.encryptFn
    rw [h (List.replicate 16 0) (by simp)]
    show (B ++ List.drop 16 (List.replicate 16 0)).take 16 = B
    rw [List.take_append_of_le_length (by omega), List.take_of_length_le (by omega)]
  constructor
  · intro x hx
    obtain ⟨B, hB, h⟩ := key x hx
    rw [hfn x hx B hB h]
    exact hB
  · intro dst src hd hsrc
    obtain ⟨B, hB, h⟩ := key src hsrc
    rw [hfn src hsrc B hB h]
    exact h dst hd

end aes

theorem getD_flatten (L : List (List Nat)) (m : Nat) (hm : 0 < m) (hL : ∀ x ∈ L, x.length = m)
    (j : Nat) : L.flatten.getD j 0 = (L.getD (j / m) []).getD (j % m) 0 := by
  induction L generalizing j with
  | nil => simp
  | cons x L ih =>
    have hx : x.length = m := hL x (List.mem_cons_self _ _)
    rw [List.flatten_cons]
    by_cases hj : j < m
    · rw [List.getD_append _ _ _ _ (by omega), Nat.div_eq_of_lt hj, Nat.mod_eq_of_lt hj,
        List.getD_cons_zero]
    · have h1 : j / m = (j - m) / m + 1 := by
        have : j = (j - m) + m := by omega
        conv => lhs; rw [this]
        exact Nat.add_div_right _ hm
      have h2 : j % m = (j - m) % m := by
        have : j = (j - m) + m := by omega
        conv => lhs; rw [this]
        exact Nat.add_mod_right _ _
      rw [List.getD_append_right _ _ _ _ (by omega), hx,
        ih (fun y hy => hL y (List.mem_cons_of_mem _ hy)), h1, h2, List.getD_cons_succ]

theorem getD_map_range (f : Nat → List Nat) (n k : Nat) (hk : k < n) :
    ((List.range n).map f).getD k [] = f k := by
  rw [List.getD_eq_getElem _ _ (by simp; exact hk)]
  simp

theorem xorList_length (a b : List Nat) : (ctr.xorList a b).length = min a.length b.length := by
  unfold ctr.xorList
  simp

theorem xorList_getD (a b : List Nat) (j : Nat) (ha : j < a.length) (hb : j < b.length) :
    (ctr.xorList a b).getD j 0 = a.getD j 0 ^^^ b.getD j 0 := by
  unfold ctr.xorList
  rw [List.getD_eq_getElem _ _ (by simp; omega), List.getD_eq_getElem _ _ ha,
    List.getD_eq_getElem _ _ hb]
  simp

namespace ctr

/-- A run of `runCTR` XORs its input with the keystream blocks of the key and the IV. -/
theorem runCTR_of_blocks (key iv src : List Nat) (n : Nat) (Ks : List (List Nat))
    (hlen : key.length = 16 ∨ key.length = 24 ∨ key.length = 32) (hkb : ∀ x ∈ key, x < 256)
    (hiv : iv.length = 16) (hivb : ∀ x ∈ iv, x < 256)
    (hKs : keystreamBlocks key iv n = .ok Ks) (hsrc : src.length ≤ 16 * n) :
    runCTR key iv src = .ok (xorList src Ks.flatten) := by
  obtain ⟨c, hc, hk⟩ := aes.NewCipher_ok key hlen hkb
  have hE := aes.aesCipher_computes _ c hk.2.1 (by have := hk.1; omega)
  have hbs : 1 ≤ c.toBlock.BlockSize := by
    show 1 ≤ 16
    omega
  have hiv2 : iv.length = c.toBlock.BlockSize := hiv
  have hKs2 : Ks = (List.range n).map (fun k => c.encryptFn (counterAdd iv k)) := by
    unfold keystreamBlocks at hKs
    rw [hc] at hKs
    exact (Except.ok.inj hKs).symm
  have hall : ∀ x ∈ Ks, x.length = 16 := by
    intro x hx
    rw [hKs2, List.mem_map] at hx
    obtain ⟨k, _, rfl⟩ := hx
    exact hE.1 _ (by rw [counterAdd_length]; exact hiv2)
  have hjl : Ks.flatten.length = 16 * n := by
    rw [hKs2]
    clear hKs hKs2 hall hsrc
    induction n with
    | zero => rfl
    | succ n ih =>
      rw [List.range_succ, List.map_append, List.flatten_append, List.length_append, ih]
      simp only [List.map_cons, List.map_nil, List.flatten_cons, List.flatten_nil, List.append_nil]
      rw [hE.1 _ (by rw [counterAdd_length]; exact hiv2)]
      show 16 * n + 16 = 16 * (n + 1)
      omega
  obtain ⟨s0, s1, out, h0, h1, _, h3, h4⟩ := XORKeyStream_fresh c.toBlock c.encryptFn iv src
    (List.replicate src.length 0) (512 + src.length) hbs hE hiv2 hivb
    (by rw [List.length_replicate]) (Nat.le_refl _)
  unfold runCTR
  rw [hc]
  simp only [ok_bind]
  rw [h0]
  simp only [ok_bind]
  rw [h1]
  show Except.ok out = _
  apply congrArg
  apply ext_getD
  · rw [h3, List.length_replicate, xorList_length, hjl]; omega
  · intro j hj
    rw [h3, List.length_replicate] at hj
    rw [h4, if_pos hj, xorList_getD _ _ _ hj (by rw [hjl]; omega),
      getD_flatten Ks 16 (by norm_num) hall, hKs2,
      getD_map_range _ _ _ (by omega)]
    unfold keystream
    rw [hiv]

theorem keystreamBlocks_AES128 :
    keystreamBlocks commonKey128 commonCounter 4 = .ok ksAES128 := by
  decide!

theorem keystreamBlocks_AES192 :
    keystreamBlocks commonKey192 commonCounter 4 = .ok ksAES192 := by
  decide!

theorem keystreamBlocks_AES256 :
    keystreamBlocks commonKey256 commonCounter 4 = .ok ksAES256 := by
  decide!

/-- The four runs of `Test_ctr_XORKeyStream` for one row of `ctrAESTests`, from the four
keystream blocks of the row. -/
theorem runCTR_all (key out : List Nat) (Ks : List (List Nat))
    (hlen : key.length = 16 ∨ key.length = 24 ∨ key.length = 32) (hkb : ∀ x ∈ key, x < 256)
    (hKs : keystreamBlocks key commonCounter 4 = .ok Ks)
    (h1 : xorList commonInput Ks.flatten = out)
    (h2 : xorList out Ks.flatten = commonInput)
    (h3 : xorList (commonInput.take 59) Ks.flatten = out.take 59)
    (h4 : xorList (out.take 57) Ks.flatten = commonInput.take 57) :
    runCTR key commonCounter commonInput = .ok out ∧
    runCTR key commonCounter out = .ok commonInput ∧
    runCTR key commonCounter (commonInput.take 59) = .ok (out.take 59) ∧
    runCTR key commonCounter (out.take 57) = .ok (commonInput.take 57) := by
  have hout : out.length ≤ 64 := by
    rw [← h1, xorList_length]
    exact Nat.le_trans (Nat.min_le_left _ _) (by decide)
  refine ⟨?_, ?_, ?_, ?_⟩
  · rw [← h1]
    exact runCTR_of_blocks key commonCounter _ 4 Ks hlen hkb (by decide) (by decide) hKs
      (by decide)
  · rw [← h2]
    exact runCTR_of_blocks key commonCounter _ 4 Ks hlen hkb (by decide) (by decide) hKs
      (by omega)
  · rw [← h3]
    exact runCTR_of_blocks key commonCounter _ 4 Ks hlen hkb (by decide) (by decide) hKs
      (by decide)
  · rw [← h4]
    exact runCTR_of_blocks key commonCounter _ 4 Ks hlen hkb (by decide) (by decide) hKs
      (by rw [List.length_take]; omega)

end ctr

/-! ## The counter, the DES subkeys and the inverse AES schedule -/

namespace ctr

theorem incLoop_length (i : Nat) (c : List Nat) : (incLoop i c).length = c.length := by
  induction i generalizing c with
  | zero => rfl
  | succ i ih =>
    unfold incLoop
    by_cases h : u8 (c.getD i 0 + 1) ≠ 0
    · simp only [if_pos h, List.length_set]
    · simp only [if_neg h, ih, List.length_set]

theorem incLoop_all_ff (n : Nat) : incLoop n (List.replicate n 255) = List.replicate n 0 := by
  induction n with
  | zero => rfl
  | succ n ih =>
    have hset : (List.replicate (n + 1) 255).set n 0 = List.replicate n 255 ++ [0] := by
      rw [List.replicate_succ', List.set_append_right _ _ (by simp)]
      simp
    have hget : (List.replicate (n + 1) 255).getD n 0 = 255 := by
      rw [getD_replicate, if_pos (Nat.lt_succ_self n)]
    unfold incLoop
    have hv : u8 ((List.replicate (n + 1) 255).getD n 0 + 1) = 0 := by rw [hget]; rfl
    simp only [hv, ne_eq, not_true_eq_false, if_false]
    rw [hset, incLoop_append n _ _ (by simp), ih, ← List.replicate_succ']

theorem refillLoop_step (block : Block) (bs fuel remain : Nat) (out c d : List Nat)
    (h : (remain : Int) ≤ (out.length : Int) - bs)
    (hd : block.Encrypt (out.drop remain) c = .ok d) :
    refillLoop block bs (fuel + 1) remain out c
      = refillLoop block bs fuel (remain + bs) (out.take remain ++ d) (incLoop c.length c) := by
  rw [refillLoop, if_pos h, hd]
  rfl

end ctr

namespace des

theorem validTable_permutedChoice2 : ValidTable permutedChoice2 56 := by
  unfold ValidTable; decide

theorem newSubKeysLoop_spec (i : Nat) (rots : List Nat) (l r : Nat) (subKeys : List Nat)
    (hb : ∀ x ∈ subKeys, x < 281474976710656) :
    (newSubKeysLoop i rots l r subKeys).length = subKeys.length ∧
      ∀ x ∈ newSubKeysLoop i rots l r subKeys, x < 281474976710656 := by
  induction rots generalizing i l r subKeys with
  | nil => exact ⟨rfl, hb⟩
  | cons n rest ih =>
    unfold newSubKeysLoop
    have hp : ∀ k, permute k permutedChoice2 56 < 281474976710656 := fun k =>
      permute_lt k permutedChoice2 56 (by decide) (by decide) (by decide)
        validTable_permutedChoice2
    obtain ⟨h1, h2⟩ := ih (i + 1)
      ((u32 (l <<< n) ||| l >>> (28 - n)) &&& 0xfffffff)
      ((u32 (r <<< n) ||| r >>> (28 - n)) &&& 0xfffffff)
      (subKeys.set i (permute (u64 (((u32 (l <<< n) ||| l >>> (28 - n)) &&& 0xfffffff) <<< 28)
        ||| (u32 (r <<< n) ||| r >>> (28 - n)) &&& 0xfffffff) permutedChoice2 56))
      (by
        intro x hx
        rcases List.mem_or_eq_of_mem_set hx with h | h
        · exact hb x h
        · rw [h]; exact hp _)
    exact ⟨by rw [h1, List.length_set], h2⟩

theorem newSubKeys_spec (k : Nat) :
    (newSubKeys k).length = 16 ∧ ∀ x ∈ newSubKeys k, x < 281474976710656 := by
  unfold newSubKeys
  obtain ⟨h1, h2⟩ := newSubKeysLoop_spec 0 leftRotations
    (u32 (permute k permutedChoice1 64 >>> 28)) (u32 (permute k permutedChoice1 64 &&& 0xfffffff))
    (List.replicate 16 0) (by decide)
  exact ⟨by rw [h1]; rfl, h2⟩

end des

namespace aes

theorem NewCipher_expandKey (key : List Nat) (c : aesCipher) (h : NewCipher key = .ok c) :
    expandKey key (zeroSchedule (key.length / 4 + 7)) (some (zeroSchedule (key.length / 4 + 7)))
      = .ok (c.enc, some c.dec) := by
  unfold NewCipher at h
  by_cases hl : key.length = 16 ∨ key.length = 24 ∨ key.length = 32
  · rw [if_pos hl] at h
    change (expandKey key (zeroSchedule (key.length / 4 + 7))
      (some (zeroSchedule (key.length / 4 + 7))) >>= _) = _ at h
    cases hr : expandKey key (zeroSchedule (key.length / 4 + 7))
      (some (zeroSchedule (key.length / 4 + 7))) with
    | error e => rw [hr] at h; cases h
    | ok r =>
      rw [hr, ok_bind] at h
      obtain ⟨enc, d⟩ := r
      cases d with
      | none => cases h
      | some dec =>
        have h2 : (⟨enc, dec⟩ : aesCipher) = c := Except.ok.inj h
        rw [← h2]
  · rw [if_neg hl] at h
    cases h

theorem row_ext (a b : List Nat) (ha : a.length = 4) (hb : b.length = 4)
    (h : ∀ j < 4, a.getD j 0 = b.getD j 0) : a = b := by
  apply ext_getD a b (by rw [ha, hb])
  intro j hj
  exact h j (by omega)

end aes

/-! ## Block calls: aborts and frames -/

theorem bind_ok_inv {α β : Type} (x : Except Fault α) (f : α → Except Fault β) (r : β)
    (h : (x >>= f) = .ok r) : ∃ a, x = .ok a ∧ f a = .ok r := by
  cases x with
  | error e => cases h
  | ok a => exact ⟨a, rfl, h⟩

theorem list_ge_16 (p : List Nat) (hp : 16 ≤ p.length) :
    ∃ a0 a1 a2 a3 a4 a5 a6 a7 a8 a9 a10 a11 a12 a13 a14 a15 rest,
      p = a0 :: a1 :: a2 :: a3 :: a4 :: a5 :: a6 :: a7 :: a8 :: a9 :: a10 :: a11 :: a12 ::
        a13 :: a14 :: a15 :: rest := by
  obtain ⟨a0, a1, a2, a3, a4, a5, a6, a7, a8, a9, a10, a11, a12, a13, a14, a15, h⟩ :=
    list_length_16 (p.take 16) (by rw [List.length_take]; omega)
  refine ⟨a0, a1, a2, a3, a4, a5, a6, a7, a8, a9, a10, a11, a12, a13, a14, a15, p.drop 16, ?_⟩
  have := List.take_append_drop 16 p
  rw [h] at this
  exact this.symm

theorem list_ge_8 (p : List Nat) (hp : 8 ≤ p.length) :
    ∃ a0 a1 a2 a3 a4 a5 a6 a7 rest, p = a0 :: a1 :: a2 :: a3 :: a4 :: a5 :: a6 :: a7 :: rest := by
  obtain ⟨a0, a1, a2, a3, a4, a5, a6, a7, h⟩ :=
    list_length_8 (p.take 8) (by rw [List.length_take]; omega)
  refine ⟨a0, a1, a2, a3, a4, a5, a6, a7, p.drop 8, ?_⟩
  have := List.take_append_drop 8 p
  rw [h] at this
  exact this.symm

theorem readThen_ok {α : Type} (dst : List Nat) (a : α) (k : α → Outcome (List Nat)) :
    readThen dst (.ok a) k = k a := rfl

theorem readThen_error {α : Type} (dst : List Nat) (e : Fault) (k : α → Outcome (List Nat)) :
    readThen dst (.error e : Except Fault α) k = ⟨dst, some e⟩ := rfl

theorem result_ok {σ : Type} (m : σ) : (⟨m, none⟩ : Outcome σ).result = .ok m := rfl

theorem result_error {σ : Type} (m : σ) (e : Fault) :
    (⟨m, some e⟩ : Outcome σ).result = .error e := rfl

namespace aes

theorem storeBlockMem_eq (dst : List Nat) (hd : 16 ≤ dst.length) (c0 c1 c2 c3 : Nat) :
    storeBlockMem dst [c0, c1, c2, c3]
      = ⟨bePutUint32 c0 ++ bePutUint32 c1 ++ bePutUint32 c2 ++ bePutUint32 c3 ++ dst.drop 16,
          none⟩ := by
  obtain ⟨a0, a1, a2, a3, a4, a5, a6, a7, a8, a9, a10, a11, a12, a13, a14, a15, rest, rfl⟩ :=
    list_ge_16 dst hd
  rfl

theorem encryptBlock_shape (xk : List (List Nat)) (b r : List Nat)
    (h : encryptBlock xk b = .ok r) : ∃ c0 c1 c2 c3, r = [c0, c1, c2, c3] := by
  unfold encryptBlock at h
  obtain ⟨t, _, h⟩ := bind_ok_inv _ _ _ h
  obtain ⟨t1, _, h⟩ := bind_ok_inv _ _ _ h
  obtain ⟨t2, _, h⟩ := bind_ok_inv _ _ _ h
  obtain ⟨t3, _, h⟩ := bind_ok_inv _ _ _ h
  exact ⟨_, _, _, _, (Except.ok.inj h).symm⟩

theorem decryptBlock_shape (xk : List (List Nat)) (b r : List Nat)
    (h : decryptBlock xk b = .ok r) : ∃ c0 c1 c2 c3, r = [c0, c1, c2, c3] := by
  unfold decryptBlock at h
  obtain ⟨t, _, h⟩ := bind_ok_inv _ _ _ h
  obtain ⟨t1, _, h⟩ := bind_ok_inv _ _ _ h
  obtain ⟨t2, _, h⟩ := bind_ok_inv _ _ _ h
  obtain ⟨t3, _, h⟩ := bind_ok_inv _ _ _ h
  exact ⟨_, _, _, _, (Except.ok.inj h).symm⟩

theorem decryptLoop_total (l : Nat) (xk : List (List Nat)) (hs : IsSchedule l xk) (n i : Nat)
    (t : Words) (hn : i + n ≤ l) : ∃ t1, decryptLoop xk n i t = .ok t1 := by
  induction n generalizing i t with
  | zero => exact ⟨t, rfl⟩
  | succ n ih =>
    simp only [decryptLoop]
    rw [addRoundKey_ok l xk hs i (by omega)]
    exact ih (i + 1) _ (by omega)

theorem decryptBlock_total (l : Nat) (xk : List (List Nat)) (hs : IsSchedule l xk) (hl : 2 ≤ l)
    (b0 b1 b2 b3 : Nat) :
    ∃ c : Words, decryptBlock xk [b0, b1, b2, b3] = .ok [c.t0, c.t1, c.t2, c.t3] := by
  obtain ⟨t1, h1⟩ := decryptLoop_total l xk hs (l - 2) 1
    ((⟨b0, b1, b2, b3⟩ : Words).xor (roundKey xk 0)) (by omega)
  refine ⟨(invShiftRows (t1.map (subWord inverseSBox))).xor (roundKey xk (l - 1)), ?_⟩
  unfold decryptBlock
  have hload : loadWords [b0, b1, b2, b3] = .ok ⟨b0, b1, b2, b3⟩ := rfl
  simp only [hload, ok_bind, hs.1]
  rw [addRoundKey_ok l xk hs 0 (by omega)]
  simp only [ok_bind, h1]
  rw [addRoundKey_ok l xk hs (l - 1) (by omega)]
  rfl

theorem bodyMem_result (f : List Nat → Except Fault (List Nat))
    (hf : ∀ b r, f b = .ok r → ∃ c0 c1 c2 c3, r = [c0, c1, c2, c3]) (dst src : List Nat) :
    (if dst.length ≤ 15 ∨ src.length ≤ 15 then (⟨dst, some Fault.panic⟩ : Outcome (List Nat))
      else readThen dst (loadBlock src) fun b => readThen dst (f b) fun b1 =>
        storeBlockMem dst b1).result
      = (if dst.length ≤ 15 ∨ src.length ≤ 15 then throw Fault.panic
        else do let b ← loadBlock src; let b1 ← f b; storeBlock dst b1) := by
  by_cases h : dst.length ≤ 15 ∨ src.length ≤ 15
  · rw [if_pos h, if_pos h]; rfl
  · rw [if_neg h, if_neg h]
    have hd : 16 ≤ dst.length := by omega
    cases hl : loadBlock src with
    | error e => rw [readThen_error, result_error, error_bind]
    | ok b =>
      rw [readThen_ok, ok_bind]
      cases hb : f b with
      | error e => rw [readThen_error, result_error, error_bind]
      | ok b1 =>
        obtain ⟨c0, c1, c2, c3, rfl⟩ := hf b b1 hb
        rw [readThen_ok, ok_bind, storeBlockMem_eq dst hd, storeBlock_eq, result_ok]

theorem bodyMem_fault (f : List Nat → Except Fault (List Nat))
    (hf : ∀ b r, f b = .ok r → ∃ c0 c1 c2 c3, r = [c0, c1, c2, c3]) (dst src : List Nat)
    (h : (if dst.length ≤ 15 ∨ src.length ≤ 15
        then (⟨dst, some Fault.panic⟩ : Outcome (List Nat))
      else readThen dst (loadBlock src) fun b => readThen dst (f b) fun b1 =>
        storeBlockMem dst b1).fault ≠ none) :
    (if dst.length ≤ 15 ∨ src.length ≤ 15 then (⟨dst, some Fault.panic⟩ : Outcome (List Nat))
      else readThen dst (loadBlock src) fun b => readThen dst (f b) fun b1 =>
        storeBlockMem dst b1).mem = dst := by
  by_cases hs : dst.length ≤ 15 ∨ src.length ≤ 15
  · rw [if_pos hs]
  · rw [if_neg hs] at h ⊢
    have hd : 16 ≤ dst.length := by omega
    cases hl : loadBlock src with
    | error e => rw [readThen_error]
    | ok b =>
      rw [hl, readThen_ok] at h
      rw [readThen_ok]
      cases hb : f b with
      | error e => rw [readThen_error]
      | ok b1 =>
        exfalso
        obtain ⟨c0, c1, c2, c3, rfl⟩ := hf b b1 hb
        rw [hb, readThen_ok, storeBlockMem_eq dst hd] at h
        exact h rfl

/-- On buffers of at least 16 bytes the body shared by `Encrypt` and `Decrypt` returns,
and what it stores is a function of the first 16 bytes of `src`. -/
theorem body_frame (f : List Nat → Except Fault (List Nat))
    (hf : ∀ b0 b1 b2 b3, ∃ c : Words, f [b0, b1, b2, b3] = .ok [c.t0, c.t1, c.t2, c.t3])
    (src : List Nat) (hs : 16 ≤ src.length) :
    ∃ B : List Nat, B.length = 16 ∧
      ∀ dst src1 : List Nat, 16 ≤ dst.length → 16 ≤ src1.length → src1.take 16 = src.take 16 →
        (if dst.length ≤ 15 ∨ src1.length ≤ 15 then throw Fault.panic
          else do let b ← loadBlock src1; let b1 ← f b; storeBlock dst b1)
          = .ok (B ++ dst.drop 16) := by
  obtain ⟨a0, a1, a2, a3, a4, a5, a6, a7, a8, a9, a10, a11, a12, a13, a14, a15, rest, rfl⟩ :=
    list_ge_16 src hs
  obtain ⟨w, hw⟩ := hf (pack4 a0 a1 a2 a3) (pack4 a4 a5 a6 a7)
    (pack4 a8 a9 a10 a11) (pack4 a12 a13 a14 a15)
  refine ⟨bePutUint32 w.t0 ++ bePutUint32 w.t1 ++ bePutUint32 w.t2 ++ bePutUint32 w.t3, ?_, ?_⟩
  · simp only [List.length_append, bePutUint32_length]
  · intro dst src1 hd hs1 htake
    obtain ⟨b0, b1, b2, b3, b4, b5, b6, b7, b8, b9, b10, b11, b12, b13, b14, b15, rest1, rfl⟩ :=
      list_ge_16 src1 hs1
    simp only [List.take_succ_cons, List.take_zero, List.cons.injEq, and_true] at htake
    obtain ⟨rfl, rfl, rfl, rfl, rfl, rfl, rfl, rfl, rfl, rfl, rfl, rfl, rfl, rfl, rfl, rfl⟩ :=
      htake
    rw [if_neg (by simp only [List.length_cons]; omega), loadBlock_bytes]
    simp only [ok_bind, hw, storeBlock_eq]

end aes

theorem writesBlock_of (bs : Nat) (call : List Nat → List Nat → Except Fault (List Nat))
    (F : List Nat → List Nat) (dst src : List Nat) (hd : bs ≤ dst.length)
    (hF : (F (src.take bs)).length = bs)
    (hcall : call dst src = .ok (F (src.take bs) ++ dst.drop bs)) :
    WritesBlock bs call F dst src := by
  refine ⟨hF, hcall, ?_⟩
  intro r hr
  rw [hcall] at hr
  have e : F (src.take bs) ++ dst.drop bs = r := Except.ok.inj hr
  subst e
  refine ⟨?_, ?_, ?_⟩
  · rw [List.length_append, List.length_drop, hF]; omega
  · rw [List.take_append_of_le_length (by omega), List.take_of_length_le (by omega)]
  · intro i hi
    rw [List.getD_append_right _ _ _ _ (by omega), getD_drop, hF]
    congr 1
    omega

theorem abortsIffShort_of (bs : Nat) (call : List Nat → List Nat → Except Fault (List Nat))
    (callMem : List Nat → List Nat → Outcome (List Nat)) (dst src : List Nat)
    (hres : (callMem dst src).result = call dst src)
    (hshort : (dst.length < bs ∨ src.length < bs) → call dst src = .error Fault.panic)
    (hlong : ¬ (dst.length < bs ∨ src.length < bs) → ∃ r, call dst src = .ok r)
    (hmem : (callMem dst src).fault ≠ none → (callMem dst src).mem = dst) :
    AbortsIffShort bs call callMem dst src := by
  refine ⟨hres, ⟨?_, fun h => ⟨_, hshort h⟩⟩, hshort, hmem⟩
  rintro ⟨e, he⟩
  by_contra h
  obtain ⟨r, hr⟩ := hlong h
  rw [hr] at he
  cases he

namespace aes

theorem body_short (f : List Nat → Except Fault (List Nat)) (dst src : List Nat)
    (h : dst.length < 16 ∨ src.length < 16) :
    (if dst.length ≤ 15 ∨ src.length ≤ 15 then throw Fault.panic
      else do let b ← loadBlock src; let b1 ← f b; storeBlock dst b1 : Except Fault (List Nat))
      = .error Fault.panic := by
  rw [if_pos (by omega)]
  rfl

theorem encryptFn_eq (c : aesCipher) (x B : List Nat) (hB : B.length = 16)
    (h : c.Encrypt (List.replicate 16 0) x = .ok (B ++ (List.replicate 16 0).drop 16)) :
    c.encryptFn x = B := by
  unfold aesCipher.encryptFn
  rw [h]
  show (B ++ List.drop 16 (List.replicate 16 0)).take 16 = B
  rw [List.take_append_of_le_length (by omega), List.take_of_length_le (by omega)]

theorem decryptFn_eq (c : aesCipher) (x B : List Nat) (hB : B.length = 16)
    (h : c.Decrypt (List.replicate 16 0) x = .ok (B ++ (List.replicate 16 0).drop 16)) :
    c.decryptFn x = B := by
  unfold aesCipher.decryptFn
  rw [h]
  show (B ++ List.drop 16 (List.replicate 16 0)).take 16 = B
  rw [List.take_append_of_le_length (by omega), List.take_of_length_le (by omega)]

theorem take16_take16 (src : List Nat) : (src.take 16).take 16 = src.take 16 := by
  rw [List.take_take, Nat.min_self]

/-- For a cipher with well-formed schedules: the abort behaviour and the frame of
`Encrypt` and `Decrypt`. -/
theorem aesCipher_contract (l : Nat) (c : aesCipher) (hse : IsSchedule l c.enc)
    (hsd : IsSchedule l c.dec) (hl : 2 ≤ l) (dst src : List Nat) :
    AbortsIffShort 16 c.Encrypt c.EncryptMem dst src ∧
    AbortsIffShort 16 c.Decrypt c.DecryptMem dst src ∧
    (16 ≤ dst.length → 16 ≤ src.length →
      WritesBlock 16 c.Encrypt c.encryptFn dst src ∧
      WritesBlock 16 c.Decrypt c.decryptFn dst src) := by
  have hE := encryptBlock_total l c.enc hse hl
  have hD := decryptBlock_total l c.dec hsd hl
  have frameE : ∀ dst src : List Nat, 16 ≤ dst.length → 16 ≤ src.length →
      (c.encryptFn (src.take 16)).length = 16 ∧
        c.Encrypt dst src = .ok (c.encryptFn (src.take 16) ++ dst.drop 16) := by
    intro dst src hd hs
    obtain ⟨B, hB, h⟩ := body_frame (encryptBlock c.enc) hE src hs
    have e : c.encryptFn (src.take 16) = B :=
      encryptFn_eq c _ B hB (h (List.replicate 16 0) (src.take 16) (by simp)
        (by rw [List.length_take]; omega) (take16_take16 src))
    rw [e]
    exact ⟨hB, h dst src hd hs rfl⟩
  have frameD : ∀ dst src : List Nat, 16 ≤ dst.length → 16 ≤ src.length →
      (c.decryptFn (src.take 16)).length = 16 ∧
        c.Decrypt dst src = .ok (c.decryptFn (src.take 16) ++ dst.drop 16) := by
    intro dst src hd hs
    obtain ⟨B, hB, h⟩ := body_frame (decryptBlock c.dec) hD src hs
    have e : c.decryptFn (src.take 16) = B :=
      decryptFn_eq c _ B hB (h (List.replicate 16 0) (src.take 16) (by simp)
        (by rw [List.length_take]; omega) (take16_take16 src))
    rw [e]
    exact ⟨hB, h dst src hd hs rfl⟩
  refine ⟨?_, ?_, ?_⟩
  · apply abortsIffShort_of
    · exact bodyMem_result (encryptBlock c.enc) (encryptBlock_shape c.enc) dst src
    · exact body_short (encryptBlock c.enc) dst src
    · intro h
      exact ⟨_, (frameE dst src (by omega) (by omega)).2⟩
    · exact bodyMem_fault (encryptBlock c.enc) (encryptBlock_shape c.enc) dst src
  · apply abortsIffShort_of
    · exact bodyMem_result (decryptBlock c.dec) (decryptBlock_shape c.dec) dst src
    · exact body_short (decryptBlock c.dec) dst src
    · intro h
      exact ⟨_, (frameD dst src (by omega) (by omega)).2⟩
    · exact bodyMem_fault (decryptBlock c.dec) (decryptBlock_shape c.dec) dst src
  · intro hd hs
    exact ⟨writesBlock_of 16 _ _ dst src hd (frameE dst src hd hs).1 (frameE dst src hd hs).2,
      writesBlock_of 16 _ _ dst src hd (frameD dst src hd hs).1 (frameD dst src hd hs).2⟩

end aes

theorem beUint64_total (p : List Nat) (hp : 8 ≤ p.length) : ∃ w, beUint64 p = .ok w := by
  obtain ⟨a0, a1, a2, a3, a4, a5, a6, a7, rest, rfl⟩ := list_ge_8 p hp
  exact ⟨_, rfl⟩

namespace des

theorem bePutUint64_len (v : Nat) : (bePutUint64 v).length = 8 := rfl

/-- The abort behaviour and the frame of the body shared by the four DES calls. -/
theorem crypt_contract (f : Nat → Nat) (dst src : List Nat) :
    AbortsIffShort 8
      (fun dst src => if dst.length ≤ 7 ∨ src.length ≤ 7 then throw Fault.panic
        else do
          let b ← beUint64 (src.take 8)
          pure (bePutUint64 (f b) ++ dst.drop 8))
      (cryptMem f) dst src ∧
    (8 ≤ dst.length → 8 ≤ src.length →
      WritesBlock 8
        (fun dst src => if dst.length ≤ 7 ∨ src.length ≤ 7 then throw Fault.panic
          else do
            let b ← beUint64 (src.take 8)
            pure (bePutUint64 (f b) ++ dst.drop 8))
        (blockFn f) dst src) := by
  have frame : 8 ≤ dst.length → 8 ≤ src.length →
      (blockFn f (src.take 8)).length = 8 ∧
      (if dst.length ≤ 7 ∨ src.length ≤ 7 then throw Fault.panic
        else do
          let b ← beUint64 (src.take 8)
          pure (bePutUint64 (f b) ++ dst.drop 8) : Except Fault (List Nat))
        = .ok (blockFn f (src.take 8) ++ dst.drop 8) := by
    intro hd hs
    obtain ⟨w, hw⟩ := beUint64_total (src.take 8) (by rw [List.length_take]; omega)
    have e : blockFn f (src.take 8) = bePutUint64 (f w) := by
      unfold blockFn
      rw [List.take_take, Nat.min_self, hw]
    rw [e]
    exact ⟨rfl, crypt_bytes f dst src w hd hs hw⟩
  refine ⟨?_, ?_⟩
  · apply abortsIffShort_of
    · show (cryptMem f dst src).result = _
      unfold cryptMem
      by_cases h : dst.length ≤ 7 ∨ src.length ≤ 7
      · rw [if_pos h, if_pos h]; rfl
      · rw [if_neg h, if_neg h]
        cases hb : beUint64 (src.take 8) with
        | error e => rw [readThen_error, result_error, error_bind]
        | ok b => rw [readThen_ok, result_ok, ok_bind]; rfl
    · intro h
      show (if dst.length ≤ 7 ∨ src.length ≤ 7 then throw Fault.panic
        else do
          let b ← beUint64 (src.take 8)
          pure (bePutUint64 (f b) ++ dst.drop 8) : Except Fault (List Nat)) = _
      rw [if_pos (by omega)]
      rfl
    · intro h
      exact ⟨_, (frame (by omega) (by omega)).2⟩
    · unfold cryptMem
      by_cases h : dst.length ≤ 7 ∨ src.length ≤ 7
      · rw [if_pos h]; intro _; rfl
      · rw [if_neg h]
        cases hb : beUint64 (src.take 8) with
        | error e => rw [readThen_error]; intro _; rfl
        | ok b => rw [readThen_ok]; intro h2; exact absurd rfl h2
  · intro hd hs
    exact writesBlock_of 8 _ _ dst src hd (frame hd hs).1 (frame hd hs).2

end des

/-! ## CTR: a reachable stream never faults past the length check -/

theorem noopBlock_encryptSucceeds (n : Nat) : (noopBlock n).EncryptSucceeds := by
  intro dst src hd hs
  refine ⟨copyBytes dst src, rfl, ?_⟩
  unfold copyBytes
  rw [List.length_append, List.length_take, List.length_drop]
  omega

namespace ctr

theorem refillLoop_run (block : Block) (hE : block.EncryptSucceeds) (fuel remain : Nat)
    (out c : List Nat) (hc : c.length = block.BlockSize) (hrem : remain ≤ out.length) :
    (refillLoop block block.BlockSize fuel remain out c = .error Fault.outOfFuel ∧
        (fuel + 1) * block.BlockSize + remain ≤ out.length) ∨
      ∃ remain1 out1 c1,
        refillLoop block block.BlockSize fuel remain out c = .ok (remain1, out1, c1) ∧
        out1.length = out.length ∧ remain1 ≤ out.length ∧
        out.length < remain1 + block.BlockSize ∧ c1.length = block.BlockSize := by
  induction fuel generalizing remain out c with
  | zero =>
    by_cases hcnd : (remain : Int) ≤ (out.length : Int) - block.BlockSize
    · left
      refine ⟨?_, by omega⟩
      simp only [refillLoop]
      rw [if_pos hcnd]
      rfl
    · right
      refine ⟨remain, out, c, ?_, rfl, hrem, by omega, hc⟩
      simp only [refillLoop]
      rw [if_neg hcnd]
      rfl
  | succ fuel ih =>
    by_cases hcnd : (remain : Int) ≤ (out.length : Int) - block.BlockSize
    · obtain ⟨d, hd, hdl⟩ := hE (out.drop remain) c (by rw [List.length_drop]; omega)
        (by omega)
      have hlen1 : (out.take remain ++ d).length = out.length := by
        rw [List.length_append, List.length_take, hdl, List.length_drop]
        omega
      have hstep : refillLoop block block.BlockSize (fuel + 1) remain out c
          = refillLoop block block.BlockSize fuel (remain + block.BlockSize)
              (out.take remain ++ d) (incLoop c.length c) :=
        refillLoop_step block block.BlockSize fuel remain out c d hcnd hd
      have hmul : (fuel + 1 + 1) * block.BlockSize
          = (fuel + 1) * block.BlockSize + block.BlockSize := by
        rw [Nat.add_mul, Nat.one_mul]
      rcases ih (remain + block.BlockSize) (out.take remain ++ d) (incLoop c.length c)
        (by rw [incLoop_length]; exact hc) (by rw [hlen1]; omega) with h | h
      · left
        rw [hlen1] at h
        exact ⟨by rw [hstep]; exact h.1, by omega⟩
      · right
        obtain ⟨remain1, out1, c1, h1, h2, h3, h4, h5⟩ := h
        rw [hlen1] at h2 h3 h4
        exact ⟨remain1, out1, c1, by rw [hstep]; exact h1, h2, h3, h4, h5⟩
    · right
      refine ⟨remain, out, c, ?_, rfl, hrem, by omega, hc⟩
      simp only [refillLoop]
      rw [if_neg hcnd]
      rfl

theorem refill_run (block : Block) (hE : block.EncryptSucceeds) (fuel : Nat) (s : ctrStream)
    (hs : s.Inv block) :
    (s.refill fuel = .error Fault.outOfFuel ∧ (fuel + 1) * block.BlockSize ≤ s.out.length) ∨
      ∃ s1, s.refill fuel = .ok s1 ∧ s1.Inv block ∧ s1.outUsed = 0 ∧
        s1.out.length < s1.outLen + block.BlockSize := by
  obtain ⟨hb, hctr, hcap, hused, hlen⟩ := hs
  have hl1 : (((s.out.take s.outLen).drop s.outUsed) ++ s.out.drop (s.outLen - s.outUsed)).length
      = s.out.length := by
    simp only [List.length_append, List.length_take, List.length_drop]
    omega
  have hdef : s.refill fuel
      = (refillLoop s.block s.block.BlockSize fuel (s.outLen - s.outUsed)
          (((s.out.take s.outLen).drop s.outUsed) ++ s.out.drop (s.outLen - s.outUsed)) s.ctr
        >>= fun r => pure ⟨s.block, r.2.2, r.2.1, r.1, 0⟩) := by
    unfold ctrStream.refill
    rw [if_neg (by omega)]
  rw [hdef, hb]
  rcases refillLoop_run block hE fuel (s.outLen - s.outUsed)
    (((s.out.take s.outLen).drop s.outUsed) ++ s.out.drop (s.outLen - s.outUsed)) s.ctr hctr
    (by rw [hl1]; omega) with h | h
  · left
    rw [hl1] at h
    exact ⟨by rw [h.1]; rfl, by omega⟩
  · right
    obtain ⟨remain1, out1, c1, h1, h2, h3, h4, h5⟩ := h
    rw [hl1] at h2 h3 h4
    refine ⟨⟨block, c1, out1, remain1, 0⟩, by rw [h1]; rfl, ⟨rfl, h5, ?_, Nat.zero_le _, ?_⟩,
      rfl, ?_⟩
    · show out1.length = _
      rw [h2, hcap]
    · show remain1 ≤ out1.length
      omega
    · show out1.length < remain1 + block.BlockSize
      omega

end ctr

namespace ctr

theorem xorKeyStreamLoop_run (block : Block) (hE : block.EncryptSucceeds)
    (hbs : 1 ≤ block.BlockSize) (fuel n : Nat) (s : ctrStream) (dst src : List Nat)
    (hs : s.Inv block) (hlen : src.length ≤ dst.length) :
    (xorKeyStreamLoop fuel n s dst src = .error Fault.outOfFuel ∧
        ((fuel + 1) * block.BlockSize ≤ max 512 block.BlockSize ∨ n < src.length)) ∨
      ∃ s1 d, xorKeyStreamLoop fuel n s dst src = .ok (s1, d) ∧ s1.Inv block ∧
        d.length = dst.length := by
  induction n generalizing s dst src with
  | zero =>
    match src, hlen with
    | [], _ => exact Or.inr ⟨s, dst, by simp only [xorKeyStreamLoop]; rfl, hs, rfl⟩
    | x :: xs, _ =>
      exact Or.inl ⟨by simp only [xorKeyStreamLoop]; rfl, Or.inr (by simp)⟩
  | succ n ih =>
    match src, hlen with
    | [], _ => exact Or.inr ⟨s, dst, by simp only [xorKeyStreamLoop]; rfl, hs, rfl⟩
    | x :: xs, hlen =>
      have hstep : ((if (s.outUsed : Int) ≥ (s.outLen : Int) - s.block.BlockSize
            then s.refill fuel else pure s) = .error Fault.outOfFuel ∧
            (fuel + 1) * block.BlockSize ≤ max 512 block.BlockSize) ∨
          ∃ s1, (if (s.outUsed : Int) ≥ (s.outLen : Int) - s.block.BlockSize
            then s.refill fuel else pure s) = .ok s1 ∧ s1.Inv block ∧
            s1.outUsed < s1.outLen := by
        by_cases hc : (s.outUsed : Int) ≥ (s.outLen : Int) - s.block.BlockSize
        · rcases refill_run block hE fuel s hs with h | h
          · left
            rw [hs.2.2.1] at h
            exact ⟨by rw [if_pos hc]; exact h.1, h.2⟩
          · right
            obtain ⟨s1, h1, h2, h3, h4⟩ := h
            have := h2.2.2.1
            exact ⟨s1, by rw [if_pos hc]; exact h1, h2, by omega⟩
        · right
          refine ⟨s, by rw [if_neg hc]; rfl, hs, ?_⟩
          rw [hs.1] at hc
          omega
      rcases hstep with h | h
      · left
        refine ⟨?_, Or.inl h.2⟩
        simp only [xorKeyStreamLoop]
        rw [h.1]
        rfl
      · obtain ⟨s1, hs1eq, hs1, havail⟩ := h
        obtain ⟨hb, hctr, hcap, hused, hlen1⟩ := hs1
        have hsl : ((s1.out.take s1.outLen).drop s1.outUsed).length
            = s1.outLen - s1.outUsed := by
          simp only [List.length_drop, List.length_take]; omega
        obtain ⟨dst1, hx1, hx2, _⟩ := xorBytes_spec dst (x :: xs)
          ((s1.out.take s1.outLen).drop s1.outUsed) (by rw [hsl]; omega)
        rw [hsl] at hx1
        generalize hr : min (x :: xs).length (s1.outLen - s1.outUsed) = r at hx1
        have hr1 : 1 ≤ r := by rw [← hr]; simp only [List.length_cons]; omega
        have hr2 : r ≤ (x :: xs).length := by rw [← hr]; omega
        have hr3 : s1.outUsed + r ≤ s1.outLen := by rw [← hr]; omega
        have hunf : xorKeyStreamLoop fuel (n + 1) s dst (x :: xs)
            = (xorKeyStreamLoop fuel n { s1 with outUsed := s1.outUsed + r }
                (dst1.drop r) ((x :: xs).drop r)
              >>= fun rest => pure (rest.1, dst1.take r ++ rest.2)) := by
          simp only [xorKeyStreamLoop]
          rw [hs1eq]
          simp only [ok_bind]
          rw [if_neg (by omega)]
          simp only [pure_eq_ok, ok_bind]
          rw [hx1]
          simp only [ok_bind]
        rw [hunf]
        rcases ih { s1 with outUsed := s1.outUsed + r } (dst1.drop r) ((x :: xs).drop r)
          ⟨hb, hctr, hcap, hr3, hlen1⟩ (by simp only [List.length_drop]; omega) with h | h
        · left
          refine ⟨by rw [h.1]; rfl, ?_⟩
          rcases h.2 with h2 | h2
          · exact Or.inl h2
          · right
            simp only [List.length_drop] at h2
            omega
        · right
          obtain ⟨s2, d2, h1, h2, h3⟩ := h
          refine ⟨s2, dst1.take r ++ d2, by rw [h1]; rfl, h2, ?_⟩
          rw [List.length_append, List.length_take, h3, List.length_drop, hx2]
          omega

theorem fuel_enough (bs fuel : Nat) (hbs : 1 ≤ bs) (hfuel : 512 ≤ fuel) :
    ¬ ((fuel + 1) * bs ≤ max 512 bs) := by
  have h1 : 513 * bs ≤ (fuel + 1) * bs := Nat.mul_le_mul_right _ (by omega)
  omega

theorem XORKeyStream_run (block : Block) (hE : block.EncryptSucceeds)
    (hbs : 1 ≤ block.BlockSize) (fuel : Nat) (s : ctrStream) (dst src : List Nat)
    (hs : s.Inv block) :
    (dst.length < src.length ∧ s.XORKeyStream fuel dst src = .error Fault.panic) ∨
    (src.length ≤ dst.length ∧ s.XORKeyStream fuel dst src = .error Fault.outOfFuel ∧
      fuel < 512 + src.length) ∨
    (src.length ≤ dst.length ∧ ∃ s1 d, s.XORKeyStream fuel dst src = .ok (s1, d) ∧
      s1.Inv block ∧ d.length = dst.length) := by
  by_cases h : dst.length < src.length
  · left
    refine ⟨h, ?_⟩
    unfold ctrStream.XORKeyStream
    rw [if_pos h]
    rfl
  · right
    have hdef : s.XORKeyStream fuel dst src = xorKeyStreamLoop fuel fuel s dst src := by
      unfold ctrStream.XORKeyStream
      rw [if_neg h]
    rw [hdef]
    rcases xorKeyStreamLoop_run block hE hbs fuel fuel s dst src hs (by omega) with h1 | h1
    · left
      refine ⟨by omega, h1.1, ?_⟩
      by_contra hf
      rcases h1.2 with h2 | h2
      · exact fuel_enough block.BlockSize fuel hbs (by omega) h2
      · omega
    · right
      exact ⟨by omega, h1⟩

theorem reachable_inv (block : Block) (hE : block.EncryptSucceeds)
    (hbs : 1 ≤ block.BlockSize) (s : ctrStream) (hs : ctrStream.Reachable block s) :
    s.Inv block := by
  induction hs with
  | fresh iv s h =>
    unfold NewCTR at h
    by_cases hiv : iv.length ≠ block.BlockSize
    · rw [if_pos hiv] at h
      cases h
    · rw [if_neg hiv] at h
      have e : (⟨block, iv, List.replicate
          (if 512 < block.BlockSize then block.BlockSize else 512) 0, 0, 0⟩ : ctrStream) = s :=
        Except.ok.inj h
      subst e
      refine ⟨rfl, by simpa using hiv, ?_, Nat.le_refl _, Nat.zero_le _⟩
      show (List.replicate (if 512 < block.BlockSize then block.BlockSize else 512) 0).length = _
      rw [List.length_replicate]
      split <;> omega
  | step fuel s s1 dst src dst1 _ hrun ih =>
    rcases XORKeyStream_run block hE hbs fuel s dst src ih with h | h | h
    · rw [h.2] at hrun
      cases hrun
    · rw [h.2.1] at hrun
      cases hrun
    · obtain ⟨_, s2, d, h1, h2, _⟩ := h
      rw [h1] at hrun
      have e : (s2, d) = (s1, dst1) := Except.ok.inj hrun
      have e1 : s2 = s1 := congrArg Prod.fst e
      rw [← e1]
      exact h2

theorem XORKeyStreamMem_result (fuel : Nat) (s : ctrStream) (dst src : List Nat) :
    (s.XORKeyStreamMem fuel dst src).result
      = (s.XORKeyStream fuel dst src >>= fun r => pure (some r)) := by
  unfold ctrStream.XORKeyStreamMem ctrStream.XORKeyStream
  by_cases h : dst.length < src.length
  · rw [if_pos h, if_pos h]
    rfl
  · rw [if_neg h, if_neg h]
    cases xorKeyStreamLoop fuel fuel s dst src with
    | error e => rfl
    | ok r => rfl

theorem XORKeyStreamMem_fault (fuel : Nat) (s : ctrStream) (dst src : List Nat)
    (h : dst.length < src.length) :
    s.XORKeyStreamMem fuel dst src = ⟨some (s, dst), some Fault.panic⟩ := by
  unfold ctrStream.XORKeyStreamMem
  rw [if_pos h]

end ctr

/-! ## DES: equal key parts, parity bits -/

theorem and_hi_lo (a b c d k : Nat) (hb : b < 2 ^ k) (hd : d < 2 ^ k) :
    (a * 2 ^ k + b) &&& (c * 2 ^ k + d) = (a &&& c) * 2 ^ k + (b &&& d) := by
  apply Nat.eq_of_testBit_eq
  intro i
  have hbd : b &&& d < 2 ^ k := Nat.lt_of_le_of_lt Nat.and_le_left hb
  rw [Nat.testBit_and, Nat.mul_comm a, Nat.mul_comm c, Nat.mul_comm (a &&& c),
    Nat.testBit_mul_pow_two_add a hb, Nat.testBit_mul_pow_two_add c hd,
    Nat.testBit_mul_pow_two_add (a &&& c) hbd]
  by_cases h : i < k <;> simp [h]

theorem and_byte (a b c d : Nat) (hb : b < 256) (hd : d < 256) :
    (a * 256 + b) &&& (c * 256 + d) = (a &&& c) * 256 + (b &&& d) :=
  and_hi_lo a b c d 8 hb hd

theorem and_fe_lt (b : Nat) (hb : b < 256) : b &&& 254 < 256 :=
  Nat.lt_of_le_of_lt Nat.and_le_left hb

/-- Clearing the parity bit of every byte of a 64-bit word. -/
theorem pack8_and_mask (b0 b1 b2 b3 b4 b5 b6 b7 : Nat)
    (h1 : b1 < 256) (h2 : b2 < 256) (h3 : b3 < 256) (h4 : b4 < 256) (h5 : b5 < 256)
    (h6 : b6 < 256) (h7 : b7 < 256) :
    pack8 b0 b1 b2 b3 b4 b5 b6 b7 &&& 0xFEFEFEFEFEFEFEFE
      = pack8 (b0 &&& 254) (b1 &&& 254) (b2 &&& 254) (b3 &&& 254) (b4 &&& 254) (b5 &&& 254)
          (b6 &&& 254) (b7 &&& 254) := by
  have e1 : pack8 b0 b1 b2 b3 b4 b5 b6 b7
      = ((((((b0 * 256 + b1) * 256 + b2) * 256 + b3) * 256 + b4) * 256 + b5) * 256 + b6) * 256
          + b7 := by
    unfold pack8; omega
  have e2 : (0xFEFEFEFEFEFEFEFE : Nat)
      = ((((((254 * 256 + 254) * 256 + 254) * 256 + 254) * 256 + 254) * 256 + 254) * 256 + 254)
          * 256 + 254 := by norm_num
  have e3 : pack8 (b0 &&& 254) (b1 &&& 254) (b2 &&& 254) (b3 &&& 254) (b4 &&& 254) (b5 &&& 254)
        (b6 &&& 254) (b7 &&& 254)
      = (((((((b0 &&& 254) * 256 + (b1 &&& 254)) * 256 + (b2 &&& 254)) * 256 + (b3 &&& 254)) * 256
          + (b4 &&& 254)) * 256 + (b5 &&& 254)) * 256 + (b6 &&& 254)) * 256 + (b7 &&& 254) := by
    unfold pack8; omega
  have l254 : (254 : Nat) < 256 := by norm_num
  rw [e1, e2, e3, and_byte _ _ _ _ h7 l254, and_byte _ _ _ _ h6 l254, and_byte _ _ _ _ h5 l254,
    and_byte _ _ _ _ h4 l254, and_byte _ _ _ _ h3 l254, and_byte _ _ _ _ h2 l254,
    and_byte _ _ _ _ h1 l254]

namespace des

theorem validTable_permutedChoice1 : ValidTable permutedChoice1 64 := by
  unfold ValidTable; decide

theorem permutedChoice1_skips_parity :
    ∀ i < 56, (0xFEFEFEFEFEFEFEFE : Nat).testBit (64 - permutedChoice1.getD (56 - 1 - i) 0)
      = true := by decide!

theorem permute_choice1_mask (k : Nat) :
    permute (k &&& 0xFEFEFEFEFEFEFEFE) permutedChoice1 64 = permute k permutedChoice1 64 := by
  apply Nat.eq_of_testBit_eq
  intro i
  rw [permute_testBit _ _ 64 (by decide) (by decide) (by decide) validTable_permutedChoice1,
    permute_testBit _ _ 64 (by decide) (by decide) (by decide) validTable_permutedChoice1]
  by_cases h : i < permutedChoice1.length
  · have hm := permutedChoice1_skips_parity i h
    have e : permutedChoice1.length = 56 := rfl
    rw [e] at h ⊢
    rw [Nat.testBit_and, hm, Bool.and_true]
  · simp only [h, decide_False, Bool.false_and]

theorem newSubKeys_mask (k : Nat) :
    newSubKeys (k &&& 0xFEFEFEFEFEFEFEFE) = newSubKeys k := by
  unfold newSubKeys
  rw [permute_choice1_mask]

end des

namespace des

theorem NewCipher_pack8 (a0 a1 a2 a3 a4 a5 a6 a7 : Nat)
    (h1 : a1 < 256) (h2 : a2 < 256) (h3 : a3 < 256) (h4 : a4 < 256) (h5 : a5 < 256)
    (h6 : a6 < 256) (h7 : a7 < 256) :
    NewCipher [a0, a1, a2, a3, a4, a5, a6, a7]
      = .ok ⟨newSubKeys (pack8 a0 a1 a2 a3 a4 a5 a6 a7)⟩ := by
  unfold NewCipher
  rw [if_neg (by simp), beUint64_eq _ _ _ _ _ _ _ _ _ h1 h2 h3 h4 h5 h6 h7]
  rfl

/-- Two 8-byte keys that agree outside the least significant bit of every byte give the
same cipher. -/
theorem NewCipher_parity (key1 key2 : List Nat) (hl1 : key1.length = 8) (hl2 : key2.length = 8)
    (hb1 : ∀ x ∈ key1, x < 256) (hb2 : ∀ x ∈ key2, x < 256)
    (h : ∀ i < 8, key1.getD i 0 &&& 0xFE = key2.getD i 0 &&& 0xFE) :
    NewCipher key1 = NewCipher key2 := by
  obtain ⟨a0, a1, a2, a3, a4, a5, a6, a7, rfl⟩ := list_length_8 key1 hl1
  obtain ⟨b0, b1, b2, b3, b4, b5, b6, b7, rfl⟩ := list_length_8 key2 hl2
  simp only [List.mem_cons, List.mem_singleton, forall_eq_or_imp, forall_eq,
    List.not_mem_nil, false_implies, implies_true, and_true] at hb1 hb2
  obtain ⟨_, ha1, ha2, ha3, ha4, ha5, ha6, ha7⟩ := hb1
  obtain ⟨_, hc1, hc2, hc3, hc4, hc5, hc6, hc7⟩ := hb2
  have e0 : a0 &&& 254 = b0 &&& 254 := h 0 (by norm_num)
  have e1 : a1 &&& 254 = b1 &&& 254 := h 1 (by norm_num)
  have e2 : a2 &&& 254 = b2 &&& 254 := h 2 (by norm_num)
  have e3 : a3 &&& 254 = b3 &&& 254 := h 3 (by norm_num)
  have e4 : a4 &&& 254 = b4 &&& 254 := h 4 (by norm_num)
  have e5 : a5 &&& 254 = b5 &&& 254 := h 5 (by norm_num)
  have e6 : a6 &&& 254 = b6 &&& 254 := h 6 (by norm_num)
  have e7 : a7 &&& 254 = b7 &&& 254 := h 7 (by norm_num)
  rw [NewCipher_pack8 _ _ _ _ _ _ _ _ ha1 ha2 ha3 ha4 ha5 ha6 ha7,
    NewCipher_pack8 _ _ _ _ _ _ _ _ hc1 hc2 hc3 hc4 hc5 hc6 hc7,
    ← newSubKeys_mask (pack8 a0 a1 a2 a3 a4 a5 a6 a7),
    ← newSubKeys_mask (pack8 b0 b1 b2 b3 b4 b5 b6 b7),
    pack8_and_mask _ _ _ _ _ _ _ _ ha1 ha2 ha3 ha4 ha5 ha6 ha7,
    pack8_and_mask _ _ _ _ _ _ _ _ hc1 hc2 hc3 hc4 hc5 hc6 hc7,
    e0, e1, e2, e3, e4, e5, e6, e7]

/-- The body shared by the DES calls depends on the block transform only through its
values on 64-bit words. -/
theorem crypt_congr (f g : Nat → Nat) (hfg : ∀ w, w < 18446744073709551616 → f w = g w)
    (dst src : List Nat) (hsb : ∀ x ∈ src, x < 256) :
    (if dst.length ≤ 7 ∨ src.length ≤ 7 then throw Fault.panic
      else do
        let b ← beUint64 (src.take 8)
        pure (bePutUint64 (f b) ++ dst.drop 8) : Except Fault (List Nat))
    = (if dst.length ≤ 7 ∨ src.length ≤ 7 then throw Fault.panic
      else do
        let b ← beUint64 (src.take 8)
        pure (bePutUint64 (g b) ++ dst.drop 8)) := by
  by_cases h : dst.length ≤ 7 ∨ src.length ≤ 7
  · rw [if_pos h, if_pos h]
  · rw [if_neg h, if_neg h]
    obtain ⟨w, hw, hwlt, _⟩ := beUint64_ok (src.take 8) (by rw [List.length_take]; omega)
      (fun x hx => hsb x (List.mem_of_mem_take hx))
    rw [hw]
    simp only [ok_bind, hfg w hwlt]

/-- When the first two DES ciphers of a Triple-DES cipher have the same subkeys, the
Triple-DES calls are the calls of the third DES cipher. -/
theorem tripleDES_collapse (c : tripleDESCipher) (h12 : c.cipher1.subKeys = c.cipher2.subKeys)
    (dst src : List Nat) (hsb : ∀ x ∈ src, x < 256) :
    c.Encrypt dst src = c.cipher3.Encrypt dst src ∧
      c.Decrypt dst src = c.cipher3.Decrypt dst src := by
  constructor
  · exact crypt_congr _ (encryptBlock c.cipher3.subKeys) (fun w hw => by
      show encryptBlock c.cipher3.subKeys (decryptBlock c.cipher2.subKeys
        (encryptBlock c.cipher1.subKeys w)) = _
      rw [h12, desDecrypt_encrypt _ _ hw]) dst src hsb
  · exact crypt_congr _ (decryptBlock c.cipher3.subKeys) (fun w hw => by
      show decryptBlock c.cipher1.subKeys (encryptBlock c.cipher2.subKeys
        (decryptBlock c.cipher3.subKeys w)) = _
      rw [h12, desDecrypt_encrypt _ _ (decryptBlock_lt _ _)]) dst src hsb

/-- The Triple-DES cipher of the key `ka ++ ka ++ kc` and the DES cipher of `kc`. -/
theorem NewTripleDESCipher_aab (ka kc : List Nat) (hka : ka.length = 8) (hkc : kc.length = 8)
    (hab : ∀ x ∈ ka, x < 256) (hcb : ∀ x ∈ kc, x < 256) :
    ∃ c c3, NewTripleDESCipher (ka ++ ka ++ kc) = .ok c ∧ NewCipher kc = .ok c3 ∧
      c.cipher1.subKeys = c.cipher2.subKeys ∧ c.cipher3 = c3 := by
  have hb : ∀ x ∈ ka ++ ka ++ kc, x < 256 := by
    intro x hx
    simp only [List.mem_append] at hx
    rcases hx with (hx | hx) | hx
    · exact hab x hx
    · exact hab x hx
    · exact hcb x hx
  obtain ⟨k1, k2, k3, h1, h2, h3, hc⟩ := NewTripleDESCipher_ok (ka ++ ka ++ kc)
    (by simp only [List.length_append]; omega) hb
  have t1 : (ka ++ ka ++ kc).take 8 = ka := by
    rw [List.append_assoc, List.take_append_of_le_length (by omega),
      List.take_of_length_le (by omega)]
  have t2 : ((ka ++ ka ++ kc).take 16).drop 8 = ka := by
    rw [List.take_append_of_le_length (by simp only [List.length_append]; omega),
      List.take_of_length_le (by simp only [List.length_append]; omega),
      List.drop_append_of_le_length (by omega), List.drop_of_length_le (by omega),
      List.nil_append]
  have t3 : (ka ++ ka ++ kc).drop 16 = kc := by
    rw [List.drop_append_eq_append_drop, List.drop_of_length_le
      (by simp only [List.length_append]; omega), List.nil_append]
    simp only [List.length_append, hka]
    rfl
  rw [t1] at h1
  rw [t2] at h2
  rw [t3] at h3
  generalize newSubKeys k1 = sk1 at hc h1
  generalize newSubKeys k2 = sk2 at hc h2
  generalize newSubKeys k3 = sk3 at hc h3
  rw [h1] at h2
  have e12 : sk1 = sk2 := congrArg desCipher.subKeys (Except.ok.inj h2)
  exact ⟨⟨⟨sk1⟩, ⟨sk2⟩, ⟨sk3⟩⟩, ⟨sk3⟩, hc, h3, e12, rfl⟩

end des

/-! ## AES: `gmul` is the product of GF(2^8) -/

theorem xor_shiftLeft (a b k : Nat) : (a ^^^ b) <<< k = a <<< k ^^^ b <<< k := by
  apply Nat.eq_of_testBit_eq
  intro i
  simp only [Nat.testBit_shiftLeft, Nat.testBit_xor]
  by_cases h : k ≤ i <;> simp [h]

theorem xor_xor_xor_comm (a b c d : Nat) : (a ^^^ b) ^^^ (c ^^^ d) = (a ^^^ c) ^^^ (b ^^^ d) := by
  ac_rfl

/-- Two XOR-linear maps that agree on every power of two below `2 ^ n` agree on every
number below `2 ^ n`. -/
theorem xor_linear_ext (f g : Nat → Nat) (hf : ∀ x y, f (x ^^^ y) = f x ^^^ f y)
    (hg : ∀ x y, g (x ^^^ y) = g x ^^^ g y) (n : Nat)
    (hbasis : ∀ i < n, f (2 ^ i) = g (2 ^ i)) : ∀ w < 2 ^ n, f w = g w := by
  have hf0 : f 0 = 0 := by
    have := hf 0 0
    simp only [Nat.xor_self] at this
    exact this
  have hg0 : g 0 = 0 := by
    have := hg 0 0
    simp only [Nat.xor_self] at this
    exact this
  induction n with
  | zero =>
    intro w hw
    have : w = 0 := by simpa using hw
    rw [this, hf0, hg0]
  | succ n ih =>
    intro w hw
    have hlo : w % 2 ^ n < 2 ^ n := Nat.mod_lt _ (Nat.two_pow_pos n)
    have hsplit : w = (w / 2 ^ n * 2 ^ n) ^^^ (w % 2 ^ n) := by
      have := xor_hi_lo (w / 2 ^ n) 0 0 (w % 2 ^ n) n (Nat.two_pow_pos n) hlo
      simp only [Nat.add_zero, Nat.zero_mul, Nat.zero_add, Nat.xor_zero, Nat.zero_xor] at this
      rw [this]
      have := Nat.div_add_mod w (2 ^ n)
      rw [Nat.mul_comm] at this
      exact this.symm
    have hhi : w / 2 ^ n < 2 := by
      rw [Nat.div_lt_iff_lt_mul (Nat.two_pow_pos n)]
      rw [Nat.pow_succ] at hw
      omega
    have hfhi : f (w / 2 ^ n * 2 ^ n) = g (w / 2 ^ n * 2 ^ n) := by
      rcases Nat.lt_succ_iff_lt_or_eq.mp hhi with h | h
      · rw [Nat.lt_one_iff.mp h, Nat.zero_mul, hf0, hg0]
      · rw [h, Nat.one_mul, hbasis n (Nat.lt_succ_self n)]
    rw [hsplit, hf, hg, hfhi, ih (fun i hi => hbasis i (Nat.lt_succ_of_lt hi)) _ hlo]

namespace aes

theorem and_128_xor (x y : Nat) :
    ((x ^^^ y) &&& 0x80 ≠ 0) ↔ ¬ ((x &&& 0x80 ≠ 0) ↔ (y &&& 0x80 ≠ 0)) := by
  have e : (0x80 : Nat) = 2 ^ 7 := by norm_num
  have key : ∀ z : Nat, (z &&& 2 ^ 7 ≠ 0) ↔ z.testBit 7 = true := by
    intro z
    rw [Nat.and_comm, two_pow_and_ne_zero]
  rw [e, key, key, key, Nat.testBit_xor]
  cases x.testBit 7 <;> cases y.testBit 7 <;> simp

/-- The doubling step of `gmul` is linear over XOR. -/
theorem xtime_xor (x y : Nat) :
    (if (x ^^^ y) &&& 0x80 ≠ 0 then u8 ((x ^^^ y) <<< 1) ^^^ 0x1b else u8 ((x ^^^ y) <<< 1))
      = (if x &&& 0x80 ≠ 0 then u8 (x <<< 1) ^^^ 0x1b else u8 (x <<< 1))
        ^^^ (if y &&& 0x80 ≠ 0 then u8 (y <<< 1) ^^^ 0x1b else u8 (y <<< 1)) := by
  have hxy := and_128_xor x y
  rw [xor_shiftLeft, u8_xor]
  by_cases hx : x &&& 0x80 ≠ 0 <;> by_cases hy : y &&& 0x80 ≠ 0
  · rw [if_neg (by rw [hxy]; simp [hx, hy]), if_pos hx, if_pos hy, xor_xor_xor_comm,
      Nat.xor_self, Nat.xor_zero]
  · rw [if_pos (by rw [hxy]; simp [hx, hy]), if_pos hx, if_neg hy, Nat.xor_assoc,
      Nat.xor_comm (u8 (y <<< 1)), ← Nat.xor_assoc]
  · rw [if_pos (by rw [hxy]; simp [hx, hy]), if_neg hx, if_pos hy, Nat.xor_assoc]
  · rw [if_neg (by rw [hxy]; simp [hx, hy]), if_neg hx, if_neg hy]

/-- The loop of `gmul` is linear in its first operand and its accumulator. -/
theorem gmulLoop_xor_left (n a a1 b p q : Nat) :
    gmulLoop n (a ^^^ a1) b (p ^^^ q) = gmulLoop n a b p ^^^ gmulLoop n a1 b q := by
  induction n generalizing a a1 b p q with
  | zero => rfl
  | succ n ih =>
    simp only [gmulLoop]
    rw [← ih, xtime_xor]
    congr 1
    by_cases hb : b &&& 1 ≠ 0
    · rw [if_pos hb, if_pos hb, if_pos hb, xor_xor_xor_comm]
    · rw [if_neg hb, if_neg hb, if_neg hb]

theorem gmul_xor_left (a a1 b : Nat) : gmul (a ^^^ a1) b = gmul a b ^^^ gmul a1 b := by
  have := gmulLoop_xor_left 8 a a1 b 0 0
  simpa [gmul] using this

theorem carrylessMul_xor_left (a a1 b n : Nat) :
    carrylessMul (a ^^^ a1) b n = carrylessMul a b n ^^^ carrylessMul a1 b n := by
  induction n with
  | zero => simp [carrylessMul]
  | succ n ih =>
    simp only [carrylessMul]
    rw [ih, xor_shiftLeft]
    by_cases hb : b.testBit n = true
    · rw [if_pos hb, if_pos hb, if_pos hb, xor_xor_xor_comm]
    · rw [if_neg hb, if_neg hb, if_neg hb, Nat.xor_zero, Nat.xor_zero, Nat.xor_zero]

theorem carrylessMul_xor_right (a b b1 n : Nat) :
    carrylessMul a (b ^^^ b1) n = carrylessMul a b n ^^^ carrylessMul a b1 n := by
  induction n with
  | zero => simp [carrylessMul]
  | succ n ih =>
    simp only [carrylessMul]
    rw [ih, Nat.testBit_xor]
    cases b.testBit n <;> cases b1.testBit n
    · simp
    · simp only [Bool.false_bne, if_true, Bool.false_eq_true, if_false, Nat.xor_zero]
      rw [Nat.xor_assoc]
    · simp only [Bool.bne_false, if_true, Bool.false_eq_true, if_false, Nat.xor_zero]
      rw [Nat.xor_assoc, Nat.xor_comm (carrylessMul a b1 n), ← Nat.xor_assoc]
    · simp only [bne_self_eq_false, Bool.false_eq_true, if_false, if_true, Nat.xor_zero]
      rw [xor_xor_xor_comm, Nat.xor_self, Nat.xor_zero]

theorem reduce11b_xor (n u v : Nat) :
    reduce11b n (u ^^^ v) = reduce11b n u ^^^ reduce11b n v := by
  induction n generalizing u v with
  | zero => rfl
  | succ n ih =>
    simp only [reduce11b]
    rw [← ih, Nat.testBit_xor]
    congr 1
    cases u.testBit (8 + n) <;> cases v.testBit (8 + n)
    · simp
    · simp only [Bool.false_bne, if_true, Bool.false_eq_true, if_false]
      rw [Nat.xor_assoc]
    · simp only [Bool.bne_false, if_true, Bool.false_eq_true, if_false]
      ac_rfl
    · simp only [bne_self_eq_false, Bool.false_eq_true, if_false, if_true]
      rw [xor_xor_xor_comm, Nat.xor_self, Nat.xor_zero]

theorem gf256Mul_xor_left (a a1 b : Nat) :
    gf256Mul (a ^^^ a1) b = gf256Mul a b ^^^ gf256Mul a1 b := by
  unfold gf256Mul
  rw [carrylessMul_xor_left, reduce11b_xor]

theorem gf256Mul_xor_right (a b b1 : Nat) :
    gf256Mul a (b ^^^ b1) = gf256Mul a b ^^^ gf256Mul a b1 := by
  unfold gf256Mul
  rw [carrylessMul_xor_right, reduce11b_xor]

/-- Two maps of two bytes, each XOR-linear in each argument, that agree on the pairs of
powers of two agree on all pairs of bytes. -/
theorem bilinear_ext (f g : Nat → Nat → Nat)
    (hfl : ∀ x y b, f (x ^^^ y) b = f x b ^^^ f y b)
    (hfr : ∀ a x y, f a (x ^^^ y) = f a x ^^^ f a y)
    (hgl : ∀ x y b, g (x ^^^ y) b = g x b ^^^ g y b)
    (hgr : ∀ a x y, g a (x ^^^ y) = g a x ^^^ g a y)
    (hbasis : ∀ i < 8, ∀ j < 8, f (2 ^ i) (2 ^ j) = g (2 ^ i) (2 ^ j))
    (a b : Nat) (ha : a < 256) (hb : b < 256) : f a b = g a b := by
  have h1 : ∀ i < 8, f (2 ^ i) b = g (2 ^ i) b := by
    intro i hi
    exact xor_linear_ext (f (2 ^ i)) (g (2 ^ i)) (hfr _) (hgr _) 8 (hbasis i hi) b hb
  exact xor_linear_ext (fun x => f x b) (fun x => g x b) (fun x y => hfl x y b)
    (fun x y => hgl x y b) 8 h1 a ha

theorem gmul_gf256Mul_basis :
    ∀ i < 8, ∀ j < 8, gmul (2 ^ i) (2 ^ j) = gf256Mul (2 ^ i) (2 ^ j) := by decide!

theorem gmul_comm_basis :
    ∀ i < 8, ∀ j < 8, gmul (2 ^ i) (2 ^ j) = gmul (2 ^ j) (2 ^ i) := by decide!

theorem gmul_one_basis : ∀ j < 8, gmul 1 (2 ^ j) = 2 ^ j := by decide!

theorem gmul_assoc_basis : ∀ i < 8, ∀ j < 8, ∀ k < 8,
    gmul (gmul (2 ^ i) (2 ^ j)) (2 ^ k) = gmul (2 ^ i) (gmul (2 ^ j) (2 ^ k)) := by decide!

/-- The function `gmul` is the product of GF(2^8). -/
theorem gmul_eq_gf256Mul (a b : Nat) (ha : a < 256) (hb : b < 256) :
    gmul a b = gf256Mul a b :=
  bilinear_ext gmul gf256Mul gmul_xor_left gmul_xor gf256Mul_xor_left gf256Mul_xor_right
    gmul_gf256Mul_basis a b ha hb

theorem gmul_comm (a b : Nat) (ha : a < 256) (hb : b < 256) : gmul a b = gmul b a :=
  bilinear_ext gmul (fun x y => gmul y x) gmul_xor_left gmul_xor
    (fun x y b => gmul_xor b x y) (fun a x y => gmul_xor_left x y a)
    gmul_comm_basis a b ha hb

theorem gmul_one_left (b : Nat) (hb : b < 256) : gmul 1 b = b :=
  xor_linear_ext (gmul 1) id (gmul_xor 1) (fun _ _ => rfl) 8 gmul_one_basis b hb

theorem gmul_assoc (a b c : Nat) (ha : a < 256) (hb : b < 256) (hc : c < 256) :
    gmul (gmul a b) c = gmul a (gmul b c) := by
  have h1 : ∀ i < 8, ∀ j < 8, gmul (gmul (2 ^ i) (2 ^ j)) c = gmul (2 ^ i) (gmul (2 ^ j) c) := by
    intro i hi j hj
    exact xor_linear_ext (fun z => gmul (gmul (2 ^ i) (2 ^ j)) z)
      (fun z => gmul (2 ^ i) (gmul (2 ^ j) z)) (fun x y => gmul_xor _ x y)
      (fun x y => by simp only [gmul_xor]) 8 (gmul_assoc_basis i hi j hj) c hc
  exact bilinear_ext (fun x y => gmul (gmul x y) c) (fun x y => gmul x (gmul y c))
    (fun x y b => by simp only [gmul_xor_left])
    (fun a x y => by simp only [gmul_xor, gmul_xor_left])
    (fun x y b => by simp only [gmul_xor_left])
    (fun a x y => by simp only [gmul_xor, gmul_xor_left])
    h1 a b ha hb

/-- A byte has at most one inverse for `gmul`. -/
theorem gmul_inverse_unique (x y z : Nat) (hx : x < 256) (hy : y < 256) (hz : z < 256)
    (h1 : gmul x y = 1) (h2 : gmul x z = 1) : z = y := by
  have e := gmul_assoc y x z hy hx hz
  rw [gmul_comm y x hy hx, h1, h2, gmul_one_left z hz, gmul_comm y 1 hy (by norm_num),
    gmul_one_left y hy] at e
  exact e

theorem sBox_is_affine_of_inverse : ∀ x < 256, 0 < x →
    gmul x ((fun s => rotl8 s 1 ^^^ rotl8 s 3 ^^^ rotl8 s 6 ^^^ 5) (sBox x)) = 1 ∧
    sBoxAffine ((fun s => rotl8 s 1 ^^^ rotl8 s 3 ^^^ rotl8 s 6 ^^^ 5) (sBox x)) = sBox x ∧
    (fun s => rotl8 s 1 ^^^ rotl8 s 3 ^^^ rotl8 s 6 ^^^ 5) (sBox x) < 256 := by decide!

end aes

/-! ## CTR: the refill check, termination, and splitting the input -/

namespace ctr

theorem xorKeyStreamLoop_cons (fuel n : Nat) (s : ctrStream) (dst : List Nat) (x : Nat)
    (xs : List Nat) :
    xorKeyStreamLoop fuel (n + 1) s dst (x :: xs)
      = (do
          let s1 ← s.refillCheck fuel
          if s1.outLen < s1.outUsed then throw Fault.panic
          else do
            let r ← xorBytes dst (x :: xs) ((s1.out.take s1.outLen).drop s1.outUsed)
            let rest ← xorKeyStreamLoop fuel n { s1 with outUsed := s1.outUsed + r.2 }
              (r.1.drop r.2) ((x :: xs).drop r.2)
            pure (rest.1, r.1.take r.2 ++ rest.2)) := by
  rw [xorKeyStreamLoop]
  rfl

theorem refillCheck_le (fuel : Nat) (s : ctrStream)
    (h : s.outLen - s.outUsed ≤ s.block.BlockSize) : s.refillCheck fuel = s.refill fuel := by
  unfold ctrStream.refillCheck
  rw [if_pos (by omega)]

theorem refillCheck_gt (fuel : Nat) (s : ctrStream)
    (h : s.block.BlockSize < s.outLen - s.outUsed) : s.refillCheck fuel = .ok s := by
  unfold ctrStream.refillCheck
  rw [if_neg (by omega)]
  rfl

theorem refillCheck_run (block : Block) (hE : block.EncryptSucceeds)
    (hbs : 1 ≤ block.BlockSize) (fuel : Nat) (s : ctrStream) (hs : s.Inv block) :
    (s.refillCheck fuel = .error Fault.outOfFuel ∧
        (fuel + 1) * block.BlockSize ≤ max 512 block.BlockSize) ∨
      ∃ s1, s.refillCheck fuel = .ok s1 ∧ s1.Inv block ∧ s1.outUsed < s1.outLen := by
  by_cases hc : s.outLen - s.outUsed ≤ s.block.BlockSize
  · rw [refillCheck_le fuel s hc]
    rcases refill_run block hE fuel s hs with h | h
    · left
      rw [hs.2.2.1] at h
      exact h
    · right
      obtain ⟨s1, h1, h2, h3, h4⟩ := h
      have := h2.2.2.1
      exact ⟨s1, h1, h2, by omega⟩
  · right
    rw [refillCheck_gt fuel s (by omega)]
    exact ⟨s, rfl, hs, by omega⟩

theorem succ_div_mul_gt (len bs : Nat) (hbs : 1 ≤ bs) : ¬ ((len / bs + 1) * bs ≤ len) := by
  have h := Nat.div_add_mod len bs
  have h2 := Nat.mod_lt len (show 0 < bs by omega)
  rw [Nat.add_mul, Nat.one_mul, Nat.mul_comm]
  omega

/-- From a stream that has handed out `p` keystream bytes, `XORKeyStream` hands out the
next `len(src)` bytes. -/
theorem XORKeyStream_at (block : Block) (E : List Nat → List Nat) (iv : List Nat)
    (hE : block.Computes E) (hbs : 1 ≤ block.BlockSize) (hiv : iv.length = block.BlockSize)
    (fuel : Nat) (s : ctrStream) (p : Nat) (dst src : List Nat) (hs : s.At block E iv p)
    (hfuel : s.out.length < (fuel + 1) * block.BlockSize)
    (hlen : src.length ≤ dst.length) (hn : src.length ≤ fuel) :
    ∃ s1 out, s.XORKeyStream fuel dst src = .ok (s1, out) ∧
      s1.At block E iv (p + src.length) ∧ s1.out.length = s.out.length ∧
      out.length = dst.length ∧
      ∀ j, out.getD j 0
        = if j < src.length then src.getD j 0 ^^^ keystream E iv (p + j) else dst.getD j 0 := by
  obtain ⟨s1, out, h1, h2, h3, h4, h5⟩ := xorKeyStreamLoop_spec block E iv hE hbs hiv fuel fuel
    s p dst src hs hfuel hlen hn
  refine ⟨s1, out, ?_, h2, h3, h4, h5⟩
  unfold ctrStream.XORKeyStream
  rw [if_neg (by omega)]
  exact h1

end ctr

/-! ## The claims -/

/-- C1: for every block cipher of block size `bs ≥ 1` whose `Encrypt` computes the
function `E`, every IV of `bs` bytes and every `src`, `dst` with `len(dst) ≥ len(src)`:
`XORKeyStream(dst, src)` on the fresh stream of `NewCTR` returns (with fuel
`≥ 512 + len(src)`), and byte `j < len(src)` of the result is
`src[j] XOR E(iv + j / bs)[j mod bs]`, where `iv + k` is the IV read as a big-endian
integer plus `k`, modulo `2 ^ (8 * bs)`. With the identity cipher `noopBlock` of the test,
byte `j` is `src[j]` XOR byte `j mod bs` of the counter `iv + j / bs`. -/
theorem ctr_xorKeyStream_keystream (block : Block) (E : List Nat → List Nat)
    (iv src dst : List Nat) (fuel : Nat) (hbs : 1 ≤ block.BlockSize) (hE : block.Computes E)
    (hiv : iv.length = block.BlockSize) (hivb : ∀ x ∈ iv, x < 256)
    (hlen : src.length ≤ dst.length) (hfuel : 512 + src.length ≤ fuel) :
    (∃ s0 s1 out, ctr.NewCTR block iv = .ok s0 ∧
      s0.XORKeyStream fuel dst src = .ok (s1, out) ∧ out.length = dst.length ∧
      ∀ j < src.length, out.getD j 0
        = src.getD j 0 ^^^
          (E (counterAdd iv (j / block.BlockSize))).getD (j % block.BlockSize) 0) ∧
    (∃ t0 t1 out, ctr.NewCTR (noopBlock block.BlockSize) iv = .ok t0 ∧
      t0.XORKeyStream fuel dst src = .ok (t1, out) ∧ out.length = dst.length ∧
      ∀ j < src.length, out.getD j 0
        = src.getD j 0 ^^^
          (counterAdd iv (j / block.BlockSize)).getD (j % block.BlockSize) 0) := by
  constructor
  · obtain ⟨s0, s1, out, h0, h1, _, h3, h4⟩ := ctr.XORKeyStream_fresh block E iv src dst fuel hbs
      hE hiv hivb hlen hfuel
    refine ⟨s0, s1, out, h0, h1, h3, ?_⟩
    intro j hj
    rw [h4, if_pos hj, ← hiv]
    rfl
  · obtain ⟨t0, t1, out, h0, h1, _, h3, h4⟩ := ctr.XORKeyStream_fresh
      (noopBlock block.BlockSize) id iv src dst fuel hbs (noopBlock_computes _) hiv hivb hlen
      hfuel
    refine ⟨t0, t1, out, h0, h1, h3, ?_⟩
    intro j hj
    rw [h4, if_pos hj, ← hiv]
    rfl

/-- Witness: the statement above at the identity cipher of block size 2, the all-ones IV (so the counter wraps
after the first block) and a three-byte source. -/
theorem ctr_xorKeyStream_keystream_witness :
    (∃ s0 s1 out, ctr.NewCTR (noopBlock 2) [0xff, 0xff] = .ok s0 ∧
      s0.XORKeyStream 515 [0, 0, 0] [1, 2, 3] = .ok (s1, out) ∧
      out.length = [0, 0, 0].length ∧
      ∀ j < [1, 2, 3].length, out.getD j 0
        = [1, 2, 3].getD j 0 ^^^
          (id (counterAdd [0xff, 0xff] (j / (noopBlock 2).BlockSize))).getD
            (j % (noopBlock 2).BlockSize) 0) ∧
    (∃ t0 t1 out, ctr.NewCTR (noopBlock (noopBlock 2).BlockSize) [0xff, 0xff] = .ok t0 ∧
      t0.XORKeyStream 515 [0, 0, 0] [1, 2, 3] = .ok (t1, out) ∧
      out.length = [0, 0, 0].length ∧
      ∀ j < [1, 2, 3].length, out.getD j 0
        = [1, 2, 3].getD j 0 ^^^
          (counterAdd [0xff, 0xff] (j / (noopBlock 2).BlockSize)).getD
            (j % (noopBlock 2).BlockSize) 0) :=
  ctr_xorKeyStream_keystream (noopBlock 2) id [0xff, 0xff] [1, 2, 3] [0, 0, 0] 515
    (by decide) (noopBlock_computes 2) (by decide) (by decide) (by decide) (by decide)

/-- C2: for every key of 16, 24 or 32 bytes, `aes.NewCipher` returns a cipher `c`, and for
every 16-byte block `p`: `c.Decrypt` of the output of `c.Encrypt(p)` is `p`, and
`c.Encrypt` of the output of `c.Decrypt(p)` is `p`. The destination buffers are any buffers
of at least 16 bytes; the bytes past the sixteenth stay as they were. -/
theorem aes_encrypt_decrypt_inverse (key p dst1 dst2 : List Nat)
    (hlen : key.length = 16 ∨ key.length = 24 ∨ key.length = 32) (hkb : ∀ x ∈ key, x < 256)
    (hp : p.length = 16) (hpb : ∀ x ∈ p, x < 256)
    (hd1 : 16 ≤ dst1.length) (hd2 : 16 ≤ dst2.length) :
    ∃ c, aes.NewCipher key = .ok c ∧
      (∃ ct, c.Encrypt dst1 p = .ok ct ∧ c.Decrypt dst2 ct = .ok (p ++ dst2.drop 16)) ∧
      (∃ pt, c.Decrypt dst1 p = .ok pt ∧ c.Encrypt dst2 pt = .ok (p ++ dst2.drop 16)) := by
  obtain ⟨c, hc, hk⟩ := aes.NewCipher_ok key hlen hkb
  refine ⟨c, hc, ?_, ?_⟩
  · exact aes.crypt_roundtrip (aes.encryptBlock c.enc) (aes.decryptBlock c.dec)
      (aes.decryptBlock_encryptBlock _ c.enc c.dec hk) p dst1 dst2 hp hpb hd1 hd2
  · exact aes.crypt_roundtrip (aes.decryptBlock c.dec) (aes.encryptBlock c.enc)
      (aes.encryptBlock_decryptBlock _ c.enc c.dec hk) p dst1 dst2 hp hpb hd1 hd2

/-- Witness: the statement above at the FIPS-197 Appendix B key and plaintext, with 16-byte destination buffers. -/
theorem aes_encrypt_decrypt_inverse_witness :
    ∃ c, aes.NewCipher aes.keyA1 = .ok c ∧
      (∃ ct, c.Encrypt (List.replicate 16 0) aes.vecB.2.1 = .ok ct ∧
        c.Decrypt (List.replicate 16 0) ct
          = .ok (aes.vecB.2.1 ++ (List.replicate 16 0).drop 16)) ∧
      (∃ pt, c.Decrypt (List.replicate 16 0) aes.vecB.2.1 = .ok pt ∧
        c.Encrypt (List.replicate 16 0) pt
          = .ok (aes.vecB.2.1 ++ (List.replicate 16 0).drop 16)) :=
  aes_encrypt_decrypt_inverse aes.keyA1 aes.vecB.2.1 (List.replicate 16 0) (List.replicate 16 0)
    (by decide) (by decide) (by decide) (by decide) (by decide) (by decide)

/-- C3: for every 8-byte key, `des.NewCipher` returns a cipher `c`, and for every 8-byte
block `b`: `c.Decrypt` of `c.Encrypt(b)` is `b` and `c.Encrypt` of `c.Decrypt(b)` is `b`
(destination buffers of at least 8 bytes; the bytes past the eighth stay as they were).
At word level, for every list of subkeys and every 64-bit `w`, `decryptBlock` undoes
`encryptBlock`, and `decryptBlock` is `cryptBlock` run with the subkeys reversed. -/
theorem des_encrypt_decrypt_inverse (key b dst1 dst2 : List Nat)
    (hk : key.length = 8) (hkb : ∀ x ∈ key, x < 256)
    (hb : b.length = 8) (hbb : ∀ x ∈ b, x < 256)
    (hd1 : 8 ≤ dst1.length) (hd2 : 8 ≤ dst2.length) :
    (∃ c, des.NewCipher key = .ok c ∧
      (∃ ct, c.Encrypt dst1 b = .ok ct ∧ c.Decrypt dst2 ct = .ok (b ++ dst2.drop 8)) ∧
      (∃ pt, c.Decrypt dst1 b = .ok pt ∧ c.Encrypt dst2 pt = .ok (b ++ dst2.drop 8))) ∧
    (∀ (sk : List Nat) (w : Nat), w < 2 ^ 64 →
      des.decryptBlock sk (des.encryptBlock sk w) = w) ∧
    (∀ (sk : List Nat) (w : Nat), des.decryptBlock sk w = des.cryptBlock sk.reverse w) := by
  refine ⟨?_, fun sk w hw => des.desDecrypt_encrypt sk w (by norm_num at hw; exact hw),
    des.decryptBlock_eq⟩
  obtain ⟨k, _, hc⟩ := des.desNewCipher_ok key hk hkb
  generalize des.newSubKeys k = sk at hc
  refine ⟨_, hc, ?_, ?_⟩
  · obtain ⟨w, h1, h2, h3⟩ := des.bytes_roundtrip (des.encryptBlock sk)
      (des.decryptBlock sk) (des.encryptBlock_lt _)
      (des.desDecrypt_encrypt _) b dst1 dst2 hb hbb
    refine ⟨_, des.desCipher_Encrypt_eq _ dst1 b w hd1 (by omega) h1, ?_⟩
    rw [des.desCipher_Decrypt_eq _ dst2 _ _ hd2 (des.put_length _ _) h2]
    exact congrArg Except.ok h3
  · obtain ⟨w, h1, h2, h3⟩ := des.bytes_roundtrip (des.decryptBlock sk)
      (des.encryptBlock sk) (des.decryptBlock_lt _)
      (des.desEncrypt_decrypt _) b dst1 dst2 hb hbb
    refine ⟨_, des.desCipher_Decrypt_eq _ dst1 b w hd1 (by omega) h1, ?_⟩
    rw [des.desCipher_Encrypt_eq _ dst2 _ _ hd2 (des.put_length _ _) h2]
    exact congrArg Except.ok h3

/-- Witness: the statement above at the key `133457799BBCDFF1` and the block `0123456789ABCDEF`, with 8-byte
destination buffers. -/
theorem des_encrypt_decrypt_inverse_witness :
    (∃ c, des.NewCipher [0x13, 0x34, 0x57, 0x79, 0x9B, 0xBC, 0xDF, 0xF1] = .ok c ∧
      (∃ ct, c.Encrypt (List.replicate 8 0) [0x01, 0x23, 0x45, 0x67, 0x89, 0xAB, 0xCD, 0xEF]
          = .ok ct ∧
        c.Decrypt (List.replicate 8 0) ct
          = .ok ([0x01, 0x23, 0x45, 0x67, 0x89, 0xAB, 0xCD, 0xEF]
              ++ (List.replicate 8 0).drop 8)) ∧
      (∃ pt, c.Decrypt (List.replicate 8 0) [0x01, 0x23, 0x45, 0x67, 0x89, 0xAB, 0xCD, 0xEF]
          = .ok pt ∧
        c.Encrypt (List.replicate 8 0) pt
          = .ok ([0x01, 0x23, 0x45, 0x67, 0x89, 0xAB, 0xCD, 0xEF]
              ++ (List.replicate 8 0).drop 8))) ∧
    (∀ (sk : List Nat) (w : Nat), w < 2 ^ 64 →
      des.decryptBlock sk (des.encryptBlock sk w) = w) ∧
    (∀ (sk : List Nat) (w : Nat), des.decryptBlock sk w = des.cryptBlock sk.reverse w) :=
  des_encrypt_decrypt_inverse [0x13, 0x34, 0x57, 0x79, 0x9B, 0xBC, 0xDF, 0xF1]
    [0x01, 0x23, 0x45, 0x67, 0x89, 0xAB, 0xCD, 0xEF] (List.replicate 8 0) (List.replicate 8 0)
    (by decide) (by decide) (by decide) (by decide) (by decide) (by decide)

/-- C4: for every 24-byte key, `NewTripleDESCipher` returns a cipher `c`, and for every
8-byte block `b`: `c.Decrypt` of `c.Encrypt(b)` is `b` and `c.Encrypt` of `c.Decrypt(b)`
is `b` (destination buffers of at least 8 bytes; the bytes past the eighth stay as they
were). -/
theorem tripleDES_encrypt_decrypt_inverse (key b dst1 dst2 : List Nat)
    (hk : key.length = 24) (hkb : ∀ x ∈ key, x < 256)
    (hb : b.length = 8) (hbb : ∀ x ∈ b, x < 256)
    (hd1 : 8 ≤ dst1.length) (hd2 : 8 ≤ dst2.length) :
    ∃ c, des.NewTripleDESCipher key = .ok c ∧
      (∃ ct, c.Encrypt dst1 b = .ok ct ∧ c.Decrypt dst2 ct = .ok (b ++ dst2.drop 8)) ∧
      (∃ pt, c.Decrypt dst1 b = .ok pt ∧ c.Encrypt dst2 pt = .ok (b ++ dst2.drop 8)) := by
  obtain ⟨k1, k2, k3, _, _, _, hc⟩ := des.NewTripleDESCipher_ok key hk hkb
  generalize des.newSubKeys k1 = sk1 at hc
  generalize des.newSubKeys k2 = sk2 at hc
  generalize des.newSubKeys k3 = sk3 at hc
  refine ⟨_, hc, ?_, ?_⟩
  · obtain ⟨w, h1, h2, h3⟩ := des.bytes_roundtrip
      (fun w => des.encryptBlock sk3 (des.decryptBlock sk2 (des.encryptBlock sk1 w)))
      (fun w => des.decryptBlock sk1 (des.encryptBlock sk2 (des.decryptBlock sk3 w)))
      (fun w => des.encryptBlock_lt _ _)
      (fun w hw => by
        show des.decryptBlock sk1 (des.encryptBlock sk2 (des.decryptBlock sk3
          (des.encryptBlock sk3 (des.decryptBlock sk2 (des.encryptBlock sk1 w))))) = w
        rw [des.desDecrypt_encrypt sk3 _ (des.decryptBlock_lt _ _),
          des.desEncrypt_decrypt sk2 _ (des.encryptBlock_lt _ _),
          des.desDecrypt_encrypt sk1 _ hw])
      b dst1 dst2 hb hbb
    refine ⟨_, des.tripleDESCipher_Encrypt_eq _ dst1 b w hd1 (by omega) h1, ?_⟩
    rw [des.tripleDESCipher_Decrypt_eq _ dst2 _ _ hd2 (des.put_length _ _) h2]
    exact congrArg Except.ok h3
  · obtain ⟨w, h1, h2, h3⟩ := des.bytes_roundtrip
      (fun w => des.decryptBlock sk1 (des.encryptBlock sk2 (des.decryptBlock sk3 w)))
      (fun w => des.encryptBlock sk3 (des.decryptBlock sk2 (des.encryptBlock sk1 w)))
      (fun w => des.decryptBlock_lt _ _)
      (fun w hw => by
        show des.encryptBlock sk3 (des.decryptBlock sk2 (des.encryptBlock sk1
          (des.decryptBlock sk1 (des.encryptBlock sk2 (des.decryptBlock sk3 w))))) = w
        rw [des.desEncrypt_decrypt sk1 _ (des.encryptBlock_lt _ _),
          des.desDecrypt_encrypt sk2 _ (des.decryptBlock_lt _ _),
          des.desEncrypt_decrypt sk3 _ hw])
      b dst1 dst2 hb hbb
    refine ⟨_, des.tripleDESCipher_Decrypt_eq _ dst1 b w hd1 (by omega) h1, ?_⟩
    rw [des.tripleDESCipher_Encrypt_eq _ dst2 _ _ hd2 (des.put_length _ _) h2]
    exact congrArg Except.ok h3

/-- Witness: the statement above at the sample 24-byte key and block, with 8-byte
destination buffers. -/
theorem tripleDES_encrypt_decrypt_inverse_witness :
    ∃ c, des.NewTripleDESCipher des.sampleKey3 = .ok c ∧
      (∃ ct, c.Encrypt (List.replicate 8 0) des.sampleBlock = .ok ct ∧
        c.Decrypt (List.replicate 8 0) ct
          = .ok (des.sampleBlock ++ (List.replicate 8 0).drop 8)) ∧
      (∃ pt, c.Decrypt (List.replicate 8 0) des.sampleBlock = .ok pt ∧
        c.Encrypt (List.replicate 8 0) pt
          = .ok (des.sampleBlock ++ (List.replicate 8 0).drop 8)) :=
  tripleDES_encrypt_decrypt_inverse des.sampleKey3 des.sampleBlock (List.replicate 8 0)
    (List.replicate 8 0) (by decide) (by decide) (by decide) (by decide) (by decide)
    (by decide)

/-- C5: for every block cipher of block size `bs ≥ 1` (computing `E`), every IV of `bs`
bytes and every byte string `data`: running `XORKeyStream` over `data` on a fresh stream
of `NewCTR(block, iv)`, then over that output on a second fresh stream of
`NewCTR(block, iv)`, returns `data` byte for byte. The destination buffers are any
buffers at least as long as `data`. -/
theorem ctr_xorKeyStream_involution (block : Block) (E : List Nat → List Nat)
    (iv data dst1 dst2 : List Nat) (fuel : Nat) (hbs : 1 ≤ block.BlockSize)
    (hE : block.Computes E) (hiv : iv.length = block.BlockSize) (hivb : ∀ x ∈ iv, x < 256)
    (hd1 : data.length ≤ dst1.length) (hd2 : data.length ≤ dst2.length)
    (hfuel : 512 + data.length ≤ fuel) :
    ∃ s0 s1 out1 t0 t1 out2, ctr.NewCTR block iv = .ok s0 ∧
      s0.XORKeyStream fuel dst1 data = .ok (s1, out1) ∧
      ctr.NewCTR block iv = .ok t0 ∧
      t0.XORKeyStream fuel dst2 (out1.take data.length) = .ok (t1, out2) ∧
      out2.take data.length = data := by
  obtain ⟨s0, s1, out1, h0, h1, _, h3, h4⟩ := ctr.XORKeyStream_fresh block E iv data dst1 fuel
    hbs hE hiv hivb hd1 hfuel
  have hl1 : (out1.take data.length).length = data.length := by
    rw [List.length_take, h3]; omega
  obtain ⟨t0, t1, out2, g0, g1, _, g3, g4⟩ := ctr.XORKeyStream_fresh block E iv
    (out1.take data.length) dst2 fuel hbs hE hiv hivb (by rw [hl1]; exact hd2)
    (by rw [hl1]; exact hfuel)
  refine ⟨s0, s1, out1, t0, t1, out2, h0, h1, g0, g1, ?_⟩
  apply ext_getD
  · rw [List.length_take, g3]; omega
  · intro j hj
    have hj2 : j < data.length := by
      rw [List.length_take] at hj; omega
    rw [getD_take _ _ _ hj2, g4, hl1, if_pos hj2, getD_take _ _ _ hj2, h4, if_pos hj2,
      Nat.xor_assoc, Nat.xor_self, Nat.xor_zero]

/-- Witness: the statement above at the identity cipher of block size 2 and a three-byte string. -/
theorem ctr_xorKeyStream_involution_witness :
    ∃ s0 s1 out1 t0 t1 out2, ctr.NewCTR (noopBlock 2) [0xff, 0xff] = .ok s0 ∧
      s0.XORKeyStream 515 [0, 0, 0] [1, 2, 3] = .ok (s1, out1) ∧
      ctr.NewCTR (noopBlock 2) [0xff, 0xff] = .ok t0 ∧
      t0.XORKeyStream 515 [0, 0, 0] (out1.take [1, 2, 3].length) = .ok (t1, out2) ∧
      out2.take [1, 2, 3].length = [1, 2, 3] :=
  ctr_xorKeyStream_involution (noopBlock 2) id [0xff, 0xff] [1, 2, 3] [0, 0, 0] [0, 0, 0] 515
    (by decide) (noopBlock_computes 2) (by decide) (by decide) (by decide) (by decide)
    (by decide)

/-- C6: for every block cipher of block size `bs ≥ 1` (computing `E`), every IV of `bs`
bytes, every byte string `data` and every `n ≤ len(data)`: the first `n` bytes that
`XORKeyStream` over `data[0:n]` writes on a fresh stream of `NewCTR(block, iv)` are the
first `n` bytes that `XORKeyStream` over all of `data` writes on another fresh stream of
`NewCTR(block, iv)`. -/
theorem ctr_xorKeyStream_prefix (block : Block) (E : List Nat → List Nat)
    (iv data dst1 dst2 : List Nat) (n fuel : Nat) (hbs : 1 ≤ block.BlockSize)
    (hE : block.Computes E) (hiv : iv.length = block.BlockSize) (hivb : ∀ x ∈ iv, x < 256)
    (hn : n ≤ data.length) (hd1 : n ≤ dst1.length) (hd2 : data.length ≤ dst2.length)
    (hfuel : 512 + data.length ≤ fuel) :
    ∃ s0 s1 out1 t0 t1 out2, ctr.NewCTR block iv = .ok s0 ∧
      s0.XORKeyStream fuel dst1 (data.take n) = .ok (s1, out1) ∧
      ctr.NewCTR block iv = .ok t0 ∧
      t0.XORKeyStream fuel dst2 data = .ok (t1, out2) ∧
      out1.take n = out2.take n := by
  have hl1 : (data.take n).length = n := by rw [List.length_take]; omega
  obtain ⟨s0, s1, out1, h0, h1, _, h3, h4⟩ := ctr.XORKeyStream_fresh block E iv (data.take n)
    dst1 fuel hbs hE hiv hivb (by rw [hl1]; exact hd1) (by rw [hl1]; omega)
  obtain ⟨t0, t1, out2, g0, g1, _, g3, g4⟩ := ctr.XORKeyStream_fresh block E iv data dst2 fuel
    hbs hE hiv hivb hd2 hfuel
  refine ⟨s0, s1, out1, t0, t1, out2, h0, h1, g0, g1, ?_⟩
  apply ext_getD
  · rw [List.length_take, List.length_take, h3, g3]; omega
  · intro j hj
    have hj2 : j < n := by
      rw [List.length_take] at hj; omega
    rw [getD_take _ _ _ hj2, getD_take _ _ _ hj2, h4, g4, hl1, if_pos hj2, if_pos (by omega),
      getD_take _ _ _ hj2]

/-- Witness: the statement above at the identity cipher of block size 2, a three-byte string and `n = 2`. -/
theorem ctr_xorKeyStream_prefix_witness :
    ∃ s0 s1 out1 t0 t1 out2, ctr.NewCTR (noopBlock 2) [0xff, 0xff] = .ok s0 ∧
      s0.XORKeyStream 515 [0, 0] (([1, 2, 3] : List Nat).take 2) = .ok (s1, out1) ∧
      ctr.NewCTR (noopBlock 2) [0xff, 0xff] = .ok t0 ∧
      t0.XORKeyStream 515 [0, 0, 0] [1, 2, 3] = .ok (t1, out2) ∧
      out1.take 2 = out2.take 2 :=
  ctr_xorKeyStream_prefix (noopBlock 2) id [0xff, 0xff] [1, 2, 3] [0, 0] [0, 0, 0] 2 515
    (by decide) (noopBlock_computes 2) (by decide) (by decide) (by decide) (by decide)
    (by decide) (by decide)

/-- C7: `expandKey` reproduces the FIPS-197 Appendix A round keys of `expandKeyTests`:
the 11 forward and 11 inverse round keys of the 128-bit sample key (forward round key 10
is `d014f9a8 c9ee2589 e13f0cc8 b6630ca6`, inverse round key 1 is
`0c7b5a63 1319eafe b0398890 664cfbb4`), and the 13 and 15 forward round keys of the
192-bit and 256-bit sample keys (run, as in the test, without an inverse schedule). -/
theorem expandKey_fips197_appendixA :
    aes.expandKey aes.keyA1 (aes.zeroSchedule 11) (some (aes.zeroSchedule 11))
        = .ok (aes.encA1, some aes.decA1)
    ∧ aes.encA1.getD 10 [] = [0xd014f9a8, 0xc9ee2589, 0xe13f0cc8, 0xb6630ca6]
    ∧ aes.decA1.getD 1 [] = [0x0c7b5a63, 0x1319eafe, 0xb0398890, 0x664cfbb4]
    ∧ aes.expandKey aes.keyA2 (aes.zeroSchedule 13) none = .ok (aes.encA2, none)
    ∧ aes.expandKey aes.keyA3 (aes.zeroSchedule 15) none = .ok (aes.encA3, none) := by
  decide!

/-- C8: for each of the four FIPS-197 vectors of `aesCipherTests` (Appendix B, C.1, C.2,
C.3), `Encrypt` of the plaintext under the key is the listed ciphertext and `Decrypt` of
the ciphertext is the plaintext. -/
theorem aesCipher_fips197_vectors :
    (aes.runEncryptTest aes.vecB = .ok aes.vecB.2.2
      ∧ aes.runDecryptTest aes.vecB = .ok aes.vecB.2.1)
    ∧ (aes.runEncryptTest aes.vecC1 = .ok aes.vecC1.2.2
      ∧ aes.runDecryptTest aes.vecC1 = .ok aes.vecC1.2.1)
    ∧ (aes.runEncryptTest aes.vecC2 = .ok aes.vecC2.2.2
      ∧ aes.runDecryptTest aes.vecC2 = .ok aes.vecC2.2.1)
    ∧ (aes.runEncryptTest aes.vecC3 = .ok aes.vecC3.2.2
      ∧ aes.runDecryptTest aes.vecC3 = .ok aes.vecC3.2.1) :=
  ⟨aes.runDecryptTest_of_runEncryptTest aes.vecB (by decide) (by decide) (by decide)
      (by decide) (by decide) aes.runEncryptTest_vecB,
   aes.runDecryptTest_of_runEncryptTest aes.vecC1 (by decide) (by decide) (by decide)
      (by decide) (by decide) aes.runEncryptTest_vecC1,
   aes.runDecryptTest_of_runEncryptTest aes.vecC2 (by decide) (by decide) (by decide)
      (by decide) (by decide) aes.runEncryptTest_vecC2,
   aes.runDecryptTest_of_runEncryptTest aes.vecC3 (by decide) (by decide) (by decide)
      (by decide) (by decide) aes.runEncryptTest_vecC3⟩

/-- C9: for each of the three NIST SP 800-38A CTR vectors of `ctrAESTests` (AES-128,
AES-192, AES-256 key, initial counter `f0f1...feff`, the shared 64-byte plaintext):
`XORKeyStream` on a fresh stream over the plaintext gives the listed ciphertext, over the
ciphertext gives the plaintext, over the plaintext cut by 5 bytes gives the ciphertext
cut by 5 bytes, and over the ciphertext cut by 7 bytes gives the plaintext cut by 7
bytes. The AES-128 ciphertext begins `874d6191b620e3261bef6864990db6ce`. -/
theorem ctr_aes_sp800_38a_vectors :
    (ctr.runCTR ctr.commonKey128 ctr.commonCounter ctr.commonInput = .ok ctr.outAES128 ∧
      ctr.runCTR ctr.commonKey128 ctr.commonCounter ctr.outAES128 = .ok ctr.commonInput ∧
      ctr.runCTR ctr.commonKey128 ctr.commonCounter (ctr.commonInput.take 59)
        = .ok (ctr.outAES128.take 59) ∧
      ctr.runCTR ctr.commonKey128 ctr.commonCounter (ctr.outAES128.take 57)
        = .ok (ctr.commonInput.take 57)) ∧
    (ctr.runCTR ctr.commonKey192 ctr.commonCounter ctr.commonInput = .ok ctr.outAES192 ∧
      ctr.runCTR ctr.commonKey192 ctr.commonCounter ctr.outAES192 = .ok ctr.commonInput ∧
      ctr.runCTR ctr.commonKey192 ctr.commonCounter (ctr.commonInput.take 59)
        = .ok (ctr.outAES192.take 59) ∧
      ctr.runCTR ctr.commonKey192 ctr.commonCounter (ctr.outAES192.take 57)
        = .ok (ctr.commonInput.take 57)) ∧
    (ctr.runCTR ctr.commonKey256 ctr.commonCounter ctr.commonInput = .ok ctr.outAES256 ∧
      ctr.runCTR ctr.commonKey256 ctr.commonCounter ctr.outAES256 = .ok ctr.commonInput ∧
      ctr.runCTR ctr.commonKey256 ctr.commonCounter (ctr.commonInput.take 59)
        = .ok (ctr.outAES256.take 59) ∧
      ctr.runCTR ctr.commonKey256 ctr.commonCounter (ctr.outAES256.take 57)
        = .ok (ctr.commonInput.take 57)) ∧
    ctr.outAES128.take 16
      = [0x87, 0x4d, 0x61, 0x91, 0xb6, 0x20, 0xe3, 0x26, 0x1b, 0xef, 0x68, 0x64, 0x99, 0x0d,
         0xb6, 0xce] :=
  ⟨ctr.runCTR_all _ _ _ (by decide) (by decide) ctr.keystreamBlocks_AES128 (by decide)
      (by decide) (by decide) (by decide),
   ctr.runCTR_all _ _ _ (by decide) (by decide) ctr.keystreamBlocks_AES192 (by decide)
      (by decide) (by decide) (by decide),
   ctr.runCTR_all _ _ _ (by decide) (by decide) ctr.keystreamBlocks_AES256 (by decide)
      (by decide) (by decide) (by decide),
   by decide⟩

/-- C10: for every 24-byte key `k1 || k2 || k3` and every 8-byte block `b`, with `c` the
Triple-DES cipher of the key and `c1`, `c2`, `c3` the DES ciphers that `des.NewCipher`
returns for the three 8-byte parts: `c.Encrypt(b)` is `c3.Encrypt` of `c2.Decrypt` of
`c1.Encrypt(b)`, and `c.Decrypt(b)` is `c1.Decrypt` of `c2.Encrypt` of `c3.Decrypt(b)`.
The intermediate results pass through any scratch buffers `s1`, `s2` of at least 8
bytes. -/
theorem tripleDES_is_ede (key b dst s1 s2 : List Nat)
    (hk : key.length = 24) (hkb : ∀ x ∈ key, x < 256)
    (hb : b.length = 8) (hbb : ∀ x ∈ b, x < 256)
    (hd : 8 ≤ dst.length) (hs1 : 8 ≤ s1.length) (hs2 : 8 ≤ s2.length) :
    ∃ c c1 c2 c3, des.NewTripleDESCipher key = .ok c ∧
      des.NewCipher (key.take 8) = .ok c1 ∧
      des.NewCipher ((key.take 16).drop 8) = .ok c2 ∧
      des.NewCipher (key.drop 16) = .ok c3 ∧
      (∃ x y z, c1.Encrypt s1 b = .ok x ∧ c2.Decrypt s2 x = .ok y ∧ c3.Encrypt dst y = .ok z ∧
        c.Encrypt dst b = .ok z) ∧
      (∃ x y z, c3.Decrypt s1 b = .ok x ∧ c2.Encrypt s2 x = .ok y ∧ c1.Decrypt dst y = .ok z ∧
        c.Decrypt dst b = .ok z) := by
  obtain ⟨k1, k2, k3, hc1, hc2, hc3, hc⟩ := des.NewTripleDESCipher_ok key hk hkb
  generalize des.newSubKeys k1 = sk1 at hc hc1
  generalize des.newSubKeys k2 = sk2 at hc hc2
  generalize des.newSubKeys k3 = sk3 at hc hc3
  obtain ⟨w, hw, _, _⟩ := beUint64_ok b hb hbb
  have hw8 : beUint64 (b.take 8) = .ok w := by
    rw [List.take_of_length_le (by omega)]; exact hw
  refine ⟨_, _, _, _, hc, hc1, hc2, hc3, ?_, ?_⟩
  · refine ⟨_, _, _, des.desCipher_Encrypt_eq ⟨sk1⟩ s1 b w hs1 (by omega) hw8,
      des.desCipher_Decrypt_eq ⟨sk2⟩ s2 _ _ hs2 (des.put_length _ _)
        (beUint64_bePutUint64 _ (des.encryptBlock_lt _ _) _),
      des.desCipher_Encrypt_eq ⟨sk3⟩ dst _ _ hd (des.put_length _ _)
        (beUint64_bePutUint64 _ (des.decryptBlock_lt _ _) _),
      des.tripleDESCipher_Encrypt_eq ⟨⟨sk1⟩, ⟨sk2⟩, ⟨sk3⟩⟩ dst b w hd (by omega) hw8⟩
  · refine ⟨_, _, _, des.desCipher_Decrypt_eq ⟨sk3⟩ s1 b w hs1 (by omega) hw8,
      des.desCipher_Encrypt_eq ⟨sk2⟩ s2 _ _ hs2 (des.put_length _ _)
        (beUint64_bePutUint64 _ (des.decryptBlock_lt _ _) _),
      des.desCipher_Decrypt_eq ⟨sk1⟩ dst _ _ hd (des.put_length _ _)
        (beUint64_bePutUint64 _ (des.encryptBlock_lt _ _) _),
      des.tripleDESCipher_Decrypt_eq ⟨⟨sk1⟩, ⟨sk2⟩, ⟨sk3⟩⟩ dst b w hd (by omega) hw8⟩

/-- Witness: the statement above at the sample 24-byte key and block, with 8-byte buffers. -/
theorem tripleDES_is_ede_witness :
    ∃ c c1 c2 c3, des.NewTripleDESCipher des.sampleKey3 = .ok c ∧
      des.NewCipher (des.sampleKey3.take 8) = .ok c1 ∧
      des.NewCipher ((des.sampleKey3.take 16).drop 8) = .ok c2 ∧
      des.NewCipher (des.sampleKey3.drop 16) = .ok c3 ∧
      (∃ x y z, c1.Encrypt (List.replicate 8 0) des.sampleBlock = .ok x ∧
        c2.Decrypt (List.replicate 8 0) x = .ok y ∧
        c3.Encrypt (List.replicate 8 0) y = .ok z ∧
        c.Encrypt (List.replicate 8 0) des.sampleBlock = .ok z) ∧
      (∃ x y z, c3.Decrypt (List.replicate 8 0) des.sampleBlock = .ok x ∧
        c2.Encrypt (List.replicate 8 0) x = .ok y ∧
        c1.Decrypt (List.replicate 8 0) y = .ok z ∧
        c.Decrypt (List.replicate 8 0) des.sampleBlock = .ok z) :=
  tripleDES_is_ede des.sampleKey3 des.sampleBlock (List.replicate 8 0) (List.replicate 8 0)
    (List.replicate 8 0) (by decide) (by decide) (by decide) (by decide) (by decide)
    (by decide) (by decide)

/-- C11: for every key (a byte string), `aes.NewCipher(key)` returns an error exactly when
`len(key)` is not 16, 24 or 32: for those three lengths it returns a cipher, for every
other length (15, 17, 23, 25 and 33 among them) it returns the error
`invalid key size` and no cipher. -/
theorem aes_NewCipher_error_iff (key : List Nat) (hkb : ∀ x ∈ key, x < 256) :
    ((∃ msg, aes.NewCipher key = .error (Fault.error msg))
        ↔ ¬ (key.length = 16 ∨ key.length = 24 ∨ key.length = 32))
    ∧ ((∃ c, aes.NewCipher key = .ok c)
        ↔ (key.length = 16 ∨ key.length = 24 ∨ key.length = 32))
    ∧ (key.length ∈ [15, 17, 23, 25, 33]
        → aes.NewCipher key = .error (Fault.error "invalid key size")) := by
  have hbad : ¬ (key.length = 16 ∨ key.length = 24 ∨ key.length = 32) →
      aes.NewCipher key = .error (Fault.error "invalid key size") := by
    intro h
    unfold aes.NewCipher
    rw [if_neg h]
    rfl
  refine ⟨⟨?_, fun h => ⟨_, hbad h⟩⟩, ⟨?_, ?_⟩, ?_⟩
  · rintro ⟨msg, hm⟩ hlen
    obtain ⟨c, hc, _⟩ := aes.NewCipher_ok key hlen hkb
    rw [hc] at hm
    cases hm
  · rintro ⟨c, hc⟩
    by_contra h
    rw [hbad h] at hc
    cases hc
  · intro hlen
    obtain ⟨c, hc, _⟩ := aes.NewCipher_ok key hlen hkb
    exact ⟨c, hc⟩
  · intro h
    apply hbad
    simp only [List.mem_cons, List.mem_singleton, List.not_mem_nil, or_false] at h
    omega

/-- Witness: the statement above at a key of fifteen zero bytes. -/
theorem aes_NewCipher_error_iff_witness :
    (∀ x ∈ List.replicate 15 0, x < 256) ∧
      aes.NewCipher (List.replicate 15 0) = .error (Fault.error "invalid key size") :=
  ⟨by decide, (aes_NewCipher_error_iff (List.replicate 15 0) (by decide)).2.2 (by decide)⟩

/-- C12: for every key (a byte string), `des.NewCipher(key)` returns an error exactly when
`len(key) ≠ 8` and `des.NewTripleDESCipher(key)` returns an error exactly when
`len(key) ≠ 24`, for shorter and for longer keys alike; on the right length each returns
a cipher, on any other the error and no cipher. -/
theorem des_NewCipher_error_iff (key : List Nat) (hkb : ∀ x ∈ key, x < 256) :
    (((∃ msg, des.NewCipher key = .error (Fault.error msg)) ↔ key.length ≠ 8)
      ∧ ((∃ c, des.NewCipher key = .ok c) ↔ key.length = 8)
      ∧ (key.length ≠ 8 → des.NewCipher key = .error (Fault.error "invalid key size")))
    ∧ (((∃ msg, des.NewTripleDESCipher key = .error (Fault.error msg)) ↔ key.length ≠ 24)
      ∧ ((∃ c, des.NewTripleDESCipher key = .ok c) ↔ key.length = 24)
      ∧ (key.length ≠ 24 → des.NewTripleDESCipher key = .error (Fault.error "short key"))) := by
  have hbad1 : key.length ≠ 8 →
      des.NewCipher key = .error (Fault.error "invalid key size") := by
    intro h
    unfold des.NewCipher
    rw [if_pos h]
    rfl
  have hbad3 : key.length ≠ 24 →
      des.NewTripleDESCipher key = .error (Fault.error "short key") := by
    intro h
    unfold des.NewTripleDESCipher
    rw [if_pos h]
    rfl
  refine ⟨⟨⟨?_, fun h => ⟨_, hbad1 h⟩⟩, ⟨?_, ?_⟩, hbad1⟩,
    ⟨?_, fun h => ⟨_, hbad3 h⟩⟩, ⟨?_, ?_⟩, hbad3⟩
  · rintro ⟨msg, hm⟩ hlen
    obtain ⟨k, _, hc⟩ := des.desNewCipher_ok key hlen hkb
    rw [hc] at hm
    cases hm
  · rintro ⟨c, hc⟩
    by_contra h
    rw [hbad1 h] at hc
    cases hc
  · intro hlen
    obtain ⟨k, _, hc⟩ := des.desNewCipher_ok key hlen hkb
    exact ⟨_, hc⟩
  · rintro ⟨msg, hm⟩ hlen
    obtain ⟨k1, k2, k3, _, _, _, hc⟩ := des.NewTripleDESCipher_ok key hlen hkb
    rw [hc] at hm
    cases hm
  · rintro ⟨c, hc⟩
    by_contra h
    rw [hbad3 h] at hc
    cases hc
  · intro hlen
    obtain ⟨k1, k2, k3, _, _, _, hc⟩ := des.NewTripleDESCipher_ok key hlen hkb
    exact ⟨_, hc⟩

/-- Witness: the statement above at a key of nine zero bytes, too long for DES and too
short for Triple DES. -/
theorem des_NewCipher_error_iff_witness :
    (∀ x ∈ List.replicate 9 0, x < 256) ∧
      des.NewCipher (List.replicate 9 0) = .error (Fault.error "invalid key size") ∧
      des.NewTripleDESCipher (List.replicate 9 0) = .error (Fault.error "short key") :=
  ⟨by decide, (des_NewCipher_error_iff (List.replicate 9 0) (by decide)).1.2.2 (by decide),
    (des_NewCipher_error_iff (List.replicate 9 0) (by decide)).2.2.2 (by decide)⟩

/-- C13: `NewCTR(block, iv)` fails (it panics) exactly when `len(iv) ≠ block.BlockSize()`;
when the two are equal it returns a stream over `block` whose counter is `iv`. -/
theorem newCTR_fails_iff (block : Block) (iv : List Nat) :
    (ctr.NewCTR block iv = .error Fault.panic ↔ iv.length ≠ block.BlockSize)
    ∧ ((∃ e, ctr.NewCTR block iv = .error e) ↔ iv.length ≠ block.BlockSize)
    ∧ (iv.length = block.BlockSize →
        ∃ s, ctr.NewCTR block iv = .ok s ∧ s.ctr = iv ∧ s.block = block) := by
  by_cases h : iv.length ≠ block.BlockSize
  · have hp : ctr.NewCTR block iv = .error Fault.panic := by
      unfold ctr.NewCTR
      rw [if_pos h]
      rfl
    exact ⟨⟨fun _ => h, fun _ => hp⟩, ⟨fun _ => h, fun _ => ⟨_, hp⟩⟩, fun e => absurd e h⟩
  · have hok : ctr.NewCTR block iv
        = .ok ⟨block, iv, List.replicate (if 512 < block.BlockSize then block.BlockSize else 512) 0,
            0, 0⟩ := by
      unfold ctr.NewCTR
      rw [if_neg h]
      rfl
    refine ⟨⟨?_, fun e => absurd e h⟩, ⟨?_, fun e => absurd e h⟩, fun _ => ⟨_, hok, rfl, rfl⟩⟩
    · intro e
      rw [hok] at e
      cases e
    · rintro ⟨e, he⟩
      rw [hok] at he
      cases he

/-- Witness: the statement above at the 3-byte no-op block and a 3-byte IV. -/
theorem newCTR_fails_iff_witness :
    ∃ s, ctr.NewCTR (noopBlock 3) [1, 2, 3] = .ok s ∧ s.ctr = [1, 2, 3] ∧ s.block = noopBlock 3 :=
  (newCTR_fails_iff (noopBlock 3) [1, 2, 3]).2.2 rfl

/-- C14: for every block cipher of block size `bs ≥ 1` whose `Encrypt` returns on buffers
of at least `bs` bytes, and every stream reachable from `NewCTR` by calls of
`XORKeyStream`: the call `XORKeyStream(dst, src)` (with fuel at least `512 + len(src)`)
aborts exactly when `len(dst) < len(src)`, and the abort is the panic of the length check;
when `len(dst) ≥ len(src)` it returns, with no fault inside `refill`, and leaves a
reachable stream; when it aborts, `dst` and the stream (counter, keystream buffer, cursor)
are what they were before the call. -/
theorem ctr_xorKeyStream_aborts_iff (block : Block) (s : ctr.ctrStream) (dst src : List Nat)
    (fuel : Nat) (hbs : 1 ≤ block.BlockSize) (hE : block.EncryptSucceeds)
    (hs : ctr.ctrStream.Reachable block s) (hfuel : 512 + src.length ≤ fuel) :
    ((∃ e, s.XORKeyStream fuel dst src = .error e) ↔ dst.length < src.length)
    ∧ (dst.length < src.length → s.XORKeyStream fuel dst src = .error Fault.panic)
    ∧ (src.length ≤ dst.length →
        ∃ s1 d, s.XORKeyStream fuel dst src = .ok (s1, d) ∧ d.length = dst.length ∧
          ctr.ctrStream.Reachable block s1)
    ∧ (s.XORKeyStreamMem fuel dst src).result
        = (s.XORKeyStream fuel dst src >>= fun r => pure (some r))
    ∧ ((s.XORKeyStreamMem fuel dst src).fault ≠ none →
        (s.XORKeyStreamMem fuel dst src).mem = some (s, dst)) := by
  have hinv := ctr.reachable_inv block hE hbs s hs
  have hrun := ctr.XORKeyStream_run block hE hbs fuel s dst src hinv
  have hshort : dst.length < src.length → s.XORKeyStream fuel dst src = .error Fault.panic := by
    intro h
    rcases hrun with h1 | h1 | h1
    · exact h1.2
    · omega
    · omega
  have hlong : src.length ≤ dst.length →
      ∃ s1 d, s.XORKeyStream fuel dst src = .ok (s1, d) ∧ d.length = dst.length ∧
        ctr.ctrStream.Reachable block s1 := by
    intro h
    rcases hrun with h1 | h1 | h1
    · omega
    · omega
    · obtain ⟨_, s1, d, h2, _, h3⟩ := h1
      exact ⟨s1, d, h2, h3, ctr.ctrStream.Reachable.step fuel s s1 dst src d hs h2⟩
  refine ⟨⟨?_, fun h => ⟨_, hshort h⟩⟩, hshort, hlong, ctr.XORKeyStreamMem_result fuel s dst src,
    ?_⟩
  · rintro ⟨e, he⟩
    by_contra h
    obtain ⟨s1, d, h1, _⟩ := hlong (by omega)
    rw [h1] at he
    cases he
  · intro hf
    by_cases h : dst.length < src.length
    · rw [ctr.XORKeyStreamMem_fault fuel s dst src h]
    · exfalso
      obtain ⟨s1, d, h1, _⟩ := hlong (by omega)
      have hres := ctr.XORKeyStreamMem_result fuel s dst src
      rw [h1] at hres
      unfold Outcome.result at hres
      cases hfa : (s.XORKeyStreamMem fuel dst src).fault with
      | none => exact hf hfa
      | some e =>
        rw [hfa] at hres
        cases hres

/-- Witness: the statement above at the fresh stream of the 2-byte no-op block, a 2-byte
`dst` and a 3-byte `src`: the call panics. -/
theorem ctr_xorKeyStream_aborts_iff_witness :
    (⟨noopBlock 2, [0, 0], List.replicate 512 0, 0, 0⟩ : ctr.ctrStream).XORKeyStream 515
        [0, 0] [1, 2, 3] = .error Fault.panic :=
  (ctr_xorKeyStream_aborts_iff (noopBlock 2) ⟨noopBlock 2, [0, 0], List.replicate 512 0, 0, 0⟩
    [0, 0] [1, 2, 3] 515 (by decide) (noopBlock_encryptSucceeds 2)
    (ctr.ctrStream.Reachable.fresh [0, 0] _ rfl) (by decide)).2.1 (by decide)

/-- C15: for the AES cipher of any 16-, 24- or 32-byte key (block size 16) and for every
DES and Triple-DES cipher (block size 8): `Encrypt(dst, src)` and `Decrypt(dst, src)` abort
exactly when `len(dst) < BlockSize` or `len(src) < BlockSize`; the abort is a panic, and
when a call aborts `dst` holds what it held before the call (no byte has been written). -/
theorem crypt_aborts_iff_short (key dst src : List Nat)
    (hlen : key.length = 16 ∨ key.length = 24 ∨ key.length = 32) (hkb : ∀ x ∈ key, x < 256)
    (cd : des.desCipher) (ct : des.tripleDESCipher) :
    (∃ c, aes.NewCipher key = .ok c ∧ c.BlockSize = 16 ∧
      AbortsIffShort c.BlockSize c.Encrypt c.EncryptMem dst src ∧
      AbortsIffShort c.BlockSize c.Decrypt c.DecryptMem dst src)
    ∧ (cd.BlockSize = 8 ∧
      AbortsIffShort cd.BlockSize cd.Encrypt cd.EncryptMem dst src ∧
      AbortsIffShort cd.BlockSize cd.Decrypt cd.DecryptMem dst src)
    ∧ (ct.BlockSize = 8 ∧
      AbortsIffShort ct.BlockSize ct.Encrypt ct.EncryptMem dst src ∧
      AbortsIffShort ct.BlockSize ct.Decrypt ct.DecryptMem dst src) := by
  obtain ⟨c, hc, h3, hse, hsd, _, _⟩ := aes.NewCipher_ok key hlen hkb
  have ha := aes.aesCipher_contract _ c hse hsd (by omega) dst src
  exact ⟨⟨c, hc, rfl, ha.1, ha.2.1⟩,
    ⟨rfl, (des.crypt_contract (des.encryptBlock cd.subKeys) dst src).1,
      (des.crypt_contract (des.decryptBlock cd.subKeys) dst src).1⟩,
    ⟨rfl, (des.crypt_contract _ dst src).1, (des.crypt_contract _ dst src).1⟩⟩

/-- Witness: the statement above at the FIPS-197 Appendix A 128-bit key, a 15-byte `dst`
and a 16-byte `src`: `Encrypt` panics. -/
theorem crypt_aborts_iff_short_witness :
    ∃ c, aes.NewCipher aes.keyA1 = .ok c ∧
      c.Encrypt (List.replicate 15 0) (List.replicate 16 0) = .error Fault.panic ∧
      ((c.EncryptMem (List.replicate 15 0) (List.replicate 16 0)).fault ≠ none →
        (c.EncryptMem (List.replicate 15 0) (List.replicate 16 0)).mem = List.replicate 15 0) :=
  match (crypt_aborts_iff_short aes.keyA1 (List.replicate 15 0) (List.replicate 16 0)
    (by decide) (by decide) ⟨[]⟩ ⟨⟨[]⟩, ⟨[]⟩, ⟨[]⟩⟩).1 with
  | ⟨c, hc, _, hE, _⟩ =>
    ⟨c, hc, hE.2.2.1 (Or.inl (show (List.replicate 15 0).length < 16 by decide)), hE.2.2.2⟩

/-- C16: for the AES cipher of any 16-, 24- or 32-byte key (block size 16) and for every
DES and Triple-DES cipher (block size 8), when `len(dst) ≥ BlockSize` and
`len(src) ≥ BlockSize`: `Encrypt(dst, src)` and `Decrypt(dst, src)` return, the result has
the length of `dst`, every byte `dst[i]` with `i ≥ BlockSize` is as it was, and the bytes
stored in `dst[0:BlockSize]` are a function of the cipher (hence of the key) and of
`src[0:BlockSize]` alone. -/
theorem crypt_writes_one_block (key dst src : List Nat)
    (hlen : key.length = 16 ∨ key.length = 24 ∨ key.length = 32) (hkb : ∀ x ∈ key, x < 256)
    (cd : des.desCipher) (ct : des.tripleDESCipher) :
    (∃ c, aes.NewCipher key = .ok c ∧ c.BlockSize = 16 ∧
      (c.BlockSize ≤ dst.length → c.BlockSize ≤ src.length →
        WritesBlock c.BlockSize c.Encrypt c.encryptFn dst src ∧
        WritesBlock c.BlockSize c.Decrypt c.decryptFn dst src))
    ∧ (cd.BlockSize = 8 ∧
      (cd.BlockSize ≤ dst.length → cd.BlockSize ≤ src.length →
        WritesBlock cd.BlockSize cd.Encrypt (des.blockFn (des.encryptBlock cd.subKeys)) dst src ∧
        WritesBlock cd.BlockSize cd.Decrypt (des.blockFn (des.decryptBlock cd.subKeys)) dst src))
    ∧ (ct.BlockSize = 8 ∧
      (ct.BlockSize ≤ dst.length → ct.BlockSize ≤ src.length →
        WritesBlock ct.BlockSize ct.Encrypt
          (des.blockFn (fun b => des.encryptBlock ct.cipher3.subKeys
            (des.decryptBlock ct.cipher2.subKeys (des.encryptBlock ct.cipher1.subKeys b))))
          dst src ∧
        WritesBlock ct.BlockSize ct.Decrypt
          (des.blockFn (fun b => des.decryptBlock ct.cipher1.subKeys
            (des.encryptBlock ct.cipher2.subKeys (des.decryptBlock ct.cipher3.subKeys b))))
          dst src)) := by
  obtain ⟨c, hc, h3, hse, hsd, _, _⟩ := aes.NewCipher_ok key hlen hkb
  have ha := aes.aesCipher_contract _ c hse hsd (by omega) dst src
  exact ⟨⟨c, hc, rfl, ha.2.2⟩,
    ⟨rfl, fun hd hs =>
      ⟨(des.crypt_contract (des.encryptBlock cd.subKeys) dst src).2 hd hs,
        (des.crypt_contract (des.decryptBlock cd.subKeys) dst src).2 hd hs⟩⟩,
    ⟨rfl, fun hd hs =>
      ⟨(des.crypt_contract _ dst src).2 hd hs, (des.crypt_contract _ dst src).2 hd hs⟩⟩⟩

/-- Witness: the statement above at the FIPS-197 Appendix A 128-bit key, a 20-byte `dst`
and an 18-byte `src`: `Encrypt` returns a buffer of 20 bytes. -/
theorem crypt_writes_one_block_witness :
    ∃ c r, aes.NewCipher aes.keyA1 = .ok c ∧
      c.Encrypt (List.replicate 20 7) (List.replicate 18 1) = .ok r ∧ r.length = 20 :=
  match (crypt_writes_one_block aes.keyA1 (List.replicate 20 7) (List.replicate 18 1)
    (by decide) (by decide) ⟨[]⟩ ⟨⟨[]⟩, ⟨[]⟩, ⟨[]⟩⟩).1 with
  | ⟨c, hc, _, h⟩ =>
    have hw := (h (show 16 ≤ (List.replicate 20 7).length by decide)
      (show 16 ≤ (List.replicate 18 1).length by decide)).1
    ⟨c, _, hc, hw.2.1, ((hw.2.2 _ hw.2.1).1.trans (by decide))⟩

/-- C17: the counter update of `refill` (the loop `for i := len(s.ctr) - 1; i >= 0; i--`
run after each keystream block) maps a counter `c` of any length `n`, read as the
big-endian integer `v`, to the big-endian `n`-byte encoding of `(v + 1) mod 2 ^ (8 n)`;
the length of the counter stays `n`; a counter of `n` bytes `0xFF` becomes `n` bytes
`0x00`, with no fault; and one pass of the loop of `refill` that encrypts a block goes on
with exactly this counter. -/
theorem ctr_counter_increment (c : List Nat) (hb : ∀ x ∈ c, x < 256) :
    ctr.incLoop c.length c = beBytes c.length ((beValue c + 1) % 2 ^ (8 * c.length))
    ∧ (ctr.incLoop c.length c).length = c.length
    ∧ (∀ n, ctr.incLoop (List.replicate n 255).length (List.replicate n 255)
        = List.replicate n 0)
    ∧ ∀ (block : Block) (bs fuel remain : Nat) (out d : List Nat),
        (remain : Int) ≤ (out.length : Int) - bs →
        block.Encrypt (out.drop remain) c = .ok d →
        ctr.refillLoop block bs (fuel + 1) remain out c
          = ctr.refillLoop block bs fuel (remain + bs) (out.take remain ++ d)
              (beBytes c.length ((beValue c + 1) % 2 ^ (8 * c.length))) := by
  have h1 : ctr.incLoop c.length c = beBytes c.length ((beValue c + 1) % 2 ^ (8 * c.length)) := by
    rw [two_pow_8n]
    exact ctr.incLoop_spec c hb
  refine ⟨h1, ctr.incLoop_length _ _, ?_, ?_⟩
  · intro n
    rw [List.length_replicate]
    exact ctr.incLoop_all_ff n
  · intro block bs fuel remain out d h hd
    rw [ctr.refillLoop_step block bs fuel remain out c d h hd, h1]

/-- Witness: the statement above at the two-byte counter `00 ff`, which becomes `01 00`. -/
theorem ctr_counter_increment_witness :
    (∀ x ∈ [0, 255], x < 256) ∧
      ctr.incLoop [0, 255].length [0, 255]
        = beBytes [0, 255].length ((beValue [0, 255] + 1) % 2 ^ (8 * [0, 255].length)) :=
  ⟨by decide, (ctr_counter_increment [0, 255] (by decide)).1⟩

/-- C18: (as amended) for every block cipher and every IV of `block.BlockSize()` bytes, the
stream returned by `NewCTR` has a keystream buffer whose capacity is exactly
`max(512, bs)`, which is a whole multiple of `bs` when `bs` divides 512 or `bs ≥ 512`,
and that is initially empty (`len(s.out) = 0`, cursor `outUsed = 0`). -/
theorem newCTR_buffer (block : Block) (iv : List Nat) (hiv : iv.length = block.BlockSize) :
    ∃ s, ctr.NewCTR block iv = .ok s
      ∧ s.out.length = max 512 block.BlockSize
      ∧ (block.BlockSize ∣ 512 ∨ 512 ≤ block.BlockSize → block.BlockSize ∣ s.out.length)
      ∧ s.outLen = 0 ∧ s.outUsed = 0 := by
  have hok : ctr.NewCTR block iv
      = .ok ⟨block, iv, List.replicate (if 512 < block.BlockSize then block.BlockSize else 512) 0,
          0, 0⟩ := by
    unfold ctr.NewCTR
    rw [if_neg (by rw [hiv]; exact fun h => h rfl)]
    rfl
  have hlen : (List.replicate (if 512 < block.BlockSize then block.BlockSize else 512) 0).length
      = max 512 block.BlockSize := by
    rw [List.length_replicate]
    by_cases h : 512 < block.BlockSize
    · rw [if_pos h]; omega
    · rw [if_neg h]; omega
  refine ⟨_, hok, hlen, ?_, rfl, rfl⟩
  intro h
  show block.BlockSize ∣
    (List.replicate (if 512 < block.BlockSize then block.BlockSize else 512) 0).length
  rw [hlen]
  rcases h with h | h
  · by_cases h2 : 512 ≤ block.BlockSize
    · rw [Nat.max_eq_right h2]
    · rw [Nat.max_eq_left (by omega)]; exact h
  · rw [Nat.max_eq_right h]

/-- Witness: the statement above at the 3-byte no-op block and a 3-byte IV. -/
theorem newCTR_buffer_witness :
    ∃ s, ctr.NewCTR (noopBlock 3) [0, 0, 0] = .ok s
      ∧ s.out.length = max 512 (noopBlock 3).BlockSize
      ∧ ((noopBlock 3).BlockSize ∣ 512 ∨ 512 ≤ (noopBlock 3).BlockSize
          → (noopBlock 3).BlockSize ∣ s.out.length)
      ∧ s.outLen = 0 ∧ s.outUsed = 0 :=
  newCTR_buffer (noopBlock 3) [0, 0, 0] rfl

/-- Counterexample to C18 as stated: for the no-op block of size 3 and a 3-byte IV,
`NewCTR` returns a stream whose buffer has capacity 512, which is not a whole multiple
of the block size 3. -/
theorem newCTR_capacity_not_multiple :
    1 ≤ (noopBlock 3).BlockSize ∧ [0, 0, 0].length = (noopBlock 3).BlockSize ∧
      ∃ s, ctr.NewCTR (noopBlock 3) [0, 0, 0] = .ok s ∧ s.out.length = 512 ∧
        ¬ ((noopBlock 3).BlockSize ∣ s.out.length) := by
  refine ⟨by decide, rfl, ⟨noopBlock 3, [0, 0, 0], List.replicate 512 0, 0, 0⟩, rfl, ?_, ?_⟩
  · exact List.length_replicate 512 0
  · show ¬ (3 ∣ (List.replicate 512 0).length)
    rw [List.length_replicate]
    decide

/-- C19: for every key `k`, `newSubKeys(k)` returns exactly 16 subkeys and every one of
them is less than `2 ^ 48`. -/
theorem newSubKeys_sixteen_48bit (k : Nat) :
    (des.newSubKeys k).length = 16 ∧ ∀ x ∈ des.newSubKeys k, x < 2 ^ 48 :=
  des.newSubKeys_spec k

/-- Witness: the statement above at the key `133457799BBCDFF1` and its first subkey
`1B02EFFC7072`. -/
theorem newSubKeys_sixteen_48bit_witness :
    0x1B02EFFC7072 ∈ des.newSubKeys 0x133457799BBCDFF1 ∧ 0x1B02EFFC7072 < 2 ^ 48 :=
  ⟨by decide!, (newSubKeys_sixteen_48bit 0x133457799BBCDFF1).2 _ (by decide!)⟩

/-- C20: for every key of 16, 24 or 32 bytes, with `enc` and `dec` the schedules that
`expandKey` builds (those of the cipher that `NewCipher` returns) and `n` their common
length: `dec[0] = enc[n-1]`, `dec[n-1] = enc[0]`, and for every `0 < i < n-1` and `j < 4`
the word `dec[i][j]` is the inverse MixColumns transform (multipliers 14, 11, 13, 9) of
`enc[n-1-i][j]`, and the MixColumns transform of `encryptBlock` (multipliers 2, 3, 1, 1)
takes `dec[i][j]` back to `enc[n-1-i][j]`. -/
theorem expandKey_inverse_schedule (key : List Nat)
    (hlen : key.length = 16 ∨ key.length = 24 ∨ key.length = 32) (hkb : ∀ x ∈ key, x < 256) :
    ∃ enc dec n, n = key.length / 4 + 7
      ∧ aes.expandKey key (aes.zeroSchedule n) (some (aes.zeroSchedule n)) = .ok (enc, some dec)
      ∧ aes.NewCipher key = .ok ⟨enc, dec⟩
      ∧ enc.length = n ∧ dec.length = n
      ∧ dec.getD 0 [] = enc.getD (n - 1) []
      ∧ dec.getD (n - 1) [] = enc.getD 0 []
      ∧ ∀ i j, 0 < i → i < n - 1 → j < 4 →
          (dec.getD i []).length = 4 ∧ (enc.getD (n - 1 - i) []).length = 4
          ∧ aes.get2 dec i j = aes.invMixColumn (aes.get2 enc (n - 1 - i) j)
          ∧ aes.mixColumn (aes.get2 dec i j) = aes.get2 enc (n - 1 - i) j := by
  obtain ⟨c, hc, h3, hse, hsd, hbd, hdec⟩ := aes.NewCipher_ok key hlen hkb
  refine ⟨c.enc, c.dec, _, rfl, aes.NewCipher_expandKey key c hc, hc, hse.1, hsd.1, ?_, ?_, ?_⟩
  · apply aes.row_ext _ _ (hsd.2 0 (by omega)) (hse.2 _ (by omega))
    intro j hj
    have h := hdec 0 (by omega) j hj
    unfold aes.decWord at h
    rw [if_neg (by omega)] at h
    simpa [aes.get2] using h
  · apply aes.row_ext _ _ (hsd.2 _ (by omega)) (hse.2 0 (by omega))
    intro j hj
    have h := hdec (key.length / 4 + 7 - 1) (by omega) j hj
    unfold aes.decWord at h
    rw [if_neg (by omega)] at h
    have e : key.length / 4 + 7 - (key.length / 4 + 7 - 1) - 1 = 0 := by omega
    rw [e] at h
    simpa [aes.get2] using h
  · intro i j hi0 hi hj
    have h := hdec i (by omega) j hj
    unfold aes.decWord at h
    rw [if_pos ⟨hi0, hi⟩] at h
    have e : key.length / 4 + 7 - i - 1 = key.length / 4 + 7 - 1 - i := by omega
    rw [e] at h
    refine ⟨hsd.2 i (by omega), hse.2 _ (by omega), h, ?_⟩
    rw [h, aes.mixColumn_invMixColumn _ (hbd _ _)]

/-- Witness: the statement above at the FIPS-197 Appendix A 128-bit key. -/
theorem expandKey_inverse_schedule_witness :
    ∃ enc dec n, n = aes.keyA1.length / 4 + 7
      ∧ aes.expandKey aes.keyA1 (aes.zeroSchedule n) (some (aes.zeroSchedule n))
          = .ok (enc, some dec)
      ∧ aes.NewCipher aes.keyA1 = .ok ⟨enc, dec⟩
      ∧ enc.length = n ∧ dec.length = n
      ∧ dec.getD 0 [] = enc.getD (n - 1) []
      ∧ dec.getD (n - 1) [] = enc.getD 0 []
      ∧ ∀ i j, 0 < i → i < n - 1 → j < 4 →
          (dec.getD i []).length = 4 ∧ (enc.getD (n - 1 - i) []).length = 4
          ∧ aes.get2 dec i j = aes.invMixColumn (aes.get2 enc (n - 1 - i) j)
          ∧ aes.mixColumn (aes.get2 dec i j) = aes.get2 enc (n - 1 - i) j :=
  expandKey_inverse_schedule aes.keyA1 (by decide) (by decide)

/-- C21: for all bytes `a` and `b`, `gmul(a, b)` is the product of `a` and `b` in
GF(2^8): the carry-less product of `a` and `b` reduced modulo `x^8 + x^4 + x^3 + x + 1`
(`0x11b`). Consequently `gmul` is commutative, `gmul(1, b) = b`, and for every byte `c`,
`gmul(a, b XOR c) = gmul(a, b) XOR gmul(a, c)`. -/
theorem gmul_is_gf256_product (a b c : Nat) (ha : a < 256) (hb : b < 256) (hc : c < 256) :
    aes.gmul a b = aes.gf256Mul a b
    ∧ aes.gmul a b = aes.gmul b a
    ∧ aes.gmul 1 b = b
    ∧ aes.gmul a (b ^^^ c) = aes.gmul a b ^^^ aes.gmul a c
    ∧ aes.gmul a b < 256 ∧ b ^^^ c < 256 :=
  ⟨aes.gmul_eq_gf256Mul a b ha hb, aes.gmul_comm a b ha hb, aes.gmul_one_left b hb,
    aes.gmul_xor a b c, aes.gmul_lt a b ha, xor_lt_256 hb hc⟩

/-- Witness: the statement above at the bytes `57`, `83` (whose product is `c1`) and
`13`. -/
theorem gmul_is_gf256_product_witness :
    aes.gmul 0x57 0x83 = aes.gf256Mul 0x57 0x83
    ∧ aes.gmul 0x57 0x83 = aes.gmul 0x83 0x57
    ∧ aes.gmul 1 0x83 = 0x83
    ∧ aes.gmul 0x57 (0x83 ^^^ 0x13) = aes.gmul 0x57 0x83 ^^^ aes.gmul 0x57 0x13
    ∧ aes.gmul 0x57 0x83 < 256 ∧ 0x83 ^^^ 0x13 < 256 :=
  gmul_is_gf256_product 0x57 0x83 0x13 (by decide) (by decide) (by decide)

/-- C22: (as amended) each iteration of the loop of `XORKeyStream` starts with the refill
check, and the check invokes `refill` exactly when the unconsumed remainder
`len(out) - outUsed` is at most one block (less than or equal to `BlockSize`); when more
than `BlockSize` unconsumed bytes remain no refill happens and the stream, its counter
included, is left as it is. -/
theorem ctr_refill_condition (fuel n : Nat) (s : ctr.ctrStream) (dst : List Nat) (x : Nat)
    (xs : List Nat) :
    ctr.xorKeyStreamLoop fuel (n + 1) s dst (x :: xs)
      = (do
          let s1 ← s.refillCheck fuel
          if s1.outLen < s1.outUsed then throw Fault.panic
          else do
            let r ← ctr.xorBytes dst (x :: xs) ((s1.out.take s1.outLen).drop s1.outUsed)
            let rest ← ctr.xorKeyStreamLoop fuel n { s1 with outUsed := s1.outUsed + r.2 }
              (r.1.drop r.2) ((x :: xs).drop r.2)
            pure (rest.1, r.1.take r.2 ++ rest.2))
    ∧ (s.outLen - s.outUsed ≤ s.block.BlockSize → s.refillCheck fuel = s.refill fuel)
    ∧ (s.block.BlockSize < s.outLen - s.outUsed → s.refillCheck fuel = .ok s) :=
  ⟨ctr.xorKeyStreamLoop_cons fuel n s dst x xs, ctr.refillCheck_le fuel s,
    ctr.refillCheck_gt fuel s⟩

/-- Witness: the statement above at the fresh stream of the 2-byte no-op block, whose
remainder is 0: the check invokes `refill`. -/
theorem ctr_refill_condition_witness :
    (⟨noopBlock 2, [0, 0], List.replicate 512 0, 0, 0⟩ : ctr.ctrStream).refillCheck 600
      = (⟨noopBlock 2, [0, 0], List.replicate 512 0, 0, 0⟩ : ctr.ctrStream).refill 600 :=
  (ctr_refill_condition 600 0 ⟨noopBlock 2, [0, 0], List.replicate 512 0, 0, 0⟩ [0] 1 []).2.1
    (by decide)

/-- Counterexample to C22 as stated: the fresh stream of the no-op block of size 171 (two
blocks fit in the 512-byte buffer) handles 171 bytes; exactly `BlockSize = 171` unconsumed
keystream bytes remain, and the refill check of the next iteration still invokes `refill`,
which advances the counter from 2 to 3. -/
theorem ctr_refill_at_one_block :
    (noopBlock 171).BlockSize = 171 ∧
      ctr.runRefillCheck (noopBlock 171) (List.replicate 171 0) (List.replicate 171 0) 700
        = .ok (171, List.replicate 170 0 ++ [2], List.replicate 170 0 ++ [3]) ∧
      List.replicate 170 0 ++ [2] ≠ List.replicate 170 0 ++ [3] := by
  decide!

/-- C23: for every block cipher of block size `bs ≥ 1` whose `Encrypt` returns, every
stream reachable from `NewCTR` and every `src`, `dst` with `len(dst) ≥ len(src)`,
`XORKeyStream` terminates: `refill` returns after at most `cap(out) / bs` blocks; after
the refill check at least one unconsumed keystream byte is available, so `xorBytes`
consumes at least one byte of a non-empty `src`; the loop returns within `len(src)`
iterations; and the call returns. -/
theorem ctr_xorKeyStream_terminates (block : Block) (s : ctr.ctrStream) (dst src : List Nat)
    (fuel : Nat) (hbs : 1 ≤ block.BlockSize) (hE : block.EncryptSucceeds)
    (hs : ctr.ctrStream.Reachable block s) (hlen : src.length ≤ dst.length)
    (hfuel : 512 + src.length ≤ fuel) :
    (∃ s1, s.refill (s.out.length / block.BlockSize) = .ok s1)
    ∧ (∃ s1, s.refillCheck fuel = .ok s1 ∧ s1.outUsed < s1.outLen ∧
        (src ≠ [] → ∃ d k, ctr.xorBytes dst src ((s1.out.take s1.outLen).drop s1.outUsed)
          = .ok (d, k) ∧ 1 ≤ k))
    ∧ (∃ r, ctr.xorKeyStreamLoop fuel src.length s dst src = .ok r)
    ∧ (∃ r, s.XORKeyStream fuel dst src = .ok r) := by
  have hinv := ctr.reachable_inv block hE hbs s hs
  have hf : ¬ ((fuel + 1) * block.BlockSize ≤ max 512 block.BlockSize) :=
    ctr.fuel_enough block.BlockSize fuel hbs (by omega)
  refine ⟨?_, ?_, ?_, ?_⟩
  · rcases ctr.refill_run block hE (s.out.length / block.BlockSize) s hinv with h | h
    · exact absurd h.2 (ctr.succ_div_mul_gt _ _ hbs)
    · obtain ⟨s1, h1, _⟩ := h
      exact ⟨s1, h1⟩
  · rcases ctr.refillCheck_run block hE hbs fuel s hinv with h | h
    · exact absurd h.2 hf
    · obtain ⟨s1, h1, h2, h3⟩ := h
      refine ⟨s1, h1, h3, ?_⟩
      intro hne
      have hsl : ((s1.out.take s1.outLen).drop s1.outUsed).length = s1.outLen - s1.outUsed := by
        have := h2.2.2.2.2
        simp only [List.length_drop, List.length_take]; omega
      obtain ⟨d, hx1, _, _⟩ := ctr.xorBytes_spec dst src
        ((s1.out.take s1.outLen).drop s1.outUsed) (by omega)
      refine ⟨d, _, hx1, ?_⟩
      have : 0 < src.length := List.length_pos.mpr hne
      rw [hsl]
      omega
  · rcases ctr.xorKeyStreamLoop_run block hE hbs fuel src.length s dst src hinv hlen with h | h
    · rcases h.2 with h2 | h2
      · exact absurd h2 hf
      · omega
    · obtain ⟨s1, d, h1, _⟩ := h
      exact ⟨_, h1⟩
  · rcases ctr.XORKeyStream_run block hE hbs fuel s dst src hinv with h | h | h
    · omega
    · omega
    · obtain ⟨_, s1, d, h1, _⟩ := h
      exact ⟨_, h1⟩

/-- Witness: the statement above at the fresh stream of the 2-byte no-op block, a 3-byte
`src` and a 3-byte `dst`: the call returns. -/
theorem ctr_xorKeyStream_terminates_witness :
    ∃ r, (⟨noopBlock 2, [0, 0], List.replicate 512 0, 0, 0⟩ : ctr.ctrStream).XORKeyStream 515
      [0, 0, 0] [1, 2, 3] = .ok r :=
  (ctr_xorKeyStream_terminates (noopBlock 2) ⟨noopBlock 2, [0, 0], List.replicate 512 0, 0, 0⟩
    [0, 0, 0] [1, 2, 3] 515 (by decide) (noopBlock_encryptSucceeds 2)
    (ctr.ctrStream.Reachable.fresh [0, 0] _ rfl) (by decide) (by decide)).2.2.2

/-- C24: single DES reproduces the worked vector of "The DES Algorithm Illustrated": with
the key `133457799BBCDFF1`, `Encrypt` of the block `0123456789ABCDEF` is
`85E813540F0AB405` and `Decrypt` of `85E813540F0AB405` is `0123456789ABCDEF`; the key
bytes read as the word `0x133457799BBCDFF1`, and the first subkey that `newSubKeys`
produces for it is `0x1B02EFFC7072`. -/
theorem des_worked_vector :
    des.runEncrypt des.keyI des.plainI = .ok des.cipherI
    ∧ des.runDecrypt des.keyI des.cipherI = .ok des.plainI
    ∧ beUint64 des.keyI = .ok 0x133457799BBCDFF1
    ∧ (des.newSubKeys 0x133457799BBCDFF1).head? = some 0x1B02EFFC7072 := by
  decide!

/-- C25: for every block cipher of block size `bs ≥ 1` whose `Encrypt` computes the
function `E`, every IV of `bs` bytes and all byte strings `a` and `b`: `XORKeyStream` on
`a` and then on `b`, on the stream of `NewCTR`, produces, concatenated, exactly what one
call of `XORKeyStream` on `a ++ b` produces on the fresh stream of the same cipher and IV.
The destination buffers are any buffers long enough; only the bytes written count. -/
theorem ctr_xorKeyStream_split (block : Block) (E : List Nat → List Nat)
    (iv a b dstA dstB dstAB : List Nat) (fuel : Nat) (hbs : 1 ≤ block.BlockSize)
    (hE : block.Computes E) (hiv : iv.length = block.BlockSize) (hivb : ∀ x ∈ iv, x < 256)
    (hA : a.length ≤ dstA.length) (hB : b.length ≤ dstB.length)
    (hAB : a.length + b.length ≤ dstAB.length) (hfuel : 512 + a.length + b.length ≤ fuel) :
    ∃ s0 s1 s2 s3 outA outB outAB,
      ctr.NewCTR block iv = .ok s0 ∧
      s0.XORKeyStream fuel dstA a = .ok (s1, outA) ∧
      s1.XORKeyStream fuel dstB b = .ok (s2, outB) ∧
      s0.XORKeyStream fuel dstAB (a ++ b) = .ok (s3, outAB) ∧
      outA.take a.length ++ outB.take b.length = outAB.take (a.length + b.length) := by
  obtain ⟨s0, h0, hat, hcap⟩ := ctr.NewCTR_spec block E iv hiv hivb
  have hf : s0.out.length < (fuel + 1) * block.BlockSize := by
    have h1 : 513 * block.BlockSize ≤ (fuel + 1) * block.BlockSize :=
      Nat.mul_le_mul_right _ (by omega)
    rw [hcap]
    split <;> omega
  obtain ⟨s1, outA, hA1, hA2, hA3, hA4, hA5⟩ := ctr.XORKeyStream_at block E iv hE hbs hiv fuel
    s0 0 dstA a hat hf hA (by omega)
  obtain ⟨s2, outB, hB1, _, _, hB4, hB5⟩ := ctr.XORKeyStream_at block E iv hE hbs hiv fuel
    s1 (0 + a.length) dstB b hA2 (by rw [hA3]; exact hf) hB (by omega)
  obtain ⟨s3, outAB, hC1, _, _, hC4, hC5⟩ := ctr.XORKeyStream_at block E iv hE hbs hiv fuel
    s0 0 dstAB (a ++ b) hat hf (by rw [List.length_append]; exact hAB)
    (by rw [List.length_append]; omega)
  refine ⟨s0, s1, s2, s3, outA, outB, outAB, h0, hA1, hB1, hC1, ?_⟩
  apply ext_getD
  · simp only [List.length_append, List.length_take]
    omega
  · intro j hj
    simp only [List.length_append, List.length_take] at hj
    rw [getD_take _ _ _ (by omega), hC5, List.length_append, if_pos (by omega)]
    by_cases hja : j < a.length
    · rw [List.getD_append _ _ _ _ (by rw [List.length_take]; omega), getD_take _ _ _ hja, hA5,
        if_pos hja, List.getD_append _ _ _ _ hja]
    · rw [List.getD_append_right _ _ _ _ (by rw [List.length_take]; omega), List.length_take,
        Nat.min_eq_left (by omega), getD_take _ _ _ (by omega), hB5, if_pos (by omega),
        List.getD_append_right _ _ _ _ (by omega)]
      congr 2
      omega

/-- Witness: the statement above at the 2-byte no-op block, the IV `ff ff`, `a` of three
bytes and `b` of two bytes. -/
theorem ctr_xorKeyStream_split_witness :
    ∃ s0 s1 s2 s3 outA outB outAB,
      ctr.NewCTR (noopBlock 2) [0xff, 0xff] = .ok s0 ∧
      s0.XORKeyStream 517 [0, 0, 0] [1, 2, 3] = .ok (s1, outA) ∧
      s1.XORKeyStream 517 [0, 0] [4, 5] = .ok (s2, outB) ∧
      s0.XORKeyStream 517 [0, 0, 0, 0, 0] ([1, 2, 3] ++ [4, 5]) = .ok (s3, outAB) ∧
      outA.take [1, 2, 3].length ++ outB.take [4, 5].length
        = outAB.take ([1, 2, 3].length + [4, 5].length) :=
  ctr_xorKeyStream_split (noopBlock 2) id [0xff, 0xff] [1, 2, 3] [4, 5] [0, 0, 0] [0, 0]
    [0, 0, 0, 0, 0] 517 (by decide) (noopBlock_computes 2) (by decide) (by decide) (by decide)
    (by decide) (by decide) (by decide)

/-- C26: for every 24-byte key whose first two 8-byte parts are equal, `ka ++ ka ++ kc`,
and all byte strings `dst`, `src`: Triple-DES `Encrypt(dst, src)` is single-DES
`Encrypt(dst, src)` under the third part `kc`, and likewise `Decrypt`. In particular, for
the key `ka ++ ka ++ ka`, Triple-DES `Encrypt` and `Decrypt` are single-DES `Encrypt` and
`Decrypt` under `ka`. -/
theorem tripleDES_equal_parts (ka kc dst src : List Nat) (hka : ka.length = 8)
    (hkc : kc.length = 8) (hab : ∀ x ∈ ka, x < 256) (hcb : ∀ x ∈ kc, x < 256)
    (hsb : ∀ x ∈ src, x < 256) :
    (∃ c c3, des.NewTripleDESCipher (ka ++ ka ++ kc) = .ok c ∧ des.NewCipher kc = .ok c3 ∧
      c.Encrypt dst src = c3.Encrypt dst src ∧ c.Decrypt dst src = c3.Decrypt dst src)
    ∧ (∃ c c1, des.NewTripleDESCipher (ka ++ ka ++ ka) = .ok c ∧ des.NewCipher ka = .ok c1 ∧
      c.Encrypt dst src = c1.Encrypt dst src ∧ c.Decrypt dst src = c1.Decrypt dst src) := by
  constructor
  · obtain ⟨c, c3, h1, h2, h12, h3⟩ := des.NewTripleDESCipher_aab ka kc hka hkc hab hcb
    have h := des.tripleDES_collapse c h12 dst src hsb
    rw [h3] at h
    exact ⟨c, c3, h1, h2, h.1, h.2⟩
  · obtain ⟨c, c3, h1, h2, h12, h3⟩ := des.NewTripleDESCipher_aab ka ka hka hka hab hab
    have h := des.tripleDES_collapse c h12 dst src hsb
    rw [h3] at h
    exact ⟨c, c3, h1, h2, h.1, h.2⟩

/-- Witness: the statement above at the key of the worked example, repeated, and its
plaintext block. -/
theorem tripleDES_equal_parts_witness :
    ∃ c c1, des.NewTripleDESCipher (des.keyI ++ des.keyI ++ des.keyI) = .ok c ∧
      des.NewCipher des.keyI = .ok c1 ∧
      c.Encrypt (List.replicate 8 0) des.plainI = c1.Encrypt (List.replicate 8 0) des.plainI ∧
      c.Decrypt (List.replicate 8 0) des.plainI = c1.Decrypt (List.replicate 8 0) des.plainI :=
  (tripleDES_equal_parts des.keyI des.keyI (List.replicate 8 0) des.plainI (by decide)
    (by decide) (by decide) (by decide) (by decide)).2

/-- C27: the DES key schedule ignores the eight parity bits: for every key `k`,
`newSubKeys(k) = newSubKeys(k AND 0xFEFEFEFEFEFEFEFE)`; so two 8-byte keys that agree
outside the least significant bit of every byte give the same cipher. -/
theorem newSubKeys_ignores_parity (k : Nat) (key1 key2 : List Nat)
    (hl1 : key1.length = 8) (hl2 : key2.length = 8)
    (hb1 : ∀ x ∈ key1, x < 256) (hb2 : ∀ x ∈ key2, x < 256)
    (h : ∀ i < 8, key1.getD i 0 &&& 0xFE = key2.getD i 0 &&& 0xFE) :
    des.newSubKeys k = des.newSubKeys (k &&& 0xFEFEFEFEFEFEFEFE)
    ∧ des.NewCipher key1 = des.NewCipher key2
    ∧ ∃ c, des.NewCipher key1 = .ok c :=
  ⟨(des.newSubKeys_mask k).symm, des.NewCipher_parity key1 key2 hl1 hl2 hb1 hb2 h,
    match des.desNewCipher_ok key1 hl1 hb1 with
    | ⟨_, _, hc⟩ => ⟨_, hc⟩⟩

/-- Witness: the statement above at the key `133457799BBCDFF1` and the key
`123456789ABCDEF0`, which is the same key with the parity bits cleared. -/
theorem newSubKeys_ignores_parity_witness :
    des.newSubKeys 0x133457799BBCDFF1
        = des.newSubKeys (0x133457799BBCDFF1 &&& 0xFEFEFEFEFEFEFEFE)
    ∧ des.NewCipher des.keyI = des.NewCipher [0x12, 0x34, 0x56, 0x78, 0x9A, 0xBC, 0xDE, 0xF0]
    ∧ ∃ c, des.NewCipher des.keyI = .ok c :=
  newSubKeys_ignores_parity 0x133457799BBCDFF1 des.keyI
    [0x12, 0x34, 0x56, 0x78, 0x9A, 0xBC, 0xDE, 0xF0] (by decide) (by decide) (by decide)
    (by decide) (by decide)

/-- C28: the table `sBox` is the Rijndael S-box computed with the program's own `gmul`:
`sBox[0] = 0x63`, and for every byte `x ≠ 0` there is exactly one byte `y` with
`gmul(x, y) = 1`, and `sBox[x] = y XOR rotl8(y,1) XOR rotl8(y,2) XOR rotl8(y,3) XOR
rotl8(y,4) XOR 0x63`; and `inverseSBox[sBox[x]] = x` for every byte `x`. -/
theorem sBox_is_rijndael (x : Nat) (hx : x < 256) :
    aes.sBox 0 = 0x63
    ∧ (0 < x → ∃ y, y < 256 ∧ aes.gmul x y = 1
        ∧ (∀ z, z < 256 → aes.gmul x z = 1 → z = y)
        ∧ aes.sBox x = aes.sBoxAffine y)
    ∧ aes.inverseSBox (aes.sBox x) = x := by
  refine ⟨by decide, ?_, aes.inverseSBox_sBox x hx⟩
  intro h0
  obtain ⟨h1, h2, h3⟩ := aes.sBox_is_affine_of_inverse x hx h0
  exact ⟨_, h3, h1, fun z hz hg => aes.gmul_inverse_unique x _ z hx h3 hz h1 hg, h2.symm⟩

/-- Witness: the statement above at the byte `53`, whose inverse is `ca` and whose S-box
entry is `ed`. -/
theorem sBox_is_rijndael_witness :
    0 < 0x53 ∧ ∃ y, y < 256 ∧ aes.gmul 0x53 y = 1
      ∧ (∀ z, z < 256 → aes.gmul 0x53 z = 1 → z = y)
      ∧ aes.sBox 0x53 = aes.sBoxAffine y :=
  ⟨by decide, (sBox_is_rijndael 0x53 (by decide)).2.1 (by decide)⟩
